import Mathlib

/-! Verification development for `programming_problems`

Shallow embedding of `src/strings/suffix_tree.cc` (an implementation of
Ukkonen's on-line suffix tree construction and of the substring query on it)
and of `src/strings/kmp_match.cc`.

Conventions of the embedding:

* A C++ pointer is an `Option Nat`: `none` is `NULL`, `some a` is the address
  `a`, an index into the heap of objects of the pointed-to type.  `new`
  appends an object to the heap, so the address of the new object is the
  previous size of the heap.  Nothing is freed before the destructor runs.
* A run that fails an `assert`, dereferences `NULL` or reads outside a
  container stops with a `Fault`; `<assert.h>` is included without `NDEBUG`.
* Loops whose termination is not syntactically evident take a `fuel`
  argument that bounds the number of executions of the loop body; running out
  of fuel is the fault `out_of_fuel`.
* `size_t` values are natural numbers, `int` values are integers; where the
  program can wrap around modulo `2 ^ 64` on values it really computes
  (`Edge::Span`, the index computed in `Contains`) the reduction is written
  out.  The `int` indices of `SuffixNode` are exact for texts shorter than
  `2 ^ 31` symbols.
-/

set_option autoImplicit false

namespace suffix_tree_impl

/-- The ways a run of the program can stop abnormally. -/
inductive Fault where
  /-- `assert(active_node != NULL)` in `SuffixNode::Canonize`. -/
  | assert_canonize_active_node
  /-- `assert(edge != NULL)` in `SuffixNode::Canonize`. -/
  | assert_canonize_edge
  /-- `assert(existing_edge != NULL)` in `SuffixTree::AddPrefix`. -/
  | assert_existing_edge
  /-- `assert(parent_node->GetEdge(current_char) == NULL)` in `SuffixTree::AddPrefix`. -/
  | assert_parent_edge
  /-- `assert(suffix_node->active_node != NULL)` in `SuffixTree::AddPrefix`. -/
  | assert_active_node
  /-- `assert(edge->end_node == NULL)` in `SuffixTree::SplitEdge`. -/
  | assert_split_end_node
  /-- A member access through a `NULL` pointer. -/
  | null_dereference
  /-- A pointer that is not the address of an allocated object. -/
  | dangling_pointer
  /-- A read of `text_[k]` with `k` beyond the terminating position. -/
  | out_of_range
  /-- The loop body was executed more often than the fuel allows. -/
  | out_of_fuel
  deriving DecidableEq, Repr

/-- `struct Edge`: a range `[start_index, end_index]` of the text and the child node. -/
structure Edge where
  start_index : Nat
  end_index : Nat
  end_node : Option Nat
  deriving DecidableEq, Repr

/-- `Edge::Span`: `end_index - start_index` in `size_t` arithmetic, that is modulo `2 ^ 64`. -/
def Edge.Span (e : Edge) : Nat :=
  if e.start_index ≤ e.end_index then e.end_index - e.start_index
  else e.end_index + 2 ^ 64 - e.start_index

/-- `struct Node`: the `std::map<char, Edge*>` as an association list, and the suffix link. -/
structure Node where
  edges : List (Char × Nat)
  suffix_node : Option Nat
  deriving DecidableEq, Repr

/-- `std::map::find` on the edge map. -/
def mapFind : List (Char × Nat) → Char → Option Nat
  | [], _ => none
  | (k, v) :: rest, c => if k = c then some v else mapFind rest c

/-- `m[c] = v` on the edge map: overwrite the entry of `c`, or insert one. -/
def mapSet : List (Char × Nat) → Char → Nat → List (Char × Nat)
  | [], c, v => [(c, v)]
  | (k, w) :: rest, c, v => if k = c then (c, v) :: rest else (k, w) :: mapSet rest c v

/-- `Node::GetEdge`: the edge stored under `c`, `NULL` when there is none. -/
def Node.GetEdge (n : Node) (c : Char) : Option Nat :=
  mapFind n.edges c

/-- `struct SuffixNode`, the active point.  Its `text` member always points to
the `text_` of the tree it belongs to and is not represented. -/
structure SuffixNode where
  first_char_index : Int
  last_char_index : Int
  active_node : Option Nat
  deriving DecidableEq, Repr

/-- `SuffixNode::IsExplicit`. -/
def SuffixNode.IsExplicit (s : SuffixNode) : Bool :=
  decide (s.first_char_index > s.last_char_index)

end suffix_tree_impl

open suffix_tree_impl

/-- Equality of results of fallible computations is decidable, so that closed
statements about runs of the program can be settled by evaluation. -/
instance instDecidableEqExcept {ε α : Type} [DecidableEq ε] [DecidableEq α] :
    DecidableEq (Except ε α)
  | .ok a, .ok b =>
    if h : a = b then isTrue (by rw [h]) else isFalse (by intro h1; cases h1; exact h rfl)
  | .error a, .error b =>
    if h : a = b then isTrue (by rw [h]) else isFalse (by intro h1; cases h1; exact h rfl)
  | .ok _, .error _ => isFalse (by intro h; cases h)
  | .error _, .ok _ => isFalse (by intro h; cases h)

/-- The state of a `SuffixTree` object: `text_`, and the heaps of the `Node` and
`Edge` objects it has allocated.  `root_` is the first node allocated. -/
structure SuffixTree where
  text_ : List Char
  nodes : List Node
  edges : List Edge
  deriving DecidableEq, Repr

namespace SuffixTree

/-- The member `root_`: the node allocated by the constructor. -/
def root_ : Nat := 0

/-- The constructor `SuffixTree()`: `root_ = new Node`. -/
def new : SuffixTree :=
  { text_ := [], nodes := [{ edges := [], suffix_node := none }], edges := [] }

/-- `text_[k]` on a `std::string`: the symbol at `k`, the terminating `'\0'`
at `k = size()`, undefined (a fault) beyond. -/
def charAt (text : List Char) (k : Nat) : Except Fault Char :=
  match text[k]? with
  | some c => .ok c
  | none => if k = text.length then .ok (Char.ofNat 0) else .error .out_of_range

/-- `text_[k]` with an `int` index, which is converted to `size_t`. -/
def charAtInt (text : List Char) (k : Int) : Except Fault Char :=
  if k < 0 then .error .out_of_range else charAt text k.toNat

/-- Dereference a `Node*`. -/
def nodeAt (t : SuffixTree) (p : Option Nat) : Except Fault Node :=
  match p with
  | none => .error .null_dereference
  | some a =>
    match t.nodes[a]? with
    | some n => .ok n
    | none => .error .dangling_pointer

/-- Dereference an `Edge*`. -/
def edgeAt (t : SuffixTree) (p : Nat) : Except Fault Edge :=
  match t.edges[p]? with
  | some e => .ok e
  | none => .error .dangling_pointer

/-- `SuffixNode::Canonize`.  `fuel` bounds the executions of the body of the
`while` loop. -/
def Canonize (t : SuffixTree) : Nat → SuffixNode → Except Fault SuffixNode
  | 0, sn => if sn.IsExplicit then .ok sn else .error .out_of_fuel
  | fuel + 1, sn =>
    if sn.IsExplicit then .ok sn
    else
      match sn.active_node with
      | none => .error .assert_canonize_active_node
      | some a =>
        -- const char t = (*text)[first_char_index];
        match charAtInt t.text_ sn.first_char_index with
        | .error f => .error f
        | .ok c =>
          -- const Edge* edge = active_node->GetEdge(t);
          match t.nodeAt (some a) with
          | .error f => .error f
          | .ok node =>
            match node.GetEdge c with
            | none => .error .assert_canonize_edge
            | some edge =>
              match t.edgeAt edge with
              | .error f => .error f
              | .ok e =>
                if (e.Span : Int) < sn.last_char_index - sn.first_char_index then
                  Canonize t fuel
                    { sn with
                      active_node := e.end_node
                      first_char_index := sn.first_char_index + (e.Span + 1 : Nat) }
                else .ok sn

/-- The fuel `Canonize` is run with: the number of symbols of the active
point, which bounds the executions of the loop body since each but the last
consumes at least one symbol. -/
def canonizeFuel (sn : SuffixNode) : Nat :=
  (sn.last_char_index - sn.first_char_index + 1).toNat

/-- `SuffixTree::SplitEdge`. Returns the new state and the address of the new node. -/
def SplitEdge (t : SuffixTree) (edge : Nat) (span : Nat) : Except Fault (SuffixTree × Nat) :=
  match t.edgeAt edge with
  | .error f => .error f
  | .ok e =>
    -- new_edge = new Edge(edge->start_index+span+1, edge->end_index);
    let new_edge := t.edges.length
    let edges1 := t.edges ++ [{ start_index := e.start_index + span + 1,
                                end_index := e.end_index, end_node := none }]
    -- edge->end_index = edge->start_index + span;
    let e1 : Edge := { e with end_index := e.start_index + span }
    -- new_node = new Node();
    let new_node := t.nodes.length
    -- next_char = text_[edge->start_index+span+1];
    match charAt t.text_ (e1.start_index + span + 1) with
    | .error f => .error f
    | .ok next_char =>
      -- new_node->edges[next_char] = new_edge;
      let nodes1 := t.nodes ++ [{ edges := mapSet [] next_char new_edge, suffix_node := none }]
      -- assert(edge->end_node == NULL);
      if e1.end_node ≠ none then .error .assert_split_end_node
      else
        -- edge->end_node = new_node;
        let e2 : Edge := { e1 with end_node := some new_node }
        .ok ({ t with nodes := nodes1, edges := edges1.set edge e2 }, new_node)

/-- The local variables of `AddPrefix` that live across iterations of its
`for (;;)` loop, with the tree and the active point they act on. -/
structure LoopState where
  tree : SuffixTree
  suffix_node : SuffixNode
  prev_parent_node : Option Nat
  parent_node : Option Nat
  deriving DecidableEq, Repr

/-- `prev_parent_node->suffix_node = parent_node`, guarded as in the source by
`prev_parent_node != NULL && prev_parent_node != root_`. -/
def setSuffixLink (t : SuffixTree) (prev_parent_node parent_node : Option Nat) :
    Except Fault SuffixTree :=
  match prev_parent_node with
  | none => .ok t
  | some p =>
    if p = root_ then .ok t
    else
      match t.nodeAt (some p) with
      | .error f => .error f
      | .ok n => .ok { t with nodes := t.nodes.set p { n with suffix_node := parent_node } }

/-- Lines 161-180 of `AddPrefix`, the test at the head of the loop body:
`none` when the body leaves the loop by `break` (the prefix is already
present), otherwise the tree, after a split when the active point is implicit,
and the address `parent_node` of the node that gets the new leaf. -/
def AddPrefixLocate (t : SuffixTree) (suffix_node : SuffixNode) (current_char : Char) :
    Except Fault (Option (SuffixTree × Nat)) :=
  if suffix_node.IsExplicit then
    -- if (suffix_node->active_node->GetEdge(current_char) != NULL) break;
    match suffix_node.active_node with
    | none => .error .null_dereference
    | some a =>
      match t.nodeAt (some a) with
      | .error f => .error f
      | .ok active =>
        if active.GetEdge current_char ≠ none then .ok none
        else .ok (some (t, a))
  else
    -- const char c = text_[suffix_node->first_char_index];
    match charAtInt t.text_ suffix_node.first_char_index with
    | .error f => .error f
    | .ok c =>
      -- existing_edge = suffix_node->active_node->GetEdge(c);
      match t.nodeAt suffix_node.active_node with
      | .error f => .error f
      | .ok active =>
        match active.GetEdge c with
        | none => .error .assert_existing_edge
        | some existing_edge =>
          -- size_t span = suffix_node->last_char_index - suffix_node->first_char_index;
          let span : Nat := (suffix_node.last_char_index - suffix_node.first_char_index).toNat
          match t.edgeAt existing_edge with
          | .error f => .error f
          | .ok e =>
            -- const char next_char = text_[existing_edge->start_index + span + 1];
            match charAt t.text_ (e.start_index + span + 1) with
            | .error f => .error f
            | .ok next_char =>
              if current_char ≠ next_char then
                -- parent_node = SplitEdge(existing_edge, span);
                match SplitEdge t existing_edge span with
                | .error f => .error f
                | .ok (t1, new_node) => .ok (some (t1, new_node))
              else .ok none

/-- Lines 183-185 of `AddPrefix`: the new leaf edge `[char_index, last_index]`
is stored under `current_char` in `parent_node`. -/
def AddPrefixInsert (t : SuffixTree) (parent_node : Nat) (current_char : Char)
    (char_index last_index : Nat) : Except Fault SuffixTree :=
  match t.nodeAt (some parent_node) with
  | .error f => .error f
  | .ok parent =>
    -- assert(parent_node->GetEdge(current_char) == NULL);
    if parent.GetEdge current_char ≠ none then .error .assert_parent_edge
    else
      -- new_edge = new Edge(char_index, last_index);
      let new_edge := t.edges.length
      let edges1 := t.edges ++ [{ start_index := char_index, end_index := last_index,
                                  end_node := none }]
      -- parent_node->edges[current_char] = new_edge;
      let nodes1 := t.nodes.set parent_node
        { parent with edges := mapSet parent.edges current_char new_edge }
      .ok { t with nodes := nodes1, edges := edges1 }

/-- Lines 191-198 of `AddPrefix`: the active point moves on to the next
shorter suffix, at the root by dropping its first symbol, elsewhere along the
suffix link of the active node. -/
def AddPrefixAdvance (t : SuffixTree) (suffix_node : SuffixNode) : Except Fault SuffixNode :=
  if suffix_node.active_node = some root_ then
    -- suffix_node->first_char_index++;
    .ok { suffix_node with first_char_index := suffix_node.first_char_index + 1 }
  else
    match suffix_node.active_node with
    | none => .error .assert_active_node
    | some a =>
      -- suffix_node->active_node = suffix_node->active_node->suffix_node;
      match t.nodeAt (some a) with
      | .error f => .error f
      | .ok n => .ok { suffix_node with active_node := n.suffix_node }

/-- One execution of the body of the `for (;;)` loop of `AddPrefix`.  The
Boolean of the result is `true` when the body left the loop by `break`. -/
def AddPrefixBody (char_index : Nat) (current_char : Char) (last_index : Nat)
    (s : LoopState) : Except Fault (Bool × LoopState) :=
  -- parent_node = suffix_node->active_node;
  let s := { s with parent_node := s.suffix_node.active_node }
  match AddPrefixLocate s.tree s.suffix_node current_char with
  | .error f => .error f
  | .ok none => .ok (true, s)
  | .ok (some (t1, parent_node)) =>
    match AddPrefixInsert t1 parent_node current_char char_index last_index with
    | .error f => .error f
    | .ok t2 =>
      match setSuffixLink t2 s.prev_parent_node (some parent_node) with
      | .error f => .error f
      | .ok t3 =>
        -- prev_parent_node = parent_node;
        match AddPrefixAdvance t3 s.suffix_node with
        | .error f => .error f
        | .ok sn1 =>
          -- suffix_node->Canonize();
          match Canonize t3 (canonizeFuel sn1) sn1 with
          | .error f => .error f
          | .ok sn2 =>
            .ok (false, { tree := t3, suffix_node := sn2,
                          prev_parent_node := some parent_node,
                          parent_node := some parent_node })

/-- The `for (;;)` loop of `AddPrefix`; `fuel` bounds the executions of its body. -/
def AddPrefixLoop (char_index : Nat) (current_char : Char) (last_index : Nat) :
    Nat → LoopState → Except Fault LoopState
  | 0, _ => .error .out_of_fuel
  | fuel + 1, s =>
    match AddPrefixBody char_index current_char last_index s with
    | .error f => .error f
    | .ok (true, s1) => .ok s1
    | .ok (false, s1) => AddPrefixLoop char_index current_char last_index fuel s1

/-- `SuffixTree::AddPrefix`, one phase of the construction. -/
def AddPrefix (fuel : Nat) (t : SuffixTree) (suffix_node : SuffixNode) (char_index : Nat) :
    Except Fault (SuffixTree × SuffixNode) :=
  match charAt t.text_ char_index with
  | .error f => .error f
  | .ok current_char =>
    let last_index := t.text_.length - 1
    match AddPrefixLoop char_index current_char last_index fuel
        { tree := t, suffix_node := suffix_node, prev_parent_node := none, parent_node := none } with
    | .error f => .error f
    | .ok s =>
      match setSuffixLink s.tree s.prev_parent_node s.parent_node with
      | .error f => .error f
      | .ok t1 =>
        -- suffix_node->last_char_index++;
        let sn1 := { s.suffix_node with last_char_index := s.suffix_node.last_char_index + 1 }
        match Canonize t1 (canonizeFuel sn1) sn1 with
        | .error f => .error f
        | .ok sn2 => .ok (t1, sn2)

/-- The loop `for (size_t i = 0; i < text_.length(); ++i) AddPrefix(&suffix_node, i)`
of `AddString`, from index `i` on, with `count` iterations left. -/
def AddStringLoop (fuel : Nat) : Nat → Nat → SuffixTree → SuffixNode →
    Except Fault (SuffixTree × SuffixNode)
  | 0, _, t, sn => .ok (t, sn)
  | count + 1, i, t, sn =>
    match AddPrefix fuel t sn i with
    | .error f => .error f
    | .ok (t1, sn1) => AddStringLoop fuel count (i + 1) t1 sn1

/-- `SuffixTree::AddString` with an explicit bound `fuel` on the number of
executions of the body of the `for (;;)` loop in each phase. -/
def AddStringFuel (fuel : Nat) (t : SuffixTree) (text : List Char) : Except Fault SuffixTree :=
  -- text_ = text;
  let t1 := { t with text_ := text }
  -- suffix_node = {0, -1, root_, &text_};
  let sn : SuffixNode := { first_char_index := 0, last_char_index := -1, active_node := some root_ }
  match AddStringLoop fuel text.length 0 t1 sn with
  | .error f => .error f
  | .ok (t2, _) => .ok t2

/-- `SuffixTree::AddString`.  Each phase may execute the body of its
`for (;;)` loop `text.length + 2` times, which is never exhausted
(`AddString_total`). -/
def AddString (t : SuffixTree) (text : List Char) : Except Fault SuffixTree :=
  AddStringFuel (text.length + 2) t text

/-- The variables of the loop of `Contains`. -/
structure ContainsState where
  p : Option Nat
  e : Option Nat
  is_in_tree : Bool
  cur_span_index : Nat
  i : Nat
  deriving DecidableEq, Repr

/-- One execution of the body of the loop of `Contains`, entered with
`i < text.size() && is_in_tree`.  Every `break` of the source follows
`is_in_tree = false`, which ends the loop at its next test too. -/
def ContainsBody (t : SuffixTree) (text : List Char) (s : ContainsState) :
    Except Fault ContainsState :=
  -- char c = text[i];
  match charAt text s.i with
  | .error f => .error f
  | .ok c =>
    match s.p with
    | none => .ok { s with is_in_tree := false }
    | some p =>
      match s.e with
      | none =>
        match t.nodeAt (some p) with
        | .error f => .error f
        | .ok node =>
          match mapFind node.edges c with
          | none => .ok { s with is_in_tree := false }
          | some edge => .ok { s with e := some edge, cur_span_index := 1, i := s.i + 1 }
      | some edge =>
        match t.edgeAt edge with
        | .error f => .error f
        | .ok e =>
          if s.cur_span_index ≤ e.Span then
            match charAt t.text_ ((e.start_index + s.cur_span_index) % 2 ^ 64) with
            | .error f => .error f
            | .ok d =>
              if c ≠ d then .ok { s with is_in_tree := false }
              else .ok { s with i := s.i + 1, cur_span_index := (s.cur_span_index + 1) % 2 ^ 64 }
          else .ok { s with p := e.end_node, e := none, cur_span_index := 0 }

/-- The loop of `Contains`: the final state together with the number of
executions of the body.  `fuel` bounds that number. -/
def ContainsLoop (t : SuffixTree) (text : List Char) :
    Nat → ContainsState → Except Fault (ContainsState × Nat)
  | 0, s => if s.i < text.length ∧ s.is_in_tree = true then .error .out_of_fuel else .ok (s, 0)
  | fuel + 1, s =>
    if s.i < text.length ∧ s.is_in_tree = true then
      match ContainsBody t text s with
      | .error f => .error f
      | .ok s1 =>
        match ContainsLoop t text fuel s1 with
        | .error f => .error f
        | .ok (s2, k) => .ok (s2, k + 1)
    else .ok (s, 0)

/-- The state in which `Contains` enters its loop. -/
def ContainsInit : ContainsState :=
  { p := some root_, e := none, is_in_tree := true, cur_span_index := 0, i := 0 }

/-- `SuffixTree::Contains`.  The loop is given fuel for `2 * text.size()`
executions of its body, which is never exhausted (`Contains_iterations`). -/
def Contains (t : SuffixTree) (text : List Char) : Except Fault Bool :=
  match ContainsLoop t text (2 * text.length) ContainsInit with
  | .error f => .error f
  | .ok (s, _) => .ok s.is_in_tree

end SuffixTree

open SuffixTree

/-- `AddString(T)` on a freshly constructed `SuffixTree`. -/
def buildTree (T : List Char) : Except Fault SuffixTree :=
  AddString SuffixTree.new T

/-- The first `k` phases of `AddString(T)` on a freshly constructed
`SuffixTree`: the tree and the active point when the loop of `AddString` has
called `AddPrefix` for the symbols at `0, ..., k - 1`. -/
def buildPhases (T : List Char) (k : Nat) : Except Fault (SuffixTree × SuffixNode) :=
  AddStringLoop (T.length + 2) k 0 { SuffixTree.new with text_ := T }
    { first_char_index := 0, last_char_index := -1, active_node := some root_ }

/-- `Contains(P)` after `AddString(T)` on a freshly constructed `SuffixTree`. -/
def containsAfterBuild (T P : List Char) : Except Fault Bool :=
  match buildTree T with
  | .error f => .error f
  | .ok t => Contains t P

/-- The tree that `AddString("abcabxabcd")` builds on a fresh `SuffixTree`,
the text of the test in `main`. -/
def scenarioTree : SuffixTree :=
  { text_ := "abcabxabcd".toList,
    nodes := [⟨[('a', 0), ('b', 1), ('c', 2), ('x', 7), ('d', 14)], none⟩,
              ⟨[('c', 3), ('x', 4)], some 2⟩, ⟨[('c', 5), ('x', 6)], some 0⟩,
              ⟨[('a', 8), ('d', 9)], some 4⟩, ⟨[('a', 10), ('d', 11)], some 5⟩,
              ⟨[('a', 12), ('d', 13)], some 0⟩],
    edges := [⟨0, 1, some 1⟩, ⟨1, 1, some 2⟩, ⟨2, 2, some 5⟩, ⟨2, 2, some 3⟩, ⟨5, 9, none⟩,
              ⟨2, 2, some 4⟩, ⟨5, 9, none⟩, ⟨5, 9, none⟩, ⟨3, 9, none⟩, ⟨9, 9, none⟩,
              ⟨3, 9, none⟩, ⟨9, 9, none⟩, ⟨3, 9, none⟩, ⟨9, 9, none⟩, ⟨9, 9, none⟩] }

namespace SuffixTree

/-- The potential that bounds the remaining executions of the loop body of
`Contains`: two for every pattern symbol not yet consumed, one more while an
edge is selected. -/
def containsPotential (text : List Char) (s : ContainsState) : Nat :=
  2 * (text.length - s.i) + (if s.e = none then 0 else 1)

/-- The iteration consumed one pattern symbol. -/
def Consumes (s s1 : ContainsState) : Prop :=
  s1.i = s.i + 1 ∧ s1.e ≠ none ∧ s1.p = s.p ∧ s1.is_in_tree = true

/-- The iteration moved from the selected, exhausted edge to its child node
without consuming a pattern symbol. -/
def MovesToChild (t : SuffixTree) (s s1 : ContainsState) : Prop :=
  ∃ edge e, s.e = some edge ∧ t.edges[edge]? = some e ∧ e.Span < s.cur_span_index ∧
    s1.p = e.end_node ∧ s1.e = none ∧ s1.i = s.i ∧ s1.is_in_tree = true

/-- The iteration reported the pattern absent, which ends the loop. -/
def ReportsAbsent (s s1 : ContainsState) : Prop :=
  s1.is_in_tree = false ∧ s1.i = s.i

end SuffixTree

namespace SuffixTree

/-- The symbols of an edge, `text_[start_index .. end_index]`. -/
def edgeLabel (t : SuffixTree) (e : Edge) : List Char :=
  (t.text_.drop e.start_index).take (e.Span + 1)

/-- The node at which the path from node `n` whose edge labels spell `w`
ends, `none` when no path from `n` that spells `w` ends at a node.  The edge
that leaves a node for a symbol is the one `GetEdge` returns; `fuel` bounds
the number of edges. -/
def descend (t : SuffixTree) : Nat → Nat → List Char → Option Nat
  | _, n, [] => some n
  | 0, _, _ :: _ => none
  | fuel + 1, n, c :: w =>
    match t.nodes[n]? with
    | none => none
    | some node =>
      match node.GetEdge c with
      | none => none
      | some p =>
        match t.edges[p]? with
        | none => none
        | some e =>
          if t.edgeLabel e ≠ [] ∧ (t.edgeLabel e).isPrefixOf (c :: w) = true then
            match e.end_node with
            | none => none
            | some child => descend t fuel child ((c :: w).drop (t.edgeLabel e).length)
          else none

/-- The node whose path from the root spells `w`. -/
def nodeSpelling (t : SuffixTree) (w : List Char) : Option Nat :=
  descend t w.length root_ w

end SuffixTree

/-- The tree that `AddString("aabaaabb")` builds on a fresh `SuffixTree`. -/
def linkTree : SuffixTree :=
  { text_ := "aabaaabb".toList,
    nodes := [⟨[('a', 0), ('b', 3)], none⟩, ⟨[('a', 1), ('b', 2)], some 0⟩,
              ⟨[('b', 4), ('a', 5)], some 0⟩, ⟨[('a', 6), ('b', 7)], some 4⟩,
              ⟨[('a', 8), ('b', 9)], some 0⟩],
    edges := [⟨0, 0, some 1⟩, ⟨1, 1, some 2⟩, ⟨2, 7, none⟩, ⟨2, 2, some 4⟩, ⟨2, 2, some 3⟩,
              ⟨5, 7, none⟩, ⟨3, 7, none⟩, ⟨7, 7, none⟩, ⟨3, 7, none⟩, ⟨7, 7, none⟩] }

/-! ### Invariants of the construction

The invariants are stated with two ghost functions: `dep a` is the depth of
the node at address `a` (the number of symbols on the path from the root),
`edep p` the depth of the node that owns the edge at address `p`. -/

namespace SuffixTree

/-- The shape of the heap of a tree under construction: every edge is a
non-empty range of the text that starts no earlier than the depth of its
owner, a leaf edge ends at the last symbol of the text, the child of an edge
lies deeper than its owner by the length of the edge, and a suffix link leads
to a node of smaller depth. -/
structure HeapInv (t : SuffixTree) (dep edep : Nat → Nat) : Prop where
  root : 0 < t.nodes.length
  dep_root : dep 0 = 0
  dep_pos : ∀ a, a < t.nodes.length → a ≠ 0 → 1 ≤ dep a
  owner : ∀ (a : Nat) (nd : Node) (c : Char) (p : Nat), t.nodes[a]? = some nd → (c, p) ∈ nd.edges →
    p < t.edges.length ∧ edep p = dep a
  edge : ∀ (p : Nat) (e : Edge), t.edges[p]? = some e →
    e.start_index ≤ e.end_index ∧ e.end_index < t.text_.length ∧ edep p ≤ e.start_index
  child : ∀ (p : Nat) (e : Edge) (m : Nat), t.edges[p]? = some e → e.end_node = some m →
    m < t.nodes.length ∧ dep m = edep p + (e.end_index - e.start_index) + 1
  leaf : ∀ (p : Nat) (e : Edge), t.edges[p]? = some e → e.end_node = none →
    e.end_index + 1 = t.text_.length
  link : ∀ (a : Nat) (nd : Node) (s : Nat), t.nodes[a]? = some nd → nd.suffix_node = some s →
    s < t.nodes.length ∧ dep s < dep a

/-- The active point `sn` is anchored at the allocated node `a`; every edge
of the tree was created for a suffix that starts before the one the active
point stands for (`origin`); and the nodes allocated so far are paid for by
the symbols the active point has dropped (`count`). -/
structure PointInv (t : SuffixTree) (dep edep : Nat → Nat) (sn : SuffixNode) (a : Nat) :
    Prop where
  active : sn.active_node = some a
  valid : a < t.nodes.length
  origin : ∀ (p : Nat) (e : Edge), t.edges[p]? = some e →
    (e.start_index : Int) + dep a < sn.first_char_index + edep p
  count : (t.nodes.length : Int) + dep a ≤ sn.first_char_index + 1
  last_lt : sn.last_char_index < t.text_.length

/-- The invariant at the head of the `for (;;)` loop of `AddPrefix` in the
phase of the symbol at `i`, with the active point anchored at `a`: the active
point ends right before `i`; it has dropped at most one symbol more than it
holds, and then stands at the root, which already has an edge for the
symbol; the node visited by the previous iteration lies deeper than the
active point. -/
structure LoopInv (i : Nat) (cur : Char) (dep edep : Nat → Nat) (s : LoopState) (a : Nat) :
    Prop where
  heap : HeapInv s.tree dep edep
  point : PointInv s.tree dep edep s.suffix_node a
  phase : i < s.tree.text_.length
  last : s.suffix_node.last_char_index = (i : Int) - 1
  first_le : s.suffix_node.first_char_index ≤ (i : Int) + 1
  beyond : s.suffix_node.first_char_index = (i : Int) + 1 →
    a = 0 ∧ ∃ nd, s.tree.nodes[0]? = some nd ∧ nd.GetEdge cur ≠ none
  prev : ∀ P, s.prev_parent_node = some P →
    P < s.tree.nodes.length ∧
      (dep a : Int) + i - s.suffix_node.first_char_index < dep P

/-- The invariant between phases, before the phase of the symbol at `i`. -/
structure PhaseInv (i : Nat) (dep edep : Nat → Nat) (t : SuffixTree) (sn : SuffixNode)
    (a : Nat) : Prop where
  heap : HeapInv t dep edep
  point : PointInv t dep edep sn a
  last : sn.last_char_index = (i : Int) - 1
  first_le : sn.first_char_index ≤ (i : Int)

/-- The invariant of the walk of `Contains` down a tree whose heap satisfies
`HeapInv`: the number `i` of pattern symbols consumed is the depth of the
position reached, on the selected edge or at the current node, and does not
exceed the length of the text. -/
def WalkInv (t : SuffixTree) (dep edep : Nat → Nat) (s : ContainsState) : Prop :=
  s.i ≤ t.text_.length ∧
  match s.e with
  | some p => ∃ e, t.edges[p]? = some e ∧ s.i = edep p + s.cur_span_index ∧
      1 ≤ s.cur_span_index ∧ s.cur_span_index ≤ e.Span + 1
  | none => ∀ a, s.p = some a → a < t.nodes.length ∧ s.i = dep a

end SuffixTree

namespace SuffixTree

/-- The edge-key invariant of the heap: every entry of the edge map of a node
leads to an edge whose first symbol, `text_[start_index]`, is the key of the
entry, and no key occurs twice in a map. -/
structure KeyInv (t : SuffixTree) : Prop where
  key : ∀ (a : Nat) (nd : Node) (c : Char) (p : Nat), t.nodes[a]? = some nd → (c, p) ∈ nd.edges →
    ∃ e, t.edges[p]? = some e ∧ charAt t.text_ e.start_index = .ok c
  unique : ∀ (a : Nat) (nd : Node), t.nodes[a]? = some nd → (nd.edges.map Prod.fst).Nodup

end SuffixTree

/-- The tree that `AddString("aaba")` builds on a fresh `SuffixTree`. -/
def farEndTree : SuffixTree :=
  { text_ := "aaba".toList,
    nodes := [⟨[('a', 0), ('b', 3)], none⟩, ⟨[('a', 1), ('b', 2)], some 0⟩],
    edges := [⟨0, 0, some 1⟩, ⟨1, 3, none⟩, ⟨2, 3, none⟩, ⟨2, 3, none⟩] }

/-- The tree of `AddString("abcabxabcd")`, the text of the test in `main`,
when the phases of the symbols at `0, ..., 7` are done. -/
def scenarioTreeAt8 : SuffixTree :=
  { text_ := "abcabxabcd".toList,
    nodes := [⟨[('a', 0), ('b', 1), ('c', 2), ('x', 7)], none⟩, ⟨[('c', 3), ('x', 4)], some 2⟩,
              ⟨[('c', 5), ('x', 6)], some 0⟩],
    edges := [⟨0, 1, some 1⟩, ⟨1, 1, some 2⟩, ⟨2, 9, none⟩, ⟨2, 9, none⟩, ⟨5, 9, none⟩,
              ⟨2, 9, none⟩, ⟨5, 9, none⟩, ⟨5, 9, none⟩] }

/-- The tree of `AddString("aaab")` in its last phase, when the first
execution of the loop body of `AddPrefix` has split the edge of `"aaab"` after
`"aa"` and attached the leaf for `'b'`. -/
def splitTree : SuffixTree :=
  { text_ := "aaab".toList,
    nodes := [⟨[('a', 0)], none⟩, ⟨[('a', 1), ('b', 2)], none⟩],
    edges := [⟨0, 1, some 1⟩, ⟨2, 3, none⟩, ⟨3, 3, none⟩] }

/-! ## `src/strings/kmp_match.cc` -/

/-- The ways a run of the matcher can fail to return. -/
inductive KmpFault where
  /-- An access `table_[k]` with `k` not an index of the vector, or a read of
  a string beyond its terminating position. -/
  | out_of_range
  /-- The body of a `while` loop was executed more often than the fuel allows. -/
  | out_of_fuel
  deriving DecidableEq, Repr

/-- `s[k]` on a `std::string`: the symbol at `k`, `'\0'` at `k = size()`. -/
def KmpFault.stringAt (s : List Char) (k : Nat) : Except KmpFault Char :=
  match s[k]? with
  | some c => .ok c
  | none => if k = s.length then .ok (Char.ofNat 0) else .error .out_of_range

/-- `v[k]` on a `std::vector<size_t>`. -/
def KmpFault.tableAt (v : List Nat) (k : Nat) : Except KmpFault Nat :=
  match v[k]? with
  | some x => .ok x
  | none => .error .out_of_range

/-- `v[k] = x` on a `std::vector<size_t>`. -/
def KmpFault.tableSet (v : List Nat) (k : Nat) (x : Nat) : Except KmpFault (List Nat) :=
  if k < v.length then .ok (v.set k x) else .error .out_of_range

/-- The state of a `KMPPatternMatcher` object. -/
structure KMPPatternMatcher where
  pattern_ : List Char
  table_ : List Nat
  deriving DecidableEq, Repr

namespace KMPPatternMatcher

/-- The loop `while (cnd > 0 && !is_c_eq)` of the constructor, for the
position `i` of the pattern. -/
def ctorWhile (pattern_ : List Char) (table_ : List Nat) (i : Nat) :
    Nat → Nat → Bool → Except KmpFault (Nat × Bool)
  | fuel, cnd, is_c_eq =>
    if cnd > 0 ∧ is_c_eq = false then
      match fuel with
      | 0 => .error .out_of_fuel
      | fuel1 + 1 =>
        -- cnd = table_[cnd];
        match KmpFault.tableAt table_ cnd with
        | .error f => .error f
        | .ok cnd1 =>
          -- is_c_eq = pattern_[i] == pattern_[cnd];
          match KmpFault.stringAt pattern_ i, KmpFault.stringAt pattern_ cnd1 with
          | .ok a, .ok b => ctorWhile pattern_ table_ i fuel1 cnd1 (decide (a = b))
          | .error f, _ => .error f
          | _, .error f => .error f
    else .ok (cnd, is_c_eq)

/-- The loop `for (size_t i = 1; i < pattern_.length(); ++i)` of the
constructor, from `i` on with `count` iterations left. -/
def ctorFor (fuel : Nat) (pattern_ : List Char) :
    Nat → Nat → Nat → List Nat → Except KmpFault (List Nat)
  | 0, _, _, table_ => .ok table_
  | count + 1, i, cnd, table_ =>
    -- bool is_c_eq = pattern_[i] == pattern_[cnd];
    match KmpFault.stringAt pattern_ i, KmpFault.stringAt pattern_ cnd with
    | .ok a, .ok b =>
      match ctorWhile pattern_ table_ i fuel cnd (decide (a = b)) with
      | .error f => .error f
      | .ok (cnd1, is_c_eq) =>
        if is_c_eq then
          -- ++cnd; table_[i] = cnd;
          match KmpFault.tableSet table_ i (cnd1 + 1) with
          | .error f => .error f
          | .ok table1 => ctorFor fuel pattern_ count (i + 1) (cnd1 + 1) table1
        else
          -- table_[i] = 0;
          match KmpFault.tableSet table_ i 0 with
          | .error f => .error f
          | .ok table1 => ctorFor fuel pattern_ count (i + 1) cnd1 table1
    | .error f, _ => .error f
    | _, .error f => .error f

/-- The constructor `KMPPatternMatcher(pattern)`.  `fuel` bounds the
executions of the body of the inner `while` loop at each position. -/
def create (fuel : Nat) (pattern : List Char) : Except KmpFault KMPPatternMatcher :=
  -- table_.resize(pattern_.length());
  let table0 := List.replicate pattern.length 0
  -- table_[0] = 0;
  match KmpFault.tableSet table0 0 0 with
  | .error f => .error f
  | .ok table1 =>
    match ctorFor fuel pattern (pattern.length - 1) 1 0 table1 with
    | .error f => .error f
    | .ok table2 => .ok { pattern_ := pattern, table_ := table2 }

/-- The loop `while (j > 0 && text[i] != pattern_[j])` of `IndexInString`. -/
def indexWhile (m : KMPPatternMatcher) (text : List Char) (i : Nat) :
    Nat → Nat → Except KmpFault Nat
  | fuel, j =>
    if j > 0 then
      match KmpFault.stringAt text i, KmpFault.stringAt m.pattern_ j with
      | .ok a, .ok b =>
        if a ≠ b then
          match fuel with
          | 0 => .error .out_of_fuel
          | fuel1 + 1 =>
            -- if (table_[j] > 0) j = table_[j]; else j = 0;
            match KmpFault.tableAt m.table_ j with
            | .error f => .error f
            | .ok tj =>
              if tj > 0 then indexWhile m text i fuel1 tj
              else indexWhile m text i fuel1 0
        else .ok j
      | .error f, _ => .error f
      | _, .error f => .error f
    else .ok j

/-- The loop `while (i < text.length())` of `IndexInString`, from `i` on with
`count` iterations left. -/
def indexFor (fuel : Nat) (m : KMPPatternMatcher) (text : List Char) :
    Nat → Nat → Nat → Except KmpFault Int
  | 0, _, _ => .ok (-1)
  | count + 1, i, j =>
    match indexWhile m text i fuel j with
    | .error f => .error f
    | .ok j1 =>
      match KmpFault.stringAt text i, KmpFault.stringAt m.pattern_ j1 with
      | .ok a, .ok b =>
        -- if (text[i] == pattern_[j]) ++j;  ++i;
        let j2 := if a = b then j1 + 1 else j1
        let i2 := i + 1
        -- if (j == pattern_.length()) return i-j;
        if j2 = m.pattern_.length then .ok ((i2 : Int) - (j2 : Int))
        else indexFor fuel m text count i2 j2
      | .error f, _ => .error f
      | _, .error f => .error f

/-- `KMPPatternMatcher::IndexInString`. -/
def IndexInString (fuel : Nat) (m : KMPPatternMatcher) (text : List Char) : Except KmpFault Int :=
  indexFor fuel m text text.length 0 0

/-- `KMPPatternMatcher(pattern).IndexInString(text)`. -/
def indexOf (fuel : Nat) (pattern text : List Char) : Except KmpFault Int :=
  match create fuel pattern with
  | .error f => .error f
  | .ok m => IndexInString fuel m text

end KMPPatternMatcher

namespace KMPPatternMatcher

/-- The KMP prefix function, from the words of the claim on the table: the
length of the longest proper prefix of `p[0..i]` that is also a suffix of
`p[0..i]`. -/
def prefixFunction (p : List Char) (i : Nat) : Nat :=
  ((List.range (i + 1)).filter
    (fun k => decide (p.take k = ((p.take (i + 1)).drop (i + 1 - k))))).foldl max 0

end KMPPatternMatcher

/-! ## `src/strings/longest_common_substring.cc` -/

/-- The ways a run of the functions of `longest_common_substring.cc` can fail
to return. -/
inductive LcsFault where
  /-- An access `v[k]` with `k` not an index of the vector, a read of a
  string beyond its terminating position, or `substr` from a position beyond
  the end. -/
  | out_of_range
  deriving DecidableEq, Repr

/-- `s[k]` on a `std::string`: the symbol at `k`, `'\0'` at `k = size()`. -/
def LcsFault.stringAt (s : List Char) (k : Nat) : Except LcsFault Char :=
  match s[k]? with
  | some c => .ok c
  | none => if k = s.length then .ok (Char.ofNat 0) else .error .out_of_range

/-- `v[k]` on a `std::vector<size_t>`. -/
def LcsFault.vectorAt (v : List Nat) (k : Nat) : Except LcsFault Nat :=
  match v[k]? with
  | some x => .ok x
  | none => .error .out_of_range

/-- `v[k] = x` on a `std::vector<size_t>`. -/
def LcsFault.vectorSet (v : List Nat) (k : Nat) (x : Nat) : Except LcsFault (List Nat) :=
  if k < v.length then .ok (v.set k x) else .error .out_of_range

/-- `s.substr(pos, len)` on a `std::string`, which throws when `pos` is
beyond the end of `s`. -/
def LcsFault.substr (s : List Char) (pos len : Nat) : Except LcsFault (List Char) :=
  if pos ≤ s.length then .ok ((s.drop pos).take len) else .error .out_of_range

/-- The variables of `LongestCommonSubstring`; `matches_` is the vector
`matches`. -/
structure LcsState where
  matches_ : List Nat
  lcs_len : Nat
  lcs_str1_index : Nat
  deriving DecidableEq, Repr

/-- The body of the inner loop of `LongestCommonSubstring` at `i`, `j`.  All
arithmetic is the one of `size_t`. -/
def lcsBody (str1 str2 : List Char) (i j : Nat) (s : LcsState) : Except LcsFault LcsState :=
  -- const size_t prev_cs_len = ((i > 0 && j > 0) ? matches[(i-1) * str2.size() + (j-1)] : 0);
  match (if i > 0 ∧ j > 0 then
      LcsFault.vectorAt s.matches_ (((i - 1) * str2.length + (j - 1)) % 2 ^ 64) else .ok 0) with
  | .error f => .error f
  | .ok prev_cs_len =>
    -- size_t& cur_cs_len = matches[i*str2.size()+j];
    let k := (i * str2.length + j) % 2 ^ 64
    match LcsFault.stringAt str1 i, LcsFault.stringAt str2 j with
    | .ok a, .ok b =>
      if a = b then
        -- cur_cs_len = prev_cs_len + 1;
        let cur_cs_len := (prev_cs_len + 1) % 2 ^ 64
        match LcsFault.vectorSet s.matches_ k cur_cs_len with
        | .error f => .error f
        | .ok m1 =>
          if cur_cs_len > s.lcs_len then
            .ok { matches_ := m1, lcs_len := cur_cs_len, lcs_str1_index := i }
          else .ok { s with matches_ := m1 }
      else
        -- cur_cs_len = 0;
        match LcsFault.vectorSet s.matches_ k 0 with
        | .error f => .error f
        | .ok m1 => .ok { s with matches_ := m1 }
    | .error f, _ => .error f
    | _, .error f => .error f

/-- The loop `for (size_t j = 0; j < str2.size(); ++j)`, from `j` on with
`count` iterations left. -/
def lcsInner (str1 str2 : List Char) (i : Nat) : Nat → Nat → LcsState → Except LcsFault LcsState
  | 0, _, s => .ok s
  | count + 1, j, s =>
    match lcsBody str1 str2 i j s with
    | .error f => .error f
    | .ok s1 => lcsInner str1 str2 i count (j + 1) s1

/-- The loop `for (size_t i = 0; i < str1.size(); ++i)`, from `i` on with
`count` iterations left. -/
def lcsOuter (str1 str2 : List Char) : Nat → Nat → LcsState → Except LcsFault LcsState
  | 0, _, s => .ok s
  | count + 1, i, s =>
    match lcsInner str1 str2 i str2.length 0 s with
    | .error f => .error f
    | .ok s1 => lcsOuter str1 str2 count (i + 1) s1

/-- The end of both functions, for a `lcs` that is not `NULL`: the value
returned and the string written to `*lcs`, which is
`str.substr(lcs_str1_index - lcs_len + 1, lcs_len)` unless `lcs_len` is zero,
the position computed from left to right in `size_t`. -/
def lcsResult (str : List Char) (lcs_len lcs_str1_index : Nat) :
    Except LcsFault (Nat × List Char) :=
  if lcs_len = 0 then .ok (lcs_len, [])
  else
    match LcsFault.substr str (((lcs_str1_index + 2 ^ 64 - lcs_len) % 2 ^ 64 + 1) % 2 ^ 64)
        lcs_len with
    | .error f => .error f
    | .ok w => .ok (lcs_len, w)

/-- `LongestCommonSubstring(str1, str2, lcs)` for a `lcs` that is not `NULL`:
the value returned and the string written to `*lcs`. -/
def LongestCommonSubstring (str1 str2 : List Char) : Except LcsFault (Nat × List Char) :=
  -- vector<size_t> matches(str1.length() * str2.length());
  let matches_ := List.replicate ((str1.length * str2.length) % 2 ^ 64) 0
  match lcsOuter str1 str2 str1.length 0
      { matches_ := matches_, lcs_len := 0, lcs_str1_index := 0 } with
  | .error f => .error f
  | .ok s => lcsResult str1 s.lcs_len s.lcs_str1_index

/-- Whether position `i` of `a` and position `j` of `b` hold the same
symbol. -/
def sameSymbol (a b : List Char) (i j : Nat) : Bool :=
  match a[i]?, b[j]? with
  | some x, some y => decide (x = y)
  | _, _ => false

/-- The length of the longest common suffix of `a[0..i]` and `b[0..j]`, the
value that the functions store for the cell `i`, `j`. -/
def commonSuffix (a b : List Char) : Nat → Nat → Nat
  | 0, j => if sameSymbol a b 0 j then 1 else 0
  | i + 1, 0 => if sameSymbol a b (i + 1) 0 then 1 else 0
  | i + 1, j + 1 => if sameSymbol a b (i + 1) (j + 1) then commonSuffix a b i j + 1 else 0

/-- The pair `lcs_len`, `lcs_str1_index` after the test of the cell value
`cur` at row `i`. -/
def bestStep (cur i : Nat) (r : Nat × Nat) : Nat × Nat :=
  if cur > r.1 then (cur, i) else r

/-- The pair `lcs_len`, `lcs_str1_index` along row `i`, from column `j` on
over `count` columns, the cell values taken from `commonSuffix`. -/
def bestInner (a b : List Char) (i : Nat) : Nat → Nat → Nat × Nat → Nat × Nat
  | 0, _, r => r
  | count + 1, j, r => bestInner a b i count (j + 1) (bestStep (commonSuffix a b i j) i r)

/-- The pair `lcs_len`, `lcs_str1_index` over `count` rows from row `i` on. -/
def bestOuter (a b : List Char) : Nat → Nat → Nat × Nat → Nat × Nat
  | 0, _, r => r
  | count + 1, i, r => bestOuter a b count (i + 1) (bestInner a b i b.length 0 r)

/-- What the pair `r` of `lcs_len` and `lcs_str1_index` has to do with the
cells before `i`, `j` in the order of the loops: no cell value exceeds
`lcs_len`, and unless `lcs_len` is zero, row `lcs_str1_index` has a cell of
that value and no row above it has one. -/
structure BestInv (a b : List Char) (i j : Nat) (r : Nat × Nat) : Prop where
  bound : ∀ (i1 j1 : Nat), j1 < b.length → (i1 < i ∨ (i1 = i ∧ j1 < j)) →
    commonSuffix a b i1 j1 ≤ r.1
  first : r.1 = 0 ∨ ∃ j0, j0 < b.length ∧ (r.2 < i ∨ (r.2 = i ∧ j0 < j)) ∧
    commonSuffix a b r.2 j0 = r.1 ∧
    ∀ (i1 j1 : Nat), j1 < b.length → i1 < r.2 → commonSuffix a b i1 j1 < r.1

/-- What the vector `matches` of `LongestCommonSubstring` holds when the loops
are about to run the body at `i`, `j`: it has a cell for every pair of
positions, and the cells before `i`, `j` in the order of the loops hold their
values. -/
structure CellsInv (a b : List Char) (i j : Nat) (cells : List Nat) : Prop where
  size : cells.length = a.length * b.length
  cell : ∀ (i1 j1 : Nat), j1 < b.length → (i1 < i ∨ (i1 = i ∧ j1 < j)) →
    cells[i1 * b.length + j1]? = some (commonSuffix a b i1 j1)

/-- The loop `while (i-- > 1)` of `Fibonacci` on the `size_t` variables `a`
and `b`.  The test reads the 32-bit `i` before it is decremented, so the body
`c = a + b; b = a; a = c;` is executed when the value read is at least two,
with `i` one less afterwards; the decrement wraps only after the exit at `0`,
where `i` is not read again. -/
def FibonacciLoop : Nat → Nat → Nat → Nat
  | i + 2, a, b => FibonacciLoop (i + 1) ((a + b) % 2 ^ 64) a
  | _, a, _ => a

/-- `Fibonacci(i)` for a 32-bit unsigned `i`. -/
def Fibonacci (i : Nat) : Nat :=
  FibonacciLoop i 1 1

/-- The loop of `Fibonacci2`, with the body `swap(a, b); a += b;`. -/
def Fibonacci2Loop : Nat → Nat → Nat → Nat
  | i + 2, a, b => Fibonacci2Loop (i + 1) ((b + a) % 2 ^ 64) a
  | _, a, _ => a

/-- `Fibonacci2(i)` for a 32-bit unsigned `i`. -/
def Fibonacci2 (i : Nat) : Nat :=
  Fibonacci2Loop i 1 1

/-- The loop of `Fibonacci3`, with the body `a = a + b; b = a - b;`, whose
subtraction is the one of `size_t`, modulo `2 ^ 64`. -/
def Fibonacci3Loop : Nat → Nat → Nat → Nat
  | i + 2, a, b =>
    let a1 := (a + b) % 2 ^ 64
    Fibonacci3Loop (i + 1) a1 ((a1 + 2 ^ 64 - b) % 2 ^ 64)
  | _, a, _ => a

/-- `Fibonacci3(i)` for a 32-bit unsigned `i`. -/
def Fibonacci3 (i : Nat) : Nat :=
  Fibonacci3Loop i 1 1

/-- The sequence of the claims on `fibonacci.cc`, in the natural numbers:
`F(0) = 1`, `F(1) = 1`, `F(n) = F(n-1) + F(n-2)`. -/
def fibonacciNumber : Nat → Nat
  | 0 => 1
  | 1 => 1
  | n + 2 => fibonacciNumber (n + 1) + fibonacciNumber n

/-! ## `src/strings/str_are_anagrams.cc` -/

/-- A C++ `char`, given by its value under `static_cast<uint8_t>`. -/
abbrev Char8 : Type := Fin 256

/-- The `char`s of a string literal. -/
def Char8.ofString (s : String) : List Char8 :=
  s.toList.map (fun c => Fin.ofNat c.toNat)

/-- `histogram.find(c)` on the `std::map<char, size_t>`, given by its entries:
the value stored under `c`, `none` for `histogram.end()`. -/
def histogramFind : List (Char8 × Nat) → Char8 → Option Nat
  | [], _ => none
  | (k, v) :: h, c => if k = c then some v else histogramFind h c

/-- The map with the value under `c` set to `v`: `histogram[c] = v` when `c`
is not a key, an assignment through the iterator when it is. -/
def histogramSet : List (Char8 × Nat) → Char8 → Nat → List (Char8 × Nat)
  | [], c, v => [(c, v)]
  | (k, w) :: h, c, v => if k = c then (k, v) :: h else (k, w) :: histogramSet h c v

/-- `histogram.erase(h_iter)` for the iterator found under `c`. -/
def histogramErase (h : List (Char8 × Nat)) (c : Char8) : List (Char8 × Nat) :=
  h.filter (fun kv => kv.1 ≠ c)

/-- The first loop of `StrAreAnagrams`, over the `char`s of `str1`; the
counts are `size_t` values. -/
def anagramsCount : List Char8 → List (Char8 × Nat) → List (Char8 × Nat)
  | [], histogram => histogram
  | c :: rest, histogram =>
    match histogramFind histogram c with
    | none => anagramsCount rest (histogramSet histogram c 1)
    | some v => anagramsCount rest (histogramSet histogram c ((v + 1) % 2 ^ 64))

/-- The second loop of `StrAreAnagrams`, over the `char`s of `str2`, and the
`return histogram.empty()` after it. -/
def anagramsMatch : List Char8 → List (Char8 × Nat) → Bool
  | [], histogram => histogram.isEmpty
  | c :: rest, histogram =>
    match histogramFind histogram c with
    | none => false
    | some v =>
      -- --h_iter->second;
      let v1 := (v + 2 ^ 64 - 1) % 2 ^ 64
      if v1 = 0 then anagramsMatch rest (histogramErase histogram c)
      else anagramsMatch rest (histogramSet histogram c v1)

/-- `StrAreAnagrams(str1, str2)`. -/
def StrAreAnagrams (str1 str2 : List Char8) : Bool :=
  if str1.length ≠ str2.length then false
  else anagramsMatch str2 (anagramsCount str1 [])

/-- The constant `kCharRange = 2 << (sizeof(char)*8)` of `StrAreAnagrams2`. -/
def kCharRange : Nat := 2 <<< (1 * 8)

/-- The first loop of `StrAreAnagrams2` on the array `histogram`, which has
`kCharRange` entries, every index a `uint8_t`. -/
def anagrams2Count : List Char8 → List Nat → List Nat
  | [], histogram => histogram
  | c :: rest, histogram =>
    anagrams2Count rest (histogram.set c.val ((histogram.getD c.val 0 + 1) % 2 ^ 64))

/-- The second loop of `StrAreAnagrams2`, and the `return true` after it. -/
def anagrams2Match : List Char8 → List Nat → Bool
  | [], _ => true
  | c :: rest, histogram =>
    if histogram.getD c.val 0 = 0 then false
    else anagrams2Match rest (histogram.set c.val (histogram.getD c.val 0 - 1))

/-- `StrAreAnagrams2(str1, str2)`. -/
def StrAreAnagrams2 (str1 str2 : List Char8) : Bool :=
  if str1.length ≠ str2.length then false
  else anagrams2Match str2 (anagrams2Count str1 (List.replicate kCharRange 0))

/-- The count stored for `c` in the map, zero when `c` is not a key. -/
def histogramCount (h : List (Char8 × Nat)) (c : Char8) : Nat :=
  (histogramFind h c).getD 0

/-! ## `src/strings/str_is_roration.cc` -/

/-- `s.find(t)` of `std::string`, from the C++ standard: the lowest position
`pos` with `pos + t.size() <= s.size()` at which `t` occurs in `s`; `none`
stands for `npos`, returned when there is no such position. -/
def stringFind (s t : List Char) : Option Nat :=
  (List.range (s.length + 1)).find? (fun pos => t.isPrefixOf (s.drop pos))

/-- `StrIsRotation(str1, str2)`. -/
def StrIsRotation (str1 str2 : List Char) : Bool :=
  if str1.length ≠ str2.length then
    false
  else
    -- (str1.empty() && str2.empty()) || (str1 + str1).find(str2) != string::npos
    (str1.isEmpty && str2.isEmpty) || decide (stringFind (str1 ++ str1) str2 ≠ none)

/-! ## Theorems -/

namespace SuffixTree

theorem charAt_ne_fuel (text : List Char) (k : Nat) :
    charAt text k ≠ .error .out_of_fuel := by
  unfold charAt
  split
  · simp
  · split <;> simp

theorem nodeAt_ne_fuel (t : SuffixTree) (p : Option Nat) :
    t.nodeAt p ≠ .error .out_of_fuel := by
  unfold nodeAt
  split
  · simp
  · split <;> simp

theorem edgeAt_ne_fuel (t : SuffixTree) (p : Nat) :
    t.edgeAt p ≠ .error .out_of_fuel := by
  unfold edgeAt
  split <;> simp

theorem edgeAt_eq_ok {t : SuffixTree} {p : Nat} {e : Edge} (h : t.edgeAt p = .ok e) :
    t.edges[p]? = some e := by
  unfold edgeAt at h
  split at h
  · rename_i e1 h1
    simp at h
    rw [h1, h]
  · simp at h

/-- What one execution of the body of the loop of `Contains` does. -/
theorem ContainsBody_kinds (t : SuffixTree) (text : List Char) (s s1 : ContainsState)
    (hin : s.is_in_tree = true) (h : ContainsBody t text s = .ok s1) :
    Consumes s s1 ∨ MovesToChild t s s1 ∨ ReportsAbsent s s1 := by
  unfold ContainsBody at h
  split at h
  · simp at h
  · split at h
    · simp at h
      subst h
      right; right
      simp [ReportsAbsent]
    · rename_i p hp
      split at h
      · split at h
        · simp at h
        · split at h
          · simp at h
            subst h
            right; right
            simp [ReportsAbsent]
          · simp at h
            subst h
            left
            simp [Consumes, hp, hin]
      · rename_i edge he
        split at h
        · simp at h
        · rename_i e hedge
          split at h
          · split at h
            · simp at h
            · split at h
              · simp at h
                subst h
                right; right
                simp [ReportsAbsent]
              · simp at h
                subst h
                left
                simp [Consumes, he, hin]
          · rename_i hspan
            simp at h
            subst h
            right; left
            exact ⟨edge, e, he, edgeAt_eq_ok hedge, by omega, rfl, rfl, rfl, hin⟩

theorem ContainsBody_ne_fuel (t : SuffixTree) (text : List Char) (s : ContainsState) :
    ContainsBody t text s ≠ .error .out_of_fuel := by
  unfold ContainsBody
  split
  · rename_i f hf
    intro h
    simp at h
    subst h
    exact charAt_ne_fuel _ _ hf
  · split
    · simp
    · split
      · split
        · rename_i f hf
          intro h
          simp at h
          subst h
          exact nodeAt_ne_fuel _ _ hf
        · split <;> simp
      · split
        · rename_i f hf
          intro h
          simp at h
          subst h
          exact edgeAt_ne_fuel _ _ hf
        · split
          · split
            · rename_i f hf
              intro h
              simp at h
              subst h
              exact charAt_ne_fuel _ _ hf
            · split <;> simp
          · simp

/-- An execution of the body that does not report absence lowers the potential. -/
theorem ContainsBody_potential (t : SuffixTree) (text : List Char) (s s1 : ContainsState)
    (hi : s.i < text.length) (hin : s.is_in_tree = true)
    (h : ContainsBody t text s = .ok s1) :
    s1.is_in_tree = false ∨ containsPotential text s1 < containsPotential text s := by
  rcases ContainsBody_kinds t text s s1 hin h with hc | hm | hr
  · right
    obtain ⟨h1, h2, _, _⟩ := hc
    unfold containsPotential
    rw [h1]
    simp only [h2, if_false]
    split <;> omega
  · right
    obtain ⟨edge, e, h1, _, _, _, h2, h3, _⟩ := hm
    unfold containsPotential
    rw [h3, h2, h1]
    simp
  · left
    exact hr.1

theorem ContainsLoop_count (t : SuffixTree) (text : List Char) :
    ∀ (fuel : Nat) (s s2 : ContainsState) (k : Nat),
      ContainsLoop t text fuel s = .ok (s2, k) → k ≤ containsPotential text s := by
  intro fuel
  induction fuel with
  | zero =>
    intro s s2 k h
    unfold ContainsLoop at h
    split at h
    · simp at h
    · simp at h
      omega
  | succ fuel ih =>
    intro s s2 k h
    unfold ContainsLoop at h
    split at h
    · rename_i hc
      split at h
      · simp at h
      · rename_i s1 hb
        split at h
        · simp at h
        · rename_i s3 k3 hl
          simp at h
          obtain ⟨_, hk⟩ := h
          have h3 := ih s1 s3 k3 hl
          rcases ContainsBody_potential t text s s1 hc.1 hc.2 hb with hf | hp
          · -- the loop ends right after a report of absence
            have : k3 = 0 := by
              cases fuel with
              | zero =>
                unfold ContainsLoop at hl
                simp [hf] at hl
                omega
              | succ f =>
                unfold ContainsLoop at hl
                simp [hf] at hl
                omega
            have hpos : 0 < containsPotential text s := by
              unfold containsPotential
              omega
            omega
          · omega
    · simp at h
      omega

theorem ContainsLoop_ne_fuel (t : SuffixTree) (text : List Char) :
    ∀ (fuel : Nat) (s : ContainsState), containsPotential text s ≤ fuel →
      ContainsLoop t text fuel s ≠ .error .out_of_fuel := by
  intro fuel
  induction fuel with
  | zero =>
    intro s hs
    unfold ContainsLoop
    split
    · rename_i hc
      unfold containsPotential at hs
      omega
    · simp
  | succ fuel ih =>
    intro s hs
    unfold ContainsLoop
    split
    · rename_i hc
      split
      · rename_i f hb
        intro h
        simp at h
        subst h
        exact ContainsBody_ne_fuel _ _ _ hb
      · rename_i s1 hb
        have hstep : ContainsLoop t text fuel s1 ≠ .error .out_of_fuel := by
          rcases ContainsBody_potential t text s s1 hc.1 hc.2 hb with hf | hp
          · cases fuel with
            | zero =>
              unfold ContainsLoop
              simp [hf]
            | succ f =>
              unfold ContainsLoop
              simp [hf]
          · exact ih s1 (by omega)
        split
        · rename_i f hl
          intro h
          simp at h
          subst h
          exact hstep hl
        · simp
    · simp

end SuffixTree


/-! ### Lemmas on the construction -/

namespace SuffixTree

theorem mapFind_mem {m : List (Char × Nat)} {c : Char} {v : Nat}
    (h : mapFind m c = some v) : (c, v) ∈ m := by
  induction m with
  | nil => simp [mapFind] at h
  | cons kv rest ih =>
    obtain ⟨k, w⟩ := kv
    unfold mapFind at h
    split at h
    · rename_i hk
      simp at h
      subst hk
      subst h
      simp
    · exact List.mem_cons_of_mem _ (ih h)

theorem mem_mapSet {m : List (Char × Nat)} {k c : Char} {w v : Nat}
    (h : (c, v) ∈ mapSet m k w) : (c, v) ∈ m ∨ (c = k ∧ v = w) := by
  induction m with
  | nil =>
    simp [mapSet] at h
    exact Or.inr h
  | cons kv rest ih =>
    obtain ⟨k1, w1⟩ := kv
    unfold mapSet at h
    split at h
    · rcases List.mem_cons.mp h with h1 | h1
      · simp at h1
        exact Or.inr h1
      · exact Or.inl (List.mem_cons_of_mem _ h1)
    · rcases List.mem_cons.mp h with h1 | h1
      · left
        rw [h1]
        simp
      · rcases ih h1 with h2 | h2
        · exact Or.inl (List.mem_cons_of_mem _ h2)
        · exact Or.inr h2

theorem mapFind_mapSet_self (m : List (Char × Nat)) (k : Char) (w : Nat) :
    mapFind (mapSet m k w) k = some w := by
  induction m with
  | nil => simp [mapSet, mapFind]
  | cons kv rest ih =>
    obtain ⟨k1, w1⟩ := kv
    unfold mapSet
    split
    · simp [mapFind]
    · rename_i hk
      simp [mapFind, hk, ih]

theorem nodeAt_eq_ok {t : SuffixTree} {p : Option Nat} {nd : Node}
    (h : t.nodeAt p = .ok nd) : ∃ a, p = some a ∧ t.nodes[a]? = some nd := by
  unfold nodeAt at h
  split at h
  · simp at h
  · rename_i a
    split at h
    · rename_i n hn
      simp at h
      subst h
      exact ⟨a, rfl, hn⟩
    · simp at h

theorem lt_of_getElem? {α : Type} {l : List α} {i : Nat} {x : α} (h : l[i]? = some x) :
    i < l.length := by
  obtain ⟨h1, _⟩ := List.getElem?_eq_some.mp h
  exact h1

theorem charAtInt_ne_fuel (text : List Char) (k : Int) :
    charAtInt text k ≠ .error .out_of_fuel := by
  unfold charAtInt
  split
  · simp
  · exact charAt_ne_fuel _ _

theorem Span_eq {e : Edge} (h : e.start_index ≤ e.end_index) :
    e.Span = e.end_index - e.start_index := by
  unfold Edge.Span
  simp [h]

/-- `Canonize` never runs out of the fuel it is given by `canonizeFuel`. -/
theorem Canonize_ne_fuel (t : SuffixTree) :
    ∀ (fuel : Nat) (sn : SuffixNode), canonizeFuel sn ≤ fuel →
      Canonize t fuel sn ≠ .error .out_of_fuel := by
  intro fuel
  induction fuel with
  | zero =>
    intro sn h
    unfold Canonize
    have : sn.IsExplicit = true := by
      unfold canonizeFuel at h
      unfold SuffixNode.IsExplicit
      simp
      omega
    simp [this]
  | succ fuel ih =>
    intro sn h
    unfold Canonize
    split
    · simp
    · split
      · simp
      · split
        · rename_i f hf
          intro hh
          simp at hh
          subst hh
          exact charAtInt_ne_fuel _ _ hf
        · split
          · rename_i f hf
            intro hh
            simp at hh
            subst hh
            exact nodeAt_ne_fuel _ _ hf
          · split
            · simp
            · split
              · rename_i f hf
                intro hh
                simp at hh
                subst hh
                exact edgeAt_ne_fuel _ _ hf
              · split
                · rename_i hlt
                  apply ih
                  unfold canonizeFuel at h ⊢
                  simp only
                  omega
                · simp

/-- More fuel does not change the outcome of a `Canonize` that stopped by itself. -/
theorem Canonize_mono (t : SuffixTree) :
    ∀ (fuel fuel1 : Nat) (sn : SuffixNode), fuel ≤ fuel1 →
      Canonize t fuel sn ≠ .error .out_of_fuel →
      Canonize t fuel1 sn = Canonize t fuel sn := by
  intro fuel
  induction fuel with
  | zero =>
    intro fuel1 sn _ h
    unfold Canonize at h
    split at h
    · rename_i hexp
      cases fuel1 with
      | zero => rfl
      | succ k =>
        unfold Canonize
        simp [hexp]
    · simp at h
  | succ fuel ih =>
    intro fuel1 sn hle h
    obtain ⟨k, rfl⟩ : ∃ k, fuel1 = k + 1 := ⟨fuel1 - 1, by omega⟩
    unfold Canonize at h ⊢
    split
    · rfl
    · split
      · rfl
      · split
        · rfl
        · split
          · rfl
          · split
            · rfl
            · split
              · rfl
              · split
                · apply ih k _ (by omega)
                  intro hh
                  apply h
                  simp_all
                · rfl

/-- `Canonize` keeps the invariant of the active point: it moves the anchor
down along internal edges only, by as many symbols as it drops from the front
of the remaining range. -/
theorem Canonize_inv (t : SuffixTree) (dep edep : Nat → Nat) (hH : HeapInv t dep edep) :
    ∀ (fuel : Nat) (sn sn1 : SuffixNode) (a : Nat), PointInv t dep edep sn a →
      Canonize t fuel sn = .ok sn1 →
      ∃ a1, PointInv t dep edep sn1 a1 ∧ sn1.last_char_index = sn.last_char_index ∧
        (dep a1 : Int) - sn1.first_char_index = dep a - sn.first_char_index ∧
        (sn1.first_char_index = sn.first_char_index ∨
          (sn.first_char_index < sn1.first_char_index ∧
            sn1.first_char_index ≤ sn.last_char_index)) := by
  intro fuel
  induction fuel with
  | zero =>
    intro sn sn1 a hP h
    unfold Canonize at h
    split at h
    · simp at h
      subst h
      exact ⟨a, hP, rfl, rfl, Or.inl rfl⟩
    · simp at h
  | succ fuel ih =>
    intro sn sn1 a hP h
    unfold Canonize at h
    split at h
    · simp at h
      subst h
      exact ⟨a, hP, rfl, rfl, Or.inl rfl⟩
    · rename_i hexp
      split at h
      · simp at h
      · rename_i a0 ha0
        have haa : a = a0 := by
          have := hP.active
          rw [ha0] at this
          simpa using this.symm
        subst haa
        split at h
        · simp at h
        · rename_i c hc
          split at h
          · simp at h
          · rename_i node hnode
            obtain ⟨a2, ha2, hnd⟩ := nodeAt_eq_ok hnode
            simp at ha2
            subst ha2
            split at h
            · simp at h
            · rename_i edge hedge
              split at h
              · simp at h
              · rename_i e he
                have he1 := edgeAt_eq_ok he
                have hmem := mapFind_mem hedge
                obtain ⟨_, hown⟩ := hH.owner _ _ _ _ hnd hmem
                obtain ⟨hse, hen, _⟩ := hH.edge _ _ he1
                have hspan := Span_eq hse
                have horig := hP.origin _ _ he1
                have hlast := hP.last_lt
                split at h
                · rename_i hlt
                  -- the edge is skipped: it cannot be a leaf
                  cases hch : e.end_node with
                  | none =>
                    have := hH.leaf _ _ he1 hch
                    omega
                  | some m =>
                    obtain ⟨hm, hdm⟩ := hH.child _ _ _ he1 hch
                    have hP1 : PointInv t dep edep
                        { sn with active_node := e.end_node,
                                  first_char_index := sn.first_char_index + (e.Span + 1 : Nat) }
                        m := by
                      refine ⟨by simp [hch], hm, ?_, ?_, hP.last_lt⟩
                      · intro p e2 hp
                        have := hP.origin _ _ hp
                        simp only
                        omega
                      · have := hP.count
                        simp only
                        omega
                    obtain ⟨a1, hPa, hl, hd, hf⟩ := ih _ _ _ hP1 h
                    refine ⟨a1, hPa, hl, ?_, ?_⟩
                    · simp only at hd
                      omega
                    · simp only at hf hl
                      right
                      omega
                · simp at h
                  subst h
                  exact ⟨a, hP, rfl, rfl, Or.inl rfl⟩

end SuffixTree

namespace SuffixTree

theorem getElem?_concat_cases {α : Type} {l : List α} {x y : α} {i : Nat}
    (h : (l ++ [x])[i]? = some y) :
    (i < l.length ∧ l[i]? = some y) ∨ (i = l.length ∧ y = x) := by
  rw [List.getElem?_append] at h
  split at h
  · left
    rename_i hi
    exact ⟨hi, h⟩
  · right
    rename_i hi
    have h1 := lt_of_getElem? h
    simp at h1
    have h2 : i = l.length := by omega
    subst h2
    simp at h
    exact ⟨rfl, h.symm⟩

theorem getElem?_set_cases {α : Type} {l : List α} {v y : α} {k i : Nat}
    (h : (l.set k v)[i]? = some y) :
    (i = k ∧ y = v ∧ k < l.length) ∨ (i ≠ k ∧ l[i]? = some y) := by
  rw [List.getElem?_set] at h
  split at h
  · rename_i hk
    split at h
    · rename_i hlt
      simp at h
      exact Or.inl ⟨hk.symm, h.symm, hlt⟩
    · simp at h
  · rename_i hk
    exact Or.inr ⟨fun h1 => hk h1.symm, h⟩

/-- What `SplitEdge` does to the heap when it returns. -/
theorem SplitEdge_eq_ok {t t1 : SuffixTree} {edge span m : Nat}
    (h : SplitEdge t edge span = .ok (t1, m)) :
    ∃ e nc, t.edges[edge]? = some e ∧ e.end_node = none ∧ m = t.nodes.length ∧
      charAt t.text_ (e.start_index + span + 1) = .ok nc ∧
      t1 = { text_ := t.text_,
             nodes := t.nodes ++ [{ edges := [(nc, t.edges.length)], suffix_node := none }],
             edges := (t.edges ++ [({ start_index := e.start_index + span + 1,
                                      end_index := e.end_index, end_node := none } : Edge)]).set edge
                        { start_index := e.start_index, end_index := e.start_index + span,
                          end_node := some t.nodes.length } } := by
  unfold SplitEdge at h
  split at h
  · simp at h
  · rename_i e he
    simp only at h
    split at h
    · simp at h
    · rename_i nc hnc
      split at h
      · simp at h
      · rename_i hnone
        simp at hnone
        simp at h
        obtain ⟨h1, h2⟩ := h
        refine ⟨e, nc, edgeAt_eq_ok he, hnone, h2.symm, hnc, ?_⟩
        rw [← h1]
        simp [mapSet]

/-- `SplitEdge` keeps the invariant of the heap when it splits a leaf edge
strictly inside the text; the new node lies `span + 1` symbols below the owner
of the edge. -/
theorem SplitEdge_inv {t t1 : SuffixTree} {dep edep : Nat → Nat} {edge span m : Nat} {e : Edge}
    (hH : HeapInv t dep edep) (he : t.edges[edge]? = some e)
    (hs : e.start_index + span + 1 < t.text_.length)
    (h : SplitEdge t edge span = .ok (t1, m)) :
    m = t.nodes.length ∧ t1.text_ = t.text_ ∧ t1.nodes.length = t.nodes.length + 1 ∧
    t1.edges.length = t.edges.length + 1 ∧
    HeapInv t1 (Function.update dep t.nodes.length (edep edge + span + 1))
      (Function.update edep t.edges.length (edep edge + span + 1)) ∧
    (∀ K : Int, (∀ (p : Nat) (e2 : Edge), t.edges[p]? = some e2 →
        (e2.start_index : Int) + K < edep p) →
      ∀ (p : Nat) (e2 : Edge), t1.edges[p]? = some e2 →
        (e2.start_index : Int) + K <
          Function.update edep t.edges.length (edep edge + span + 1) p) := by
  obtain ⟨e0, nc, he0, hleaf, hm, _, ht1⟩ := SplitEdge_eq_ok h
  rw [he] at he0
  simp at he0
  subst he0
  have hedge := lt_of_getElem? he
  obtain ⟨hse, hen, hdep⟩ := hH.edge _ _ he
  have hend := hH.leaf _ _ he hleaf
  -- lookups in the new heaps
  have hnodes : ∀ (a : Nat) (nd : Node), t1.nodes[a]? = some nd →
      (a < t.nodes.length ∧ t.nodes[a]? = some nd) ∨
      (a = t.nodes.length ∧ nd = { edges := [(nc, t.edges.length)], suffix_node := none }) := by
    intro a nd ha
    rw [ht1] at ha
    exact getElem?_concat_cases ha
  have hedges : ∀ (p : Nat) (e2 : Edge), t1.edges[p]? = some e2 →
      (p = edge ∧ e2 = { start_index := e.start_index, end_index := e.start_index + span,
                         end_node := some t.nodes.length }) ∨
      (p ≠ edge ∧ p < t.edges.length ∧ t.edges[p]? = some e2) ∨
      (p = t.edges.length ∧ e2 = { start_index := e.start_index + span + 1,
                                   end_index := e.end_index, end_node := none }) := by
    intro p e2 hp
    rw [ht1] at hp
    rcases getElem?_set_cases hp with ⟨h1, h2, _⟩ | ⟨h1, h2⟩
    · exact Or.inl ⟨h1, h2⟩
    · rcases getElem?_concat_cases h2 with ⟨h3, h4⟩ | ⟨h3, h4⟩
      · exact Or.inr (Or.inl ⟨h1, h3, h4⟩)
      · exact Or.inr (Or.inr ⟨h3, h4⟩)
  have hlenN : t1.nodes.length = t.nodes.length + 1 := by
    rw [ht1]
    simp
  have hlenE : t1.edges.length = t.edges.length + 1 := by
    rw [ht1]
    simp
  have htext : t1.text_ = t.text_ := by
    rw [ht1]
  have hdepOld : ∀ a, a < t.nodes.length →
      Function.update dep t.nodes.length (edep edge + span + 1) a = dep a := by
    intro a ha
    exact Function.update_noteq (by omega) _ _
  have hedepOld : ∀ p, p < t.edges.length →
      Function.update edep t.edges.length (edep edge + span + 1) p = edep p := by
    intro p hp
    exact Function.update_noteq (by omega) _ _
  refine ⟨hm, htext, hlenN, hlenE, ?_, ?_⟩
  · constructor
    · omega
    · rw [hdepOld 0 hH.root]
      exact hH.dep_root
    · intro a ha hne
      rw [hlenN] at ha
      by_cases hlt : a < t.nodes.length
      · rw [hdepOld a hlt]
        exact hH.dep_pos a hlt hne
      · have : a = t.nodes.length := by omega
        subst this
        rw [Function.update_same]
        omega
    · intro a nd c p ha hmem
      rcases hnodes a nd ha with ⟨h1, h2⟩ | ⟨h1, h2⟩
      · obtain ⟨h3, h4⟩ := hH.owner a nd c p h2 hmem
        rw [hlenE, hdepOld a h1, hedepOld p h3]
        exact ⟨by omega, h4⟩
      · subst h1
        subst h2
        simp at hmem
        obtain ⟨_, h5⟩ := hmem
        subst h5
        rw [hlenE, Function.update_same, Function.update_same]
        exact ⟨by omega, rfl⟩
    · intro p e2 hp
      rw [htext]
      rcases hedges p e2 hp with ⟨h1, h2⟩ | ⟨h1, h2, h3⟩ | ⟨h1, h2⟩
      · subst h1
        subst h2
        rw [hedepOld p hedge]
        simp only
        omega
      · rw [hedepOld p h2]
        exact hH.edge p e2 h3
      · subst h1
        subst h2
        rw [Function.update_same]
        simp only
        omega
    · intro p e2 m2 hp hch
      rw [hlenN]
      rcases hedges p e2 hp with ⟨h1, h2⟩ | ⟨h1, h2, h3⟩ | ⟨h1, h2⟩
      · subst h1
        subst h2
        simp at hch
        subst hch
        rw [Function.update_same, hedepOld p hedge]
        simp only
        omega
      · obtain ⟨h4, h5⟩ := hH.child p e2 m2 h3 hch
        rw [hdepOld m2 h4, hedepOld p h2]
        exact ⟨by omega, h5⟩
      · subst h2
        simp at hch
    · intro p e2 hp hch
      rw [htext]
      rcases hedges p e2 hp with ⟨h1, h2⟩ | ⟨h1, h2, h3⟩ | ⟨h1, h2⟩
      · subst h2
        simp at hch
      · exact hH.leaf p e2 h3 hch
      · subst h2
        simp only
        exact hend
    · intro a nd s ha hs2
      rw [hlenN]
      rcases hnodes a nd ha with ⟨h1, h2⟩ | ⟨h1, h2⟩
      · obtain ⟨h3, h4⟩ := hH.link a nd s h2 hs2
        rw [hdepOld a h1, hdepOld s h3]
        exact ⟨by omega, h4⟩
      · subst h2
        simp at hs2
  · intro K hK p e2 hp
    rcases hedges p e2 hp with ⟨h1, h2⟩ | ⟨h1, h2, h3⟩ | ⟨h1, h2⟩
    · subst h1
      subst h2
      rw [hedepOld p hedge]
      exact hK p e he
    · rw [hedepOld p h2]
      exact hK p e2 h3
    · subst h1
      subst h2
      rw [Function.update_same]
      have := hK edge e he
      simp only
      omega

end SuffixTree

namespace SuffixTree

/-- What the insertion of the new leaf does to the heap when it succeeds. -/
theorem AddPrefixInsert_eq_ok {t t2 : SuffixTree} {parent : Nat} {cur : Char} {ci li : Nat}
    (h : AddPrefixInsert t parent cur ci li = .ok t2) :
    ∃ nd, t.nodes[parent]? = some nd ∧ nd.GetEdge cur = none ∧
      t2 = { text_ := t.text_,
             nodes := t.nodes.set parent
               { nd with edges := mapSet nd.edges cur t.edges.length },
             edges := t.edges ++ [({ start_index := ci, end_index := li,
                                     end_node := none } : Edge)] } := by
  unfold AddPrefixInsert at h
  split at h
  · simp at h
  · rename_i nd hnd
    obtain ⟨a, ha, hnd1⟩ := nodeAt_eq_ok hnd
    simp at ha
    subst ha
    split at h
    · simp at h
    · rename_i hnone
      simp at hnone
      simp at h
      exact ⟨nd, hnd1, hnone, h.symm⟩

/-- The insertion of the leaf `[ci, li]` below `parent` keeps the invariant of
the heap, provided the leaf ends at the last symbol of the text and starts no
earlier than the depth of `parent`. -/
theorem AddPrefixInsert_inv {t t2 : SuffixTree} {dep edep : Nat → Nat} {parent : Nat}
    {cur : Char} {ci li : Nat}
    (hH : HeapInv t dep edep) (hci : ci ≤ li) (hli : li + 1 = t.text_.length)
    (hdep : dep parent ≤ ci)
    (h : AddPrefixInsert t parent cur ci li = .ok t2) :
    t2.text_ = t.text_ ∧ t2.nodes.length = t.nodes.length ∧
    t2.edges.length = t.edges.length + 1 ∧ parent < t.nodes.length ∧
    HeapInv t2 dep (Function.update edep t.edges.length (dep parent)) ∧
    (∀ K : Int, (∀ (p : Nat) (e2 : Edge), t.edges[p]? = some e2 →
        (e2.start_index : Int) + K < edep p) → (ci : Int) + K < dep parent →
      ∀ (p : Nat) (e2 : Edge), t2.edges[p]? = some e2 →
        (e2.start_index : Int) + K < Function.update edep t.edges.length (dep parent) p) ∧
    (∃ nd2, t2.nodes[parent]? = some nd2 ∧ nd2.GetEdge cur ≠ none) := by
  obtain ⟨nd, hnd, _, ht2⟩ := AddPrefixInsert_eq_ok h
  have hpar := lt_of_getElem? hnd
  have hnodes : ∀ (a : Nat) (nd1 : Node), t2.nodes[a]? = some nd1 →
      (a = parent ∧ nd1 = { nd with edges := mapSet nd.edges cur t.edges.length }) ∨
      (a ≠ parent ∧ t.nodes[a]? = some nd1) := by
    intro a nd1 ha
    rw [ht2] at ha
    rcases getElem?_set_cases ha with ⟨h1, h2, _⟩ | ⟨h1, h2⟩
    · exact Or.inl ⟨h1, h2⟩
    · exact Or.inr ⟨h1, h2⟩
  have hedges : ∀ (p : Nat) (e2 : Edge), t2.edges[p]? = some e2 →
      (p < t.edges.length ∧ t.edges[p]? = some e2) ∨
      (p = t.edges.length ∧ e2 = { start_index := ci, end_index := li, end_node := none }) := by
    intro p e2 hp
    rw [ht2] at hp
    exact getElem?_concat_cases hp
  have hlenN : t2.nodes.length = t.nodes.length := by
    rw [ht2]
    simp
  have hlenE : t2.edges.length = t.edges.length + 1 := by
    rw [ht2]
    simp
  have htext : t2.text_ = t.text_ := by
    rw [ht2]
  have hedepOld : ∀ p, p < t.edges.length →
      Function.update edep t.edges.length (dep parent) p = edep p := by
    intro p hp
    exact Function.update_noteq (by omega) _ _
  refine ⟨htext, hlenN, hlenE, hpar, ?_, ?_, ?_⟩
  · constructor
    · rw [hlenN]
      exact hH.root
    · exact hH.dep_root
    · intro a ha hne
      rw [hlenN] at ha
      exact hH.dep_pos a ha hne
    · intro a nd1 c p ha hmem
      rw [hlenE]
      rcases hnodes a nd1 ha with ⟨h1, h2⟩ | ⟨h1, h2⟩
      · subst h1
        subst h2
        simp only at hmem
        rcases mem_mapSet hmem with h3 | ⟨_, h3⟩
        · obtain ⟨h4, h5⟩ := hH.owner a nd c p hnd h3
          rw [hedepOld p h4]
          exact ⟨by omega, h5⟩
        · subst h3
          rw [Function.update_same]
          exact ⟨by omega, rfl⟩
      · obtain ⟨h4, h5⟩ := hH.owner a nd1 c p h2 hmem
        rw [hedepOld p h4]
        exact ⟨by omega, h5⟩
    · intro p e2 hp
      rw [htext]
      rcases hedges p e2 hp with ⟨h1, h2⟩ | ⟨h1, h2⟩
      · rw [hedepOld p h1]
        exact hH.edge p e2 h2
      · subst h1
        subst h2
        rw [Function.update_same]
        simp only
        omega
    · intro p e2 m hp hch
      rw [hlenN]
      rcases hedges p e2 hp with ⟨h1, h2⟩ | ⟨h1, h2⟩
      · rw [hedepOld p h1]
        exact hH.child p e2 m h2 hch
      · subst h2
        simp at hch
    · intro p e2 hp hch
      rw [htext]
      rcases hedges p e2 hp with ⟨h1, h2⟩ | ⟨h1, h2⟩
      · exact hH.leaf p e2 h2 hch
      · subst h2
        simp only
        exact hli
    · intro a nd1 s ha hs
      rw [hlenN]
      rcases hnodes a nd1 ha with ⟨h1, h2⟩ | ⟨h1, h2⟩
      · subst h1
        subst h2
        simp only at hs
        exact hH.link a nd s hnd hs
      · exact hH.link a nd1 s h2 hs
  · intro K hK hnew p e2 hp
    rcases hedges p e2 hp with ⟨h1, h2⟩ | ⟨h1, h2⟩
    · rw [hedepOld p h1]
      exact hK p e2 h2
    · subst h1
      subst h2
      rw [Function.update_same]
      simp only
      exact hnew
  · refine ⟨{ nd with edges := mapSet nd.edges cur t.edges.length }, ?_, ?_⟩
    · rw [ht2]
      simp only
      rw [List.getElem?_set]
      simp [hpar]
    · unfold Node.GetEdge
      simp only
      rw [mapFind_mapSet_self]
      simp

/-- The assignment of a suffix link keeps the invariant of the heap when the
target is an allocated node of smaller depth, and leaves all edges alone. -/
theorem setSuffixLink_inv {t t3 : SuffixTree} {dep edep : Nat → Nat} {prev : Option Nat}
    {parent : Nat}
    (hH : HeapInv t dep edep) (hpar : parent < t.nodes.length)
    (hprev : ∀ P, prev = some P → P ≠ 0 → dep parent < dep P)
    (h : setSuffixLink t prev (some parent) = .ok t3) :
    t3.text_ = t.text_ ∧ t3.edges = t.edges ∧ t3.nodes.length = t.nodes.length ∧
    HeapInv t3 dep edep ∧
    (∀ (a : Nat) (nd : Node), t.nodes[a]? = some nd →
      ∃ nd3, t3.nodes[a]? = some nd3 ∧ nd3.edges = nd.edges) := by
  unfold setSuffixLink at h
  split at h
  · simp at h
    subst h
    exact ⟨rfl, rfl, rfl, hH, fun a nd ha => ⟨nd, ha, rfl⟩⟩
  · rename_i P
    split at h
    · simp at h
      subst h
      exact ⟨rfl, rfl, rfl, hH, fun a nd ha => ⟨nd, ha, rfl⟩⟩
    · rename_i hP0
      split at h
      · simp at h
      · rename_i n hn
        obtain ⟨a0, ha0, hn1⟩ := nodeAt_eq_ok hn
        simp at ha0
        subst ha0
        simp at h
        have hPlt := lt_of_getElem? hn1
        have hdP := hprev P rfl hP0
        have hnodes : ∀ (a : Nat) (nd1 : Node), t3.nodes[a]? = some nd1 →
            (a = P ∧ nd1 = { n with suffix_node := some parent }) ∨
            (a ≠ P ∧ t.nodes[a]? = some nd1) := by
          intro a nd1 ha
          rw [← h] at ha
          rcases getElem?_set_cases ha with ⟨h1, h2, _⟩ | ⟨h1, h2⟩
          · exact Or.inl ⟨h1, h2⟩
          · exact Or.inr ⟨h1, h2⟩
        have hlenN : t3.nodes.length = t.nodes.length := by
          rw [← h]
          simp
        have hE : t3.edges = t.edges := by
          rw [← h]
        have htext : t3.text_ = t.text_ := by
          rw [← h]
        refine ⟨htext, hE, hlenN, ?_, ?_⟩
        · constructor
          · rw [hlenN]
            exact hH.root
          · exact hH.dep_root
          · intro a ha hne
            rw [hlenN] at ha
            exact hH.dep_pos a ha hne
          · intro a nd1 c p ha hmem
            rw [hE]
            rcases hnodes a nd1 ha with ⟨h1, h2⟩ | ⟨h1, h2⟩
            · subst h1
              subst h2
              exact hH.owner a n c p hn1 hmem
            · exact hH.owner a nd1 c p h2 hmem
          · intro p e2 hp
            rw [hE] at hp
            rw [htext]
            exact hH.edge p e2 hp
          · intro p e2 m hp hch
            rw [hE] at hp
            rw [hlenN]
            exact hH.child p e2 m hp hch
          · intro p e2 hp hch
            rw [hE] at hp
            rw [htext]
            exact hH.leaf p e2 hp hch
          · intro a nd1 s ha hs
            rw [hlenN]
            rcases hnodes a nd1 ha with ⟨h1, h2⟩ | ⟨h1, h2⟩
            · subst h1
              subst h2
              simp at hs
              subst hs
              exact ⟨hpar, hdP⟩
            · exact hH.link a nd1 s h2 hs
        · intro a nd ha
          by_cases haP : a = P
          · subst haP
            rw [hn1] at ha
            simp at ha
            subst ha
            refine ⟨{ n with suffix_node := some parent }, ?_, rfl⟩
            rw [← h]
            simp only
            rw [List.getElem?_set]
            simp [hPlt]
          · refine ⟨nd, ?_, rfl⟩
            rw [← h]
            simp only
            rw [List.getElem?_set_ne (fun h1 => haP h1.symm)]
            exact ha

/-- How `AddPrefix` moves the active point on to the next shorter suffix. -/
theorem AddPrefixAdvance_eq_ok {t : SuffixTree} {sn sn1 : SuffixNode}
    (h : AddPrefixAdvance t sn = .ok sn1) :
    (sn.active_node = some 0 ∧
      sn1 = { sn with first_char_index := sn.first_char_index + 1 }) ∨
    (∃ a nd, sn.active_node = some a ∧ a ≠ 0 ∧ t.nodes[a]? = some nd ∧
      sn1 = { sn with active_node := nd.suffix_node }) := by
  unfold AddPrefixAdvance at h
  split at h
  · rename_i hroot
    simp at h
    left
    exact ⟨hroot, h.symm⟩
  · rename_i hroot
    split at h
    · simp at h
    · rename_i a ha
      split at h
      · simp at h
      · rename_i n hn
        obtain ⟨a0, ha0, hn1⟩ := nodeAt_eq_ok hn
        simp at ha0
        subst ha0
        simp at h
        right
        refine ⟨a, n, ha, ?_, hn1, h.symm⟩
        intro h0
        apply hroot
        rw [ha, h0]
        rfl

theorem AddPrefixAdvance_ne_fuel (t : SuffixTree) (sn : SuffixNode) :
    AddPrefixAdvance t sn ≠ .error .out_of_fuel := by
  unfold AddPrefixAdvance
  split
  · simp
  · split
    · simp
    · split
      · rename_i f hf
        intro hh
        simp at hh
        subst hh
        exact nodeAt_ne_fuel _ _ hf
      · simp

theorem setSuffixLink_ne_fuel (t : SuffixTree) (prev parent : Option Nat) :
    setSuffixLink t prev parent ≠ .error .out_of_fuel := by
  unfold setSuffixLink
  split
  · simp
  · split
    · simp
    · split
      · rename_i f hf
        intro hh
        simp at hh
        subst hh
        exact nodeAt_ne_fuel _ _ hf
      · simp

theorem AddPrefixInsert_ne_fuel (t : SuffixTree) (parent : Nat) (cur : Char) (ci li : Nat) :
    AddPrefixInsert t parent cur ci li ≠ .error .out_of_fuel := by
  unfold AddPrefixInsert
  split
  · rename_i f hf
    intro hh
    simp at hh
    subst hh
    exact nodeAt_ne_fuel _ _ hf
  · split <;> simp

theorem SplitEdge_ne_fuel (t : SuffixTree) (edge span : Nat) :
    SplitEdge t edge span ≠ .error .out_of_fuel := by
  unfold SplitEdge
  split
  · rename_i f hf
    intro hh
    simp at hh
    subst hh
    exact edgeAt_ne_fuel _ _ hf
  · simp only
    split
    · rename_i f hf
      intro hh
      simp at hh
      subst hh
      exact charAt_ne_fuel _ _ hf
    · split <;> simp

theorem AddPrefixLocate_ne_fuel (t : SuffixTree) (sn : SuffixNode) (cur : Char) :
    AddPrefixLocate t sn cur ≠ .error .out_of_fuel := by
  unfold AddPrefixLocate
  split
  · split
    · simp
    · split
      · rename_i f hf
        intro hh
        simp at hh
        subst hh
        exact nodeAt_ne_fuel _ _ hf
      · split <;> simp
  · split
    · rename_i f hf
      intro hh
      simp at hh
      subst hh
      exact charAtInt_ne_fuel _ _ hf
    · split
      · rename_i f hf
        intro hh
        simp at hh
        subst hh
        exact nodeAt_ne_fuel _ _ hf
      · split
        · simp
        · simp only
          split
          · rename_i f hf
            intro hh
            simp at hh
            subst hh
            exact edgeAt_ne_fuel _ _ hf
          · split
            · rename_i f hf
              intro hh
              simp at hh
              subst hh
              exact charAt_ne_fuel _ _ hf
            · split
              · split
                · rename_i f hf
                  intro hh
                  simp at hh
                  subst hh
                  exact SplitEdge_ne_fuel _ _ _ hf
                · simp
              · simp

end SuffixTree

namespace SuffixTree

/-- The test at the head of the loop body, under the invariant: when it asks
for an insertion, the active point holds no more symbols than it has not yet
dropped, and the node that gets the leaf lies exactly as deep as the active
point. -/
theorem AddPrefixLocate_inv {t t1 : SuffixTree} {dep edep : Nat → Nat} {sn : SuffixNode}
    {a i parent : Nat} {cur : Char}
    (hH : HeapInv t dep edep) (hP : PointInv t dep edep sn a)
    (hi : i < t.text_.length) (hlast : sn.last_char_index = (i : Int) - 1)
    (hfirst : sn.first_char_index ≤ (i : Int) + 1)
    (hbeyond : sn.first_char_index = (i : Int) + 1 →
      a = 0 ∧ ∃ nd, t.nodes[0]? = some nd ∧ nd.GetEdge cur ≠ none)
    (h : AddPrefixLocate t sn cur = .ok (some (t1, parent))) :
    sn.first_char_index ≤ (i : Int) ∧
    ∃ dep1 edep1, HeapInv t1 dep1 edep1 ∧ t1.text_ = t.text_ ∧
      parent < t1.nodes.length ∧ t1.nodes.length ≤ t.nodes.length + 1 ∧
      t.nodes.length ≤ t1.nodes.length ∧
      (dep1 parent : Int) = dep a + i - sn.first_char_index ∧
      (∀ x, x < t.nodes.length → dep1 x = dep x) ∧
      (sn.IsExplicit = true → parent = a) ∧
      (∀ K : Int, (∀ (p : Nat) (e2 : Edge), t.edges[p]? = some e2 →
          (e2.start_index : Int) + K < edep p) →
        ∀ (p : Nat) (e2 : Edge), t1.edges[p]? = some e2 →
          (e2.start_index : Int) + K < edep1 p) := by
  unfold AddPrefixLocate at h
  split at h
  · -- the active point is explicit
    rename_i hexp
    have hexp1 : sn.first_char_index > sn.last_char_index := by
      unfold SuffixNode.IsExplicit at hexp
      simpa using hexp
    split at h
    · simp at h
    · rename_i a0 ha0
      have haa : a = a0 := by
        have := hP.active
        rw [ha0] at this
        simpa using this.symm
      subst haa
      split at h
      · simp at h
      · rename_i nd hnd
        obtain ⟨a2, ha2, hnd1⟩ := nodeAt_eq_ok hnd
        simp at ha2
        subst ha2
        split at h
        · simp at h
        · rename_i hnone
          simp at hnone
          simp at h
          obtain ⟨h1, h2⟩ := h
          subst h1
          subst h2
          have hfi : sn.first_char_index ≤ (i : Int) := by
            by_contra hcon
            have heq : sn.first_char_index = (i : Int) + 1 := by omega
            obtain ⟨ha0, nd0, hnd0, hne⟩ := hbeyond heq
            subst ha0
            rw [hnd1] at hnd0
            simp at hnd0
            subst hnd0
            exact hne hnone
          refine ⟨hfi, dep, edep, hH, rfl, hP.valid, by omega, by omega, by omega,
            fun x _ => rfl, fun _ => rfl, fun K hK => hK⟩
  · -- the active point is implicit
    rename_i hexp
    have hexp1 : sn.first_char_index ≤ sn.last_char_index := by
      unfold SuffixNode.IsExplicit at hexp
      simpa using hexp
    split at h
    · simp at h
    · rename_i c hc
      split at h
      · simp at h
      · rename_i nd hnd
        obtain ⟨a2, ha2, hnd1⟩ := nodeAt_eq_ok hnd
        have haa : a = a2 := by
          have := hP.active
          rw [ha2] at this
          simpa using this.symm
        subst haa
        split at h
        · simp at h
        · rename_i edge hedge
          simp only at h
          split at h
          · simp at h
          · rename_i e he
            have he1 := edgeAt_eq_ok he
            have hmem := mapFind_mem hedge
            obtain ⟨_, hown⟩ := hH.owner _ _ _ _ hnd1 hmem
            obtain ⟨hse, hen, hde⟩ := hH.edge _ _ he1
            have horig := hP.origin _ _ he1
            have hcount := hP.count
            have hroot := hH.root
            split at h
            · simp at h
            · rename_i nc hnc
              split at h
              · split at h
                · simp at h
                · rename_i t1' m hsplit
                  simp at h
                  obtain ⟨h1, h2⟩ := h
                  subst h1
                  subst h2
                  have hs : e.start_index +
                      (sn.last_char_index - sn.first_char_index).toNat + 1 <
                      t.text_.length := by
                    omega
                  obtain ⟨hm, htext, hlenN, _, hH1, hK1⟩ :=
                    SplitEdge_inv hH he1 hs hsplit
                  refine ⟨by omega, _, _, hH1, htext, by omega, by omega, by omega, ?_, ?_,
                    ?_, hK1⟩
                  · rw [hm, Function.update_same]
                    push_cast
                    omega
                  · intro x hx
                    exact Function.update_noteq (by omega) _ _
                  · intro hcon
                    rw [hcon] at hexp
                    simp at hexp
              · simp at h

theorem Canonize_none {t : SuffixTree} :
    ∀ (fuel : Nat) (sn sn1 : SuffixNode), sn.active_node = none →
      Canonize t fuel sn = .ok sn1 → sn1 = sn := by
  intro fuel sn sn1 hn h
  cases fuel with
  | zero =>
    unfold Canonize at h
    split at h
    · simp at h
      exact h.symm
    · simp at h
  | succ fuel =>
    unfold Canonize at h
    split at h
    · simp at h
      exact h.symm
    · split at h
      · simp at h
      · rename_i a ha
        rw [hn] at ha
        simp at ha

end SuffixTree

namespace SuffixTree

/-- The body of the loop of `AddPrefix` never runs out of fuel: its only loop
is that of `Canonize`. -/
theorem AddPrefixBody_ne_fuel (i : Nat) (cur : Char) (li : Nat) (s : LoopState) :
    AddPrefixBody i cur li s ≠ .error .out_of_fuel := by
  unfold AddPrefixBody
  simp only
  split
  · rename_i f hf
    intro hh
    simp at hh
    subst hh
    exact AddPrefixLocate_ne_fuel _ _ _ hf
  · simp
  · split
    · rename_i f hf
      intro hh
      simp at hh
      subst hh
      exact AddPrefixInsert_ne_fuel _ _ _ _ _ hf
    · split
      · rename_i f hf
        intro hh
        simp at hh
        subst hh
        exact setSuffixLink_ne_fuel _ _ _ hf
      · split
        · rename_i f hf
          intro hh
          simp at hh
          subst hh
          exact AddPrefixAdvance_ne_fuel _ _ hf
        · split
          · rename_i f hf
            intro hh
            simp at hh
            subst hh
            exact Canonize_ne_fuel _ _ _ (le_refl _) hf
          · simp

/-- When the body leaves the loop by `break` it has changed nothing but
`parent_node`, which is the active node. -/
theorem AddPrefixBody_break {i : Nat} {cur : Char} {li : Nat} {s s1 : LoopState}
    (h : AddPrefixBody i cur li s = .ok (true, s1)) :
    s1 = { s with parent_node := s.suffix_node.active_node } := by
  unfold AddPrefixBody at h
  simp only at h
  split at h
  · simp at h
  · simp at h
    exact h.symm
  · split at h
    · simp at h
    · split at h
      · simp at h
      · split at h
        · simp at h
        · split at h
          · simp at h
          · simp at h

/-- An execution of the body that does not leave the loop keeps the loop
invariant and moves the active point to a strictly shorter suffix, unless it
has followed a suffix link that is `NULL`. -/
theorem AddPrefixBody_step {i : Nat} {cur : Char} {li : Nat} {dep edep : Nat → Nat}
    {s s1 : LoopState} {a : Nat}
    (hI : LoopInv i cur dep edep s a) (hli : li + 1 = s.tree.text_.length)
    (h : AddPrefixBody i cur li s = .ok (false, s1)) :
    s1.tree.text_ = s.tree.text_ ∧ s.suffix_node.first_char_index ≤ (i : Int) ∧
    (s1.suffix_node.active_node = none ∨
      ∃ dep1 edep1 a1, LoopInv i cur dep1 edep1 s1 a1 ∧
        (dep1 a1 : Int) - s1.suffix_node.first_char_index <
          dep a - s.suffix_node.first_char_index) := by
  unfold AddPrefixBody at h
  simp only at h
  split at h
  · simp at h
  · simp at h
  · rename_i t1 parent hloc
    obtain ⟨hfi, dep1, edep1, hH1, htext1, hpar1, hlen1, hlen1', hdpar, hdold, hexpl, hK1⟩ :=
      AddPrefixLocate_inv hI.heap hI.point hI.phase hI.last hI.first_le hI.beyond hloc
    have hcount := hI.point.count
    have hroot := hI.heap.root
    split at h
    · simp at h
    · rename_i t2 hins
      have hdle : dep1 parent ≤ i := by omega
      have hcili : i ≤ li := by
        have := hI.phase
        omega
      obtain ⟨htext2, hlen2, hlenE2, _, hH2, hK2, ⟨ndp, hndp, hndpc⟩⟩ :=
        AddPrefixInsert_inv hH1 hcili (by rw [htext1]; exact hli) hdle hins
      split at h
      · simp at h
      · rename_i t3 hlink
        have hprev : ∀ P, s.prev_parent_node = some P → P ≠ 0 → dep1 parent < dep1 P := by
          intro P hP _
          obtain ⟨hPlt, hPd⟩ := hI.prev P hP
          rw [hdold P hPlt]
          omega
        obtain ⟨htext3, hE3, hlen3, hH3, hedges3⟩ :=
          setSuffixLink_inv hH2 (by omega) hprev hlink
        split at h
        · simp at h
        · rename_i sn1 hadv
          split at h
          · simp at h
          · rename_i sn2 hcan
            simp at h
            subst h
            simp only
            refine ⟨by rw [htext3, htext2, htext1], hfi, ?_⟩
            have hact := hI.point.active
            have hda : dep1 a = dep a := hdold a hI.point.valid
            -- the origin of every edge of the new heap, for a point that has moved on
            have horigin : ∀ K : Int, K < (dep a : Int) - s.suffix_node.first_char_index →
                ∀ (p : Nat) (e2 : Edge), t3.edges[p]? = some e2 →
                  (e2.start_index : Int) + K <
                    Function.update edep1 t1.edges.length (dep1 parent) p := by
              intro K hK p e2 hp
              rw [hE3] at hp
              refine hK2 K (hK1 K ?_) ?_ p e2 hp
              · intro p0 e0 hp0
                have := hI.point.origin p0 e0 hp0
                omega
              · omega
            rcases AddPrefixAdvance_eq_ok hadv with ⟨hr, hsn1⟩ | ⟨a0, nd, ha0, hne, hnd, hsn1⟩
            · -- at the root: the first symbol is dropped
              have ha : a = 0 := by
                rw [hact] at hr
                simpa using hr
              subst ha
              have hP1 : PointInv t3 dep1 (Function.update edep1 t1.edges.length (dep1 parent))
                  sn1 0 := by
                subst hsn1
                refine ⟨hact, by omega, ?_, ?_, ?_⟩
                · intro p e2 hp
                  have := horigin ((dep 0 : Int) - s.suffix_node.first_char_index - 1)
                    (by omega) p e2 hp
                  simp only
                  omega
                · simp only
                  omega
                · simp only
                  rw [htext3, htext2, htext1]
                  exact hI.point.last_lt
              obtain ⟨a1, hPa, hl, hd, hf⟩ := Canonize_inv t3 _ _ hH3 _ _ _ _ hP1 hcan
              right
              refine ⟨dep1, _, a1, ⟨hH3, hPa, ?_, ?_, ?_, ?_, ?_⟩, ?_⟩
              · simp only
                rw [htext3, htext2, htext1]
                exact hI.phase
              · simp only
                rw [hl, hsn1]
                exact hI.last
              · simp only
                have := hI.last
                rw [hsn1] at hf
                simp only at hf
                omega
              · simp only
                intro hbe
                have hl0 := hI.last
                rw [hsn1] at hf hd
                simp only at hf hd
                have hd1 : dep1 a1 = 0 := by
                  have := hI.heap.dep_root
                  omega
                have ha1 : a1 = 0 := by
                  by_contra hcon
                  have := hH3.dep_pos a1 hPa.valid hcon
                  omega
                refine ⟨ha1, ?_⟩
                -- the leaf was inserted at the root
                have hexp : s.suffix_node.IsExplicit = true := by
                  unfold SuffixNode.IsExplicit
                  simp
                  omega
                have hp0 := hexpl hexp
                subst hp0
                obtain ⟨nd3, hnd3, hed3⟩ := hedges3 _ _ hndp
                refine ⟨nd3, hnd3, ?_⟩
                unfold Node.GetEdge at hndpc ⊢
                rw [hed3]
                exact hndpc
              · simp only
                intro P hP
                simp at hP
                subst hP
                rw [hsn1] at hd
                simp only at hd
                refine ⟨by omega, ?_⟩
                omega
              · rw [hsn1] at hd
                simp only at hd
                omega
            · -- elsewhere: the suffix link is followed
              have ha : a = a0 := by
                rw [hact] at ha0
                simpa using ha0
              subst ha
              cases hsuf : nd.suffix_node with
              | none =>
                left
                have : sn1.active_node = none := by
                  rw [hsn1]
                  simp [hsuf]
                rw [Canonize_none _ _ _ this hcan]
                exact this
              | some sl =>
                obtain ⟨hsl, hdsl⟩ := hH3.link a nd sl hnd hsuf
                have hP1 : PointInv t3 dep1
                    (Function.update edep1 t1.edges.length (dep1 parent)) sn1 sl := by
                  subst hsn1
                  refine ⟨by simp [hsuf], hsl, ?_, ?_, ?_⟩
                  · intro p e2 hp
                    have := horigin ((dep1 sl : Int) - s.suffix_node.first_char_index)
                      (by omega) p e2 hp
                    simp only
                    omega
                  · simp only
                    omega
                  · simp only
                    rw [htext3, htext2, htext1]
                    exact hI.point.last_lt
                obtain ⟨a1, hPa, hl, hd, hf⟩ := Canonize_inv t3 _ _ hH3 _ _ _ _ hP1 hcan
                right
                refine ⟨dep1, _, a1, ⟨hH3, hPa, ?_, ?_, ?_, ?_, ?_⟩, ?_⟩
                · simp only
                  rw [htext3, htext2, htext1]
                  exact hI.phase
                · simp only
                  rw [hl, hsn1]
                  exact hI.last
                · simp only
                  have := hI.last
                  rw [hsn1] at hf
                  simp only at hf
                  omega
                · simp only
                  intro hbe
                  have hl0 := hI.last
                  rw [hsn1] at hf
                  simp only at hf
                  omega
                · simp only
                  intro P hP
                  simp at hP
                  subst hP
                  rw [hsn1] at hd
                  simp only at hd
                  refine ⟨by omega, ?_⟩
                  omega
                · rw [hsn1] at hd
                  simp only at hd
                  omega

end SuffixTree

namespace SuffixTree

/-- With a `NULL` active node the test at the head of the loop body faults. -/
theorem AddPrefixLocate_none (t : SuffixTree) (sn : SuffixNode) (cur : Char)
    (hn : sn.active_node = none) :
    ∃ f, AddPrefixLocate t sn cur = .error f := by
  unfold AddPrefixLocate
  split
  · rw [hn]
    exact ⟨_, rfl⟩
  · split
    · rename_i f _
      exact ⟨f, rfl⟩
    · rw [hn]
      simp [nodeAt]

theorem AddPrefixBody_none (i : Nat) (cur : Char) (li : Nat) (s : LoopState)
    (hn : s.suffix_node.active_node = none) :
    ∃ f, AddPrefixBody i cur li s = .error f := by
  unfold AddPrefixBody
  simp only
  obtain ⟨f, hf⟩ := AddPrefixLocate_none s.tree _ cur hn
  rw [hf]
  exact ⟨f, rfl⟩

/-- The `for (;;)` loop of `AddPrefix` under its invariant: fuel for two
executions of the body more than the active point is long is never
exhausted, and the invariant holds when the loop is left by `break`. -/
theorem AddPrefixLoop_inv (i : Nat) (cur : Char) (li : Nat) :
    ∀ (fuel : Nat) (s : LoopState) (dep edep : Nat → Nat) (a : Nat),
      LoopInv i cur dep edep s a → li + 1 = s.tree.text_.length →
      (dep a : Int) + i - s.suffix_node.first_char_index + 2 ≤ fuel →
      AddPrefixLoop i cur li fuel s ≠ .error .out_of_fuel ∧
      ∀ s1, AddPrefixLoop i cur li fuel s = .ok s1 →
        ∃ dep1 edep1 a1, LoopInv i cur dep1 edep1 s1 a1 ∧ s1.parent_node = some a1 ∧
          s1.tree.text_ = s.tree.text_ := by
  intro fuel
  induction fuel with
  | zero =>
    intro s dep edep a hI _ hf
    have := hI.first_le
    omega
  | succ fuel ih =>
    intro s dep edep a hI hli hf
    unfold AddPrefixLoop
    cases hb : AddPrefixBody i cur li s with
    | error f =>
      simp only
      refine ⟨?_, by simp⟩
      intro hh
      simp at hh
      subst hh
      exact AddPrefixBody_ne_fuel _ _ _ _ hb
    | ok r =>
      obtain ⟨b, s1⟩ := r
      cases b with
      | true =>
        simp only
        refine ⟨by simp, ?_⟩
        intro s2 hs2
        simp at hs2
        subst hs2
        have hs1 := AddPrefixBody_break hb
        subst hs1
        exact ⟨dep, edep, a, ⟨hI.heap, hI.point, hI.phase, hI.last, hI.first_le, hI.beyond,
          hI.prev⟩, hI.point.active, rfl⟩
      | false =>
        simp only
        obtain ⟨htext, hfi, hcase⟩ := AddPrefixBody_step hI hli hb
        rcases hcase with hnone | ⟨dep1, edep1, a1, hI1, hdecr⟩
        · -- a `NULL` suffix link was followed: the next execution faults
          have hfuel : 1 ≤ fuel := by omega
          obtain ⟨fuel1, rfl⟩ : ∃ k, fuel = k + 1 := ⟨fuel - 1, by omega⟩
          obtain ⟨f, hf1⟩ := AddPrefixBody_none i cur li s1 hnone
          have hne := AddPrefixBody_ne_fuel i cur li s1
          unfold AddPrefixLoop
          rw [hf1]
          simp only
          refine ⟨?_, by simp⟩
          intro hh
          simp at hh
          subst hh
          exact hne hf1
        · obtain ⟨h1, h2⟩ := ih s1 dep1 edep1 a1 hI1 (by rw [htext]; exact hli) (by omega)
          refine ⟨h1, ?_⟩
          intro s2 hs2
          obtain ⟨dep2, edep2, a2, hI2, hp2, ht2⟩ := h2 s2 hs2
          exact ⟨dep2, edep2, a2, hI2, hp2, by rw [ht2, htext]⟩

/-- One phase of the construction keeps the invariant and does not exhaust
the fuel `text_.length() + 2` of its loop. -/
theorem AddPrefix_inv {fuel i : Nat} {dep edep : Nat → Nat} {t : SuffixTree} {sn : SuffixNode}
    {a : Nat}
    (hI : PhaseInv i dep edep t sn a) (hi : i < t.text_.length)
    (hfuel : t.text_.length + 2 ≤ fuel) :
    AddPrefix fuel t sn i ≠ .error .out_of_fuel ∧
    ∀ t1 sn1, AddPrefix fuel t sn i = .ok (t1, sn1) →
      t1.text_ = t.text_ ∧ ∃ dep1 edep1 a1, PhaseInv (i + 1) dep1 edep1 t1 sn1 a1 := by
  unfold AddPrefix
  cases hc : charAt t.text_ i with
  | error f =>
    simp only
    refine ⟨?_, by simp⟩
    intro hh
    simp at hh
    subst hh
    exact charAt_ne_fuel _ _ hc
  | ok cur =>
    simp only
    have hI0 : LoopInv i cur dep edep
        { tree := t, suffix_node := sn, prev_parent_node := none, parent_node := none } a := by
      refine ⟨hI.heap, hI.point, hi, hI.last, ?_, ?_, ?_⟩
      · have := hI.first_le
        simp only
        omega
      · intro hbe
        have := hI.first_le
        simp only at hbe
        omega
      · intro P hP
        simp at hP
    have hcount := hI.point.count
    have hroot := hI.heap.root
    obtain ⟨hl1, hl2⟩ := AddPrefixLoop_inv i cur (t.text_.length - 1) fuel _ dep edep a hI0
      (by simp only; omega) (by simp only; omega)
    cases hloop : AddPrefixLoop i cur (t.text_.length - 1) fuel
        { tree := t, suffix_node := sn, prev_parent_node := none, parent_node := none } with
    | error f =>
      simp only
      refine ⟨?_, by simp⟩
      intro hh
      simp at hh
      subst hh
      exact hl1 hloop
    | ok s =>
      simp only
      obtain ⟨dep1, edep1, a1, hI1, hpar, htext⟩ := hl2 s hloop
      simp only at htext
      cases hlink : setSuffixLink s.tree s.prev_parent_node s.parent_node with
      | error f =>
        simp only
        refine ⟨?_, by simp⟩
        intro hh
        simp at hh
        subst hh
        exact setSuffixLink_ne_fuel _ _ _ hlink
      | ok t1 =>
        simp only
        rw [hpar] at hlink
        have hprev : ∀ P, s.prev_parent_node = some P → P ≠ 0 → dep1 a1 < dep1 P := by
          intro P hP hP0
          obtain ⟨hPlt, hPd⟩ := hI1.prev P hP
          have hfl := hI1.first_le
          by_cases hbe : s.suffix_node.first_char_index = (i : Int) + 1
          · obtain ⟨ha1, _⟩ := hI1.beyond hbe
            subst ha1
            have := hI1.heap.dep_pos P hPlt hP0
            have := hI1.heap.dep_root
            omega
          · omega
        obtain ⟨htext1, hE1, hlen1, hH1, _⟩ :=
          setSuffixLink_inv hI1.heap hI1.point.valid hprev hlink
        have hP1 : PointInv t1 dep1 edep1
            { s.suffix_node with last_char_index := s.suffix_node.last_char_index + 1 } a1 := by
          refine ⟨hI1.point.active, by rw [hlen1]; exact hI1.point.valid, ?_, ?_, ?_⟩
          · intro p e2 hp
            rw [hE1] at hp
            exact hI1.point.origin p e2 hp
          · rw [hlen1]
            exact hI1.point.count
          · simp only
            rw [htext1, hI1.last]
            have := hI1.phase
            omega
        cases hcan : Canonize t1
            (canonizeFuel
              { s.suffix_node with last_char_index := s.suffix_node.last_char_index + 1 })
            { s.suffix_node with last_char_index := s.suffix_node.last_char_index + 1 } with
        | error f =>
          simp only
          refine ⟨?_, by simp⟩
          intro hh
          simp at hh
          subst hh
          exact Canonize_ne_fuel _ _ _ (le_refl _) hcan
        | ok sn2 =>
          simp only
          refine ⟨by simp, ?_⟩
          intro t2 sn3 heq
          simp at heq
          obtain ⟨h1, h2⟩ := heq
          subst h1
          subst h2
          obtain ⟨a2, hPa, hl, _, hf⟩ := Canonize_inv t1 _ _ hH1 _ _ _ _ hP1 hcan
          refine ⟨by rw [htext1, htext], dep1, edep1, a2, hH1, hPa, ?_, ?_⟩
          · rw [hl]
            simp only
            rw [hI1.last]
            push_cast
            omega
          · simp only at hf
            have := hI1.first_le
            have := hI1.last
            push_cast
            omega

/-- The phases from `i` on keep the invariant and never exhaust the fuel. -/
theorem AddStringLoop_inv (fuel : Nat) :
    ∀ (count i : Nat) (t : SuffixTree) (sn : SuffixNode) (dep edep : Nat → Nat) (a : Nat),
      PhaseInv i dep edep t sn a → i + count ≤ t.text_.length →
      t.text_.length + 2 ≤ fuel →
      AddStringLoop fuel count i t sn ≠ .error .out_of_fuel ∧
      ∀ t1 sn1, AddStringLoop fuel count i t sn = .ok (t1, sn1) →
        t1.text_ = t.text_ ∧
        ∃ dep1 edep1 a1, PhaseInv (i + count) dep1 edep1 t1 sn1 a1 := by
  intro count
  induction count with
  | zero =>
    intro i t sn dep edep a hI hic _
    unfold AddStringLoop
    refine ⟨by simp, ?_⟩
    intro t1 sn1 heq
    simp at heq
    obtain ⟨h1, h2⟩ := heq
    subst h1
    subst h2
    exact ⟨rfl, dep, edep, a, hI⟩
  | succ count ih =>
    intro i t sn dep edep a hI hic hfuel
    unfold AddStringLoop
    obtain ⟨hp1, hp2⟩ := AddPrefix_inv hI (by omega) hfuel
    cases hph : AddPrefix fuel t sn i with
    | error f =>
      simp only
      refine ⟨?_, by simp⟩
      intro hh
      simp at hh
      subst hh
      exact hp1 hph
    | ok r =>
      obtain ⟨t1, sn1⟩ := r
      simp only
      obtain ⟨htext, dep1, edep1, a1, hI1⟩ := hp2 t1 sn1 hph
      obtain ⟨h1, h2⟩ := ih (i + 1) t1 sn1 dep1 edep1 a1 hI1 (by rw [htext]; omega)
        (by rw [htext]; exact hfuel)
      refine ⟨h1, ?_⟩
      intro t2 sn2 heq
      obtain ⟨h3, h4⟩ := h2 t2 sn2 heq
      rw [htext] at h3
      have hidx : i + 1 + count = i + (count + 1) := by omega
      rw [hidx] at h4
      exact ⟨h3, h4⟩

/-- The invariant holds when `AddString` enters its loop on a fresh tree. -/
theorem PhaseInv_init (T : List Char) :
    PhaseInv 0 (fun _ => 0) (fun _ => 0) { SuffixTree.new with text_ := T }
      { first_char_index := 0, last_char_index := -1, active_node := some root_ } 0 := by
  refine ⟨⟨?_, rfl, ?_, ?_, ?_, ?_, ?_, ?_⟩, ⟨rfl, ?_, ?_, ?_, ?_⟩, ?_, ?_⟩
  · simp [SuffixTree.new]
  · intro a _ _
    simp [SuffixTree.new] at *
    omega
  · intro a nd c p ha hmem
    simp only [SuffixTree.new] at ha
    have h1 := lt_of_getElem? ha
    simp at h1
    subst h1
    simp at ha
    subst ha
    simp at hmem
  · intro p e hp
    simp [SuffixTree.new] at hp
  · intro p e m hp
    simp [SuffixTree.new] at hp
  · intro p e hp
    simp [SuffixTree.new] at hp
  · intro a nd s ha hs
    simp only [SuffixTree.new] at ha
    have h1 := lt_of_getElem? ha
    simp at h1
    subst h1
    simp at ha
    subst ha
    simp at hs
  · simp [SuffixTree.new]
  · intro p e hp
    simp [SuffixTree.new] at hp
  · simp [SuffixTree.new]
  · simp only
    omega
  · simp
  · simp

/-- Every run of `AddString` on a fresh tree stops by itself, and a run that
completes leaves a heap that satisfies the invariant. -/
theorem buildPhases_inv (T : List Char) (k : Nat) (hk : k ≤ T.length) :
    buildPhases T k ≠ .error .out_of_fuel ∧
    ∀ t sn, buildPhases T k = .ok (t, sn) →
      t.text_ = T ∧ ∃ dep edep a, PhaseInv k dep edep t sn a := by
  unfold buildPhases
  obtain ⟨h1, h2⟩ := AddStringLoop_inv (T.length + 2) k 0 _ _ _ _ 0 (PhaseInv_init T)
    (by simpa using hk) (by simp)
  refine ⟨h1, ?_⟩
  intro t sn heq
  obtain ⟨h3, dep1, edep1, a1, h4⟩ := h2 t sn heq
  simp only [Nat.zero_add] at h3 h4
  exact ⟨h3, dep1, edep1, a1, h4⟩

/-- `AddString` on a fresh tree is the run of all its phases. -/
theorem buildTree_eq (T : List Char) :
    buildTree T =
      match buildPhases T T.length with
      | .error f => .error f
      | .ok (t, _) => .ok t := by
  rfl

/-- Every run of `AddString` on a fresh tree stops by itself, and a run that
completes leaves a heap that satisfies the invariant. -/
theorem buildTree_inv (T : List Char) :
    buildTree T ≠ .error .out_of_fuel ∧
    ∀ t, buildTree T = .ok t →
      t.text_ = T ∧ ∃ dep edep sn a, PhaseInv T.length dep edep t sn a := by
  rw [buildTree_eq]
  obtain ⟨h1, h2⟩ := buildPhases_inv T T.length (le_refl _)
  cases hl : buildPhases T T.length with
  | error f =>
    simp only
    refine ⟨?_, by simp⟩
    intro hh
    simp at hh
    subst hh
    exact h1 hl
  | ok r =>
    obtain ⟨t1, sn1⟩ := r
    simp only
    refine ⟨by simp, ?_⟩
    intro t heq
    simp at heq
    subst heq
    obtain ⟨h3, dep1, edep1, a1, h4⟩ := h2 t1 sn1 hl
    exact ⟨h3, dep1, edep1, sn1, a1, h4⟩

end SuffixTree

namespace SuffixTree

/-- More fuel does not change the outcome of a loop that stopped by itself. -/
theorem AddPrefixLoop_mono {i : Nat} {cur : Char} {li : Nat} :
    ∀ (fuel fuel1 : Nat) (s : LoopState), fuel ≤ fuel1 →
      AddPrefixLoop i cur li fuel s ≠ .error .out_of_fuel →
      AddPrefixLoop i cur li fuel1 s = AddPrefixLoop i cur li fuel s := by
  intro fuel
  induction fuel with
  | zero =>
    intro fuel1 s _ h
    unfold AddPrefixLoop at h
    simp at h
  | succ fuel ih =>
    intro fuel1 s hle h
    obtain ⟨k, rfl⟩ : ∃ k, fuel1 = k + 1 := ⟨fuel1 - 1, by omega⟩
    unfold AddPrefixLoop at h ⊢
    cases hb : AddPrefixBody i cur li s with
    | error f => rfl
    | ok r =>
      obtain ⟨b, s1⟩ := r
      cases b with
      | true => rfl
      | false =>
        rw [hb] at h
        simp only at h ⊢
        exact ih k s1 (by omega) h

theorem AddPrefix_mono {fuel fuel1 i : Nat} {t : SuffixTree} {sn : SuffixNode}
    (hle : fuel ≤ fuel1) (h : AddPrefix fuel t sn i ≠ .error .out_of_fuel) :
    AddPrefix fuel1 t sn i = AddPrefix fuel t sn i := by
  unfold AddPrefix at h ⊢
  cases hc : charAt t.text_ i with
  | error f => rfl
  | ok cur =>
    rw [hc] at h
    simp only at h ⊢
    have hloop : AddPrefixLoop i cur (t.text_.length - 1) fuel
        { tree := t, suffix_node := sn, prev_parent_node := none, parent_node := none } ≠
        .error .out_of_fuel := by
      intro hh
      rw [hh] at h
      simp at h
    rw [AddPrefixLoop_mono fuel fuel1 _ hle hloop]

theorem AddStringLoop_mono {fuel fuel1 : Nat} (hle : fuel ≤ fuel1) :
    ∀ (count i : Nat) (t : SuffixTree) (sn : SuffixNode),
      AddStringLoop fuel count i t sn ≠ .error .out_of_fuel →
      AddStringLoop fuel1 count i t sn = AddStringLoop fuel count i t sn := by
  intro count
  induction count with
  | zero =>
    intro i t sn _
    unfold AddStringLoop
    rfl
  | succ count ih =>
    intro i t sn h
    unfold AddStringLoop at h ⊢
    have hp : AddPrefix fuel t sn i ≠ .error .out_of_fuel := by
      intro hh
      rw [hh] at h
      simp at h
    rw [AddPrefix_mono hle hp]
    cases hph : AddPrefix fuel t sn i with
    | error f => rfl
    | ok r =>
      obtain ⟨t1, sn1⟩ := r
      rw [hph] at h
      simp only at h ⊢
      exact ih (i + 1) t1 sn1 h

theorem AddStringFuel_mono {fuel fuel1 : Nat} (hle : fuel ≤ fuel1) (t : SuffixTree)
    (T : List Char) (h : AddStringFuel fuel t T ≠ .error .out_of_fuel) :
    AddStringFuel fuel1 t T = AddStringFuel fuel t T := by
  unfold AddStringFuel at h ⊢
  simp only at h ⊢
  have hl : AddStringLoop fuel T.length 0 { t with text_ := T }
      { first_char_index := 0, last_char_index := -1, active_node := some root_ } ≠
      .error .out_of_fuel := by
    intro hh
    rw [hh] at h
    simp at h
  rw [AddStringLoop_mono hle _ _ _ _ hl]

end SuffixTree

namespace SuffixTree

theorem charAt_of_lt {text : List Char} {k : Nat} (h : k < text.length) :
    ∃ c, charAt text k = .ok c := by
  unfold charAt
  rw [List.getElem?_eq_getElem h]
  exact ⟨_, rfl⟩

theorem nodeAt_of_lt {t : SuffixTree} {a : Nat} (h : a < t.nodes.length) :
    ∃ nd, t.nodeAt (some a) = .ok nd ∧ t.nodes[a]? = some nd := by
  unfold nodeAt
  simp only
  rw [List.getElem?_eq_getElem h]
  exact ⟨_, rfl, rfl⟩

/-- On a tree whose heap satisfies the invariant, an execution of the body of
the loop of `Contains` does not fault, and it keeps the invariant of the walk
unless it reports the pattern absent. -/
theorem ContainsBody_walk {t : SuffixTree} {dep edep : Nat → Nat} {text : List Char}
    {s : ContainsState}
    (hH : HeapInv t dep edep) (hsize : t.text_.length < 2 ^ 64)
    (hW : WalkInv t dep edep s) (hi : s.i < text.length) :
    ∃ s1, ContainsBody t text s = .ok s1 ∧
      (s1.is_in_tree = false ∨ WalkInv t dep edep s1) := by
  obtain ⟨hn, hpos⟩ := hW
  obtain ⟨c, hc⟩ := charAt_of_lt hi
  unfold ContainsBody
  rw [hc]
  simp only
  cases hp : s.p with
  | none =>
    simp only
    exact ⟨_, rfl, Or.inl rfl⟩
  | some a =>
    simp only
    cases he : s.e with
    | none =>
      simp only
      rw [he] at hpos
      simp only at hpos
      obtain ⟨ha, hia⟩ := hpos a hp
      obtain ⟨nd, hnd, hnd1⟩ := nodeAt_of_lt ha
      rw [hnd]
      simp only
      cases hf : mapFind nd.edges c with
      | none =>
        simp only
        exact ⟨_, rfl, Or.inl rfl⟩
      | some edge =>
        simp only
        refine ⟨_, rfl, Or.inr ?_⟩
        obtain ⟨hlt, hown⟩ := hH.owner a nd c edge hnd1 (mapFind_mem hf)
        have hget : t.edges[edge]? = some t.edges[edge] := List.getElem?_eq_getElem hlt
        obtain ⟨hse, hen, hde⟩ := hH.edge _ _ hget
        unfold WalkInv
        simp only
        refine ⟨by omega, _, hget, by omega, le_refl _, by omega⟩
    | some edge =>
      simp only
      rw [he] at hpos
      simp only at hpos
      obtain ⟨e, hget, hie, hc1, hc2⟩ := hpos
      have hedge : t.edgeAt edge = .ok e := by
        unfold edgeAt
        rw [hget]
      rw [hedge]
      simp only
      obtain ⟨hse, hen, hde⟩ := hH.edge _ _ hget
      have hspan := Span_eq hse
      by_cases hle : s.cur_span_index ≤ e.Span
      · rw [if_pos hle]
        have hidx : (e.start_index + s.cur_span_index) % 2 ^ 64 < t.text_.length := by
          have := Nat.mod_le (e.start_index + s.cur_span_index) (2 ^ 64)
          omega
        obtain ⟨d, hd⟩ := charAt_of_lt hidx
        rw [hd]
        simp only
        by_cases hcd : c = d
        · rw [if_neg (by simpa using hcd)]
          refine ⟨_, rfl, Or.inr ?_⟩
          have hmod : (s.cur_span_index + 1) % 2 ^ 64 = s.cur_span_index + 1 := by
            apply Nat.mod_eq_of_lt
            omega
          unfold WalkInv
          simp only
          rw [hmod]
          exact ⟨by omega, e, hget, by omega, by omega, by omega⟩
        · rw [if_pos hcd]
          exact ⟨_, rfl, Or.inl rfl⟩
      · rw [if_neg hle]
        refine ⟨_, rfl, Or.inr ?_⟩
        unfold WalkInv
        simp only
        refine ⟨hn, ?_⟩
        intro m hm
        obtain ⟨h1, h2⟩ := hH.child _ _ _ hget hm
        exact ⟨h1, by omega⟩

/-- On a tree whose heap satisfies the invariant, the loop of `Contains` for
a pattern longer than the text ends with `is_in_tree = false`, unless it runs
out of fuel. -/
theorem ContainsLoop_walk {t : SuffixTree} {dep edep : Nat → Nat} {text : List Char}
    (hH : HeapInv t dep edep) (hsize : t.text_.length < 2 ^ 64)
    (hlong : t.text_.length < text.length) :
    ∀ (fuel : Nat) (s : ContainsState), (s.is_in_tree = false ∨ WalkInv t dep edep s) →
      ContainsLoop t text fuel s = .error .out_of_fuel ∨
      ∃ s2 k, ContainsLoop t text fuel s = .ok (s2, k) ∧ s2.is_in_tree = false := by
  intro fuel
  induction fuel with
  | zero =>
    intro s hs
    unfold ContainsLoop
    split
    · exact Or.inl rfl
    · rename_i hc
      right
      refine ⟨s, 0, rfl, ?_⟩
      rcases hs with hs | hs
      · exact hs
      · have := hs.1
        by_contra hcon
        apply hc
        simp at hcon
        exact ⟨by omega, hcon⟩
  | succ fuel ih =>
    intro s hs
    unfold ContainsLoop
    split
    · rename_i hc
      rcases hs with hs | hs
      · rw [hs] at hc
        simp at hc
      · obtain ⟨s1, hb, hs1⟩ := ContainsBody_walk hH hsize hs hc.1
        rw [hb]
        simp only
        rcases ih s1 hs1 with h1 | ⟨s2, k, h1, h2⟩
        · rw [h1]
          exact Or.inl rfl
        · rw [h1]
          exact Or.inr ⟨s2, k + 1, rfl, h2⟩
    · rename_i hc
      right
      refine ⟨s, 0, rfl, ?_⟩
      rcases hs with hs | hs
      · exact hs
      · have := hs.1
        by_contra hcon
        apply hc
        simp at hcon
        exact ⟨by omega, hcon⟩

end SuffixTree

/-! ### The claims -/

namespace SuffixTree

/-- C1. Suffix completeness fails on the code: the construction over
`"aabaaabb"` runs to completion, and the query for the suffix `"abb"` that
starts at offset `5` of the text answers `false`. -/
theorem suffix_completeness_fails :
    ("aabaaabb".toList.drop 5 = "abb".toList ∧ 5 < "aabaaabb".toList.length) ∧
    containsAfterBuild "aabaaabb".toList ("aabaaabb".toList.drop 5) = .ok false :=
  ⟨⟨rfl, by decide⟩, by decide!⟩

/-- C2. Non-occurrence fails on the code: the construction over
`"aabaaabcbaaabcc"` runs to completion, `"abac"` is not a contiguous
substring of that text, and the query for `"abac"` answers `true`. -/
theorem non_occurrence_fails :
    ¬ ("abac".toList <:+: "aabaaabcbaaabcc".toList) ∧
    containsAfterBuild "aabaaabcbaaabcc".toList "abac".toList = .ok true :=
  ⟨by decide, by decide!⟩

/-- C3. The construction has a failure mode on well-formed input: over
`"aaab"` the assertion `edge->end_node == NULL` of `SplitEdge` fails, and over
`"aabaabcbaabaabca"` the assertion `edge != NULL` of `Canonize` fails. -/
theorem construction_assertion_fails :
    buildTree "aaab".toList = .error .assert_split_end_node ∧
    buildTree "aabaabcbaabaabca".toList = .error .assert_canonize_edge := by
  decide!

/-- C4. The scenario `T = "abcabxabcd"`: the construction completes, the ten
suffixes of the text and `"abc"`, `"bxab"` are reported contained, `"abcz"` and
`"xyz"` are reported absent. -/
theorem scenario_abcabxabcd :
    (∀ P ∈ ["abcabxabcd", "bcabxabcd", "cabxabcd", "abxabcd", "bxabcd", "xabcd", "abcd",
        "bcd", "cd", "d", "abc", "bxab"],
      containsAfterBuild "abcabxabcd".toList P.toList = .ok true) ∧
    containsAfterBuild "abcabxabcd".toList "abcz".toList = .ok false ∧
    containsAfterBuild "abcabxabcd".toList "xyz".toList = .ok false := by
  decide!

/-- C5. Empty-pattern law: in every state of the tree, whatever text it
indexes and whether or not `AddString` was ever called, `Contains("")`
returns `true`. -/
theorem Contains_empty (t : SuffixTree) : Contains t [] = .ok true :=
  rfl

/-- C6. A pattern longer than the text never matches and never faults: when
`AddString(T)` on a freshly constructed tree has indexed `T` (a `std::string`,
so of length below `2 ^ 64`), `Contains(P)` returns `false` for every `P`
longer than `T`; and in every state of the tree an execution of the loop body
that finds the current node `NULL`, as after the end of a leaf edge, sets
`is_in_tree = false` instead of dereferencing it.  For `T = "aaaa"`,
`Contains("aaa")` is `true` and `Contains("aaaaa")` is `false`; for `T = ""`,
`Contains("a")` is `false`. -/
theorem Contains_longer_pattern :
    (∀ (T P : List Char) (t : SuffixTree), buildTree T = .ok t → T.length < 2 ^ 64 →
      T.length < P.length → Contains t P = .ok false) ∧
    (∀ (t : SuffixTree) (P : List Char) (s : ContainsState), s.i < P.length → s.p = none →
      ContainsBody t P s = .ok { s with is_in_tree := false }) ∧
    containsAfterBuild "aaaa".toList "aaa".toList = .ok true ∧
    containsAfterBuild "aaaa".toList "aaaaa".toList = .ok false ∧
    containsAfterBuild "".toList "a".toList = .ok false := by
  refine ⟨?_, ?_, by decide!, by decide!, by decide!⟩
  swap
  · intro t P s hi hp
    obtain ⟨c, hc⟩ := charAt_of_lt hi
    unfold ContainsBody
    rw [hc, hp]
  intro T P t hb hsize hlong
  obtain ⟨_, h2⟩ := buildTree_inv T
  obtain ⟨htext, dep, edep, sn, a, hI⟩ := h2 t hb
  have hH := hI.heap
  have hinit : WalkInv t dep edep ContainsInit := by
    unfold WalkInv ContainsInit
    simp only
    refine ⟨by omega, ?_⟩
    intro a0 ha0
    simp [root_] at ha0
    subst ha0
    exact ⟨hH.root, hH.dep_root.symm⟩
  have hne : ContainsLoop t P (2 * P.length) ContainsInit ≠ .error .out_of_fuel := by
    apply ContainsLoop_ne_fuel
    simp [containsPotential, ContainsInit]
  rcases ContainsLoop_walk hH (by rw [htext]; exact hsize) (by rw [htext]; exact hlong)
    (2 * P.length) ContainsInit (Or.inr hinit) with h1 | ⟨s2, k, h1, h3⟩
  · exact absurd h1 hne
  · unfold Contains
    rw [h1]
    simp only
    rw [h3]

/-- The law of C6 at `T = "aaaa"`, `P = "aaaaa"`. -/
theorem Contains_longer_pattern_witness :
    buildTree "aaaa".toList = .ok ⟨"aaaa".toList, [⟨[('a', 0)], none⟩], [⟨0, 3, none⟩]⟩ ∧
    Contains ⟨"aaaa".toList, [⟨[('a', 0)], none⟩], [⟨0, 3, none⟩]⟩ "aaaaa".toList = .ok false :=
  ⟨by decide!, Contains_longer_pattern.1 "aaaa".toList "aaaaa".toList _ (by decide!)
    (by decide) (by decide)⟩

/-- C7. Node bound: when `AddString(T)` on a freshly constructed tree has
indexed `T`, the nodes allocated by `SplitEdge`, that is all nodes of the heap
but the root, number at most `2 * |T|`; moreover in every run, completed or
not, at most `k` nodes have been allocated when the first `k` phases are
done. -/
theorem node_bound (T : List Char) :
    (∀ t, buildTree T = .ok t → t.nodes.length - 1 ≤ 2 * T.length) ∧
    (∀ k t sn, k ≤ T.length → buildPhases T k = .ok (t, sn) → t.nodes.length - 1 ≤ k) := by
  have hphase : ∀ k t sn, k ≤ T.length → buildPhases T k = .ok (t, sn) →
      t.nodes.length - 1 ≤ k := by
    intro k t sn hk h
    obtain ⟨_, dep, edep, a, hI⟩ := (buildPhases_inv T k hk).2 t sn h
    have h3 := hI.point.count
    have h4 := hI.first_le
    omega
  refine ⟨?_, hphase⟩
  intro t h
  rw [buildTree_eq] at h
  cases hl : buildPhases T T.length with
  | error f =>
    rw [hl] at h
    simp at h
  | ok r =>
    obtain ⟨t1, sn1⟩ := r
    rw [hl] at h
    simp at h
    subst h
    have := hphase T.length t1 sn1 (le_refl _) hl
    omega

/-- The node bound of C7 at the text `"abcabxabcd"` of the test, whose tree
has five nodes below the root. -/
theorem node_bound_witness :
    buildTree "abcabxabcd".toList = .ok scenarioTree ∧
    scenarioTree.nodes.length - 1 ≤ 2 * "abcabxabcd".toList.length :=
  ⟨by decide!, (node_bound "abcabxabcd".toList).1 scenarioTree (by decide!)⟩

/-- The loops of the construction stop by themselves: for every text `T`,
`AddString(T)` on a freshly constructed tree ends with a tree or with a failed
assertion: no `for (;;)` loop of a phase executes its body more than
`|T| + 2` times, and the `while` loop of a call of `Canonize`, in whatever
state, executes its body at most as often as the active point has symbols;
and the outcome is a function of `T` alone, the same for every larger bound
on the loops. -/
theorem AddString_total (T : List Char) :
    buildTree T ≠ .error .out_of_fuel ∧
    (∀ (t : SuffixTree) (sn : SuffixNode),
      Canonize t (canonizeFuel sn) sn ≠ .error .out_of_fuel ∧
      ∀ fuel, canonizeFuel sn ≤ fuel → Canonize t fuel sn = Canonize t (canonizeFuel sn) sn) ∧
    ∀ fuel, T.length + 2 ≤ fuel → AddStringFuel fuel SuffixTree.new T = buildTree T := by
  have h1 := (buildTree_inv T).1
  refine ⟨h1, fun t sn => ?_, ?_⟩
  · have h2 := Canonize_ne_fuel t _ sn (le_refl _)
    exact ⟨h2, fun fuel hfuel => Canonize_mono t _ fuel sn hfuel h2⟩
  · intro fuel hfuel
    exact AddStringFuel_mono hfuel _ _ h1

/-- The run over the text `"aaab"`, with fuel for a thousand executions of
each loop body, stops on the same failed assertion as the run of
`AddString`. -/
theorem AddString_total_witness :
    "aaab".toList.length + 2 ≤ 1000 ∧
    AddStringFuel 1000 SuffixTree.new "aaab".toList = buildTree "aaab".toList :=
  ⟨by decide, (AddString_total "aaab".toList).2.2 1000 (by decide)⟩

/-- C8. The construction is not total: `AddString("aaab")` on a fresh tree
ends on the failed assertion `edge->end_node == NULL` of `SplitEdge` and leaves
no tree; whatever the bound on the executions of the loop bodies, the run ends
on that assertion or exceeds the bound, and never with a tree. -/
theorem AddString_yields_no_tree :
    buildTree "aaab".toList = .error .assert_split_end_node ∧
    ∀ fuel, AddStringFuel fuel SuffixTree.new "aaab".toList = .error .assert_split_end_node ∨
      AddStringFuel fuel SuffixTree.new "aaab".toList = .error .out_of_fuel := by
  have h6 : AddStringFuel 6 SuffixTree.new "aaab".toList = .error .assert_split_end_node := by
    decide!
  refine ⟨by decide!, fun fuel => ?_⟩
  by_cases h : AddStringFuel fuel SuffixTree.new "aaab".toList = .error .out_of_fuel
  · exact Or.inr h
  · left
    rcases Nat.le_total fuel 6 with hle | hle
    · rw [← AddStringFuel_mono hle _ _ h]
      exact h6
    · rw [AddStringFuel_mono hle _ _ (by rw [h6]; simp)]
      exact h6

/-- C9, as stated, fails: on a freshly constructed tree the query for `"a"`
executes the loop body once, and that execution neither consumes a pattern
symbol nor moves to a child node (it reports absence). -/
theorem Contains_iteration_neither :
    ∃ s1, ContainsBody SuffixTree.new ['a'] ContainsInit = .ok s1 ∧
      ContainsLoop SuffixTree.new ['a'] (2 * ['a'].length) ContainsInit = .ok (s1, 1) ∧
      ¬ Consumes ContainsInit s1 ∧ ¬ MovesToChild SuffixTree.new ContainsInit s1 := by
  refine ⟨{ ContainsInit with is_in_tree := false }, rfl, rfl, ?_, ?_⟩
  · intro h
    have := h.1
    simp [ContainsInit] at this
  · rintro ⟨edge, e, h, _⟩
    simp [ContainsInit] at h

/-- C9, amended. In every state of the tree and for every pattern `P`, the
loop of `Contains` stops by itself within `2 * |P|` executions of its body,
a bound that does not depend on the text; every execution of the body either
consumes one pattern symbol, or moves from an exhausted edge to its child
node without consuming, or reports the pattern absent and thereby ends the
loop; and a move to a child is never followed by another move. -/
theorem Contains_iterations (t : SuffixTree) (P : List Char) :
    ContainsLoop t P (2 * P.length) ContainsInit ≠ .error .out_of_fuel ∧
    (∀ fuel s k, ContainsLoop t P fuel ContainsInit = .ok (s, k) → k ≤ 2 * P.length) ∧
    (∀ s s1, s.i < P.length → s.is_in_tree = true → ContainsBody t P s = .ok s1 →
      Consumes s s1 ∨ MovesToChild t s s1 ∨ ReportsAbsent s s1) ∧
    (∀ s s1 s2, MovesToChild t s s1 → ¬ MovesToChild t s1 s2) := by
  refine ⟨?_, ?_, ?_, ?_⟩
  · apply ContainsLoop_ne_fuel
    simp [containsPotential, ContainsInit]
  · intro fuel s k h
    have := ContainsLoop_count t P fuel ContainsInit s k h
    simpa [containsPotential, ContainsInit] using this
  · intro s s1 _ hin h
    exact ContainsBody_kinds t P s s1 hin h
  · rintro s s1 s2 ⟨_, _, _, _, _, _, h1, _⟩ ⟨edge, e, h2, _⟩
    rw [h1] at h2
    cases h2

/-- The bound of C9 on the tree of `"abcabxabcd"` for the pattern `"abcz"`:
with fuel for a hundred executions the loop executes its body six times, within
the bound of eight, and ends with a report of absence. -/
theorem Contains_iterations_witness :
    ContainsLoop scenarioTree "abcz".toList 100 ContainsInit =
      .ok ({ p := some 3, e := none, is_in_tree := false, cur_span_index := 0, i := 3 }, 6) ∧
    6 ≤ 2 * "abcz".toList.length :=
  ⟨by decide!, (Contains_iterations scenarioTree "abcz".toList).2.1 100
    { p := some 3, e := none, is_in_tree := false, cur_span_index := 0, i := 3 } 6
    (by decide!)⟩

end SuffixTree

namespace KMPPatternMatcher

/-- C10. `IndexInString` does not return the first occurrence: for the
example of the class comment, pattern `"abababc"` in `"ababababc"`, every loop
of the code stops by itself and the code returns `-1`, although the pattern
occurs at index `2`; and for pattern `"abab"` in `"abaabab"` it returns `1`,
where the pattern does not occur (its first occurrence is at index `3`). -/
theorem IndexInString_misses_occurrence :
    indexOf 16 "abababc".toList "ababababc".toList = .ok (-1) ∧
    ("ababababc".toList.drop 2).take 7 = "abababc".toList ∧
    indexOf 16 "abab".toList "abaabab".toList = .ok 1 ∧
    ("abaabab".toList.drop 1).take 4 ≠ "abab".toList ∧
    ("abaabab".toList.drop 3).take 4 = "abab".toList := by
  decide!

end KMPPatternMatcher

/-! ### `kmp_match.cc`: the table -/

namespace KMPPatternMatcher

/-- On the pattern `"aab"` the `while` loop of the constructor at `i = 2` does
not end: `cnd = table_[cnd]` leaves `cnd = 1`. -/
theorem ctorWhile_aab (fuel : Nat) :
    ctorWhile "aab".toList [0, 1, 0] 2 fuel 1 false = .error .out_of_fuel := by
  induction fuel with
  | zero => rfl
  | succ fuel ih =>
    rw [ctorWhile]
    simp only [KmpFault.tableAt, KmpFault.stringAt]
    exact ih

/-- C11. The table of the constructor is not the prefix function: for the
pattern `"ababb"` the constructor stores `[0, 0, 1, 2, 2]`, where the longest
proper prefix of `"ababb"` that is also a suffix is empty, and for the pattern
`"aab"` the constructor does not return, whatever the bound on its inner loop.
The two tables of the claim, for `"abcabad"` and `"ababa"`, are as claimed. -/
theorem PatternTable_not_prefix_function :
    Except.map KMPPatternMatcher.table_ (create 16 "ababb".toList) = .ok [0, 0, 1, 2, 2] ∧
    prefixFunction "ababb".toList 4 = 0 ∧
    (∀ fuel, create fuel "aab".toList = .error .out_of_fuel) ∧
    Except.map KMPPatternMatcher.table_ (create 16 "abcabad".toList) =
      .ok [0, 0, 0, 1, 2, 1, 0] ∧
    Except.map KMPPatternMatcher.table_ (create 16 "ababa".toList) = .ok [0, 0, 1, 2, 3] ∧
    (List.range 7).map (prefixFunction "abcabad".toList) = [0, 0, 0, 1, 2, 1, 0] ∧
    (List.range 5).map (prefixFunction "ababa".toList) = [0, 0, 1, 2, 3] := by
  refine ⟨by decide!, by decide!, ?_, by decide!, by decide!, by decide!, by decide!⟩
  intro fuel
  have h := ctorWhile_aab fuel
  have z : ctorWhile "aab".toList [0, 0, 0] 1 fuel 0 true = .ok (0, true) := by
    cases fuel <;> simp [ctorWhile]
  have e1 : KmpFault.tableSet (List.replicate "aab".toList.length 0) 0 0 = .ok [0, 0, 0] := by
    decide!
  have e2 : KmpFault.tableSet [0, 0, 0] 1 (0 + 1) = .ok [0, 1, 0] := by decide!
  have s0 : KmpFault.stringAt "aab".toList 0 = .ok 'a' := by decide!
  have s1 : KmpFault.stringAt "aab".toList 1 = .ok 'a' := by decide!
  have s1b : KmpFault.stringAt "aab".toList (0 + 1) = .ok 'a' := by decide!
  have s2 : KmpFault.stringAt "aab".toList (1 + 1) = .ok 'b' := by decide!
  have l : "aab".toList.length - 1 = 2 := by decide
  unfold create
  simp only
  rw [e1]
  simp only
  rw [l, ctorFor, s1, s0]
  simp only [decide_True]
  rw [z]
  simp only [if_true]
  rw [e2]
  simp only
  rw [ctorFor, s2, s1b]
  simp only [show decide ('b' = 'a') = false by decide]
  rw [h]

end KMPPatternMatcher

/-! ### `longest_common_substring.cc` -/

theorem commonSuffix_eq (a b : List Char) (i j : Nat) :
    commonSuffix a b i j =
      if sameSymbol a b i j then
        (if 0 < i ∧ 0 < j then commonSuffix a b (i - 1) (j - 1) else 0) + 1
      else 0 := by
  cases i with
  | zero => simp [commonSuffix]
  | succ i =>
    cases j with
    | zero => simp [commonSuffix]
    | succ j => simp [commonSuffix]

theorem commonSuffix_le (a b : List Char) (i j : Nat) : commonSuffix a b i j ≤ i + 1 := by
  induction i generalizing j with
  | zero =>
    rw [commonSuffix_eq]
    split <;> simp
  | succ i ih =>
    rw [commonSuffix_eq]
    split
    · split
      · have := ih (j - 1)
        simp only [Nat.add_sub_cancel]
        omega
      · omega
    · omega

/-- The cell value counts symbols that agree, backwards from `i` and `j`. -/
theorem commonSuffix_same (a b : List Char) (i j k : Nat) (h : k < commonSuffix a b i j) :
    k ≤ i ∧ k ≤ j ∧ sameSymbol a b (i - k) (j - k) = true := by
  induction k generalizing i j with
  | zero =>
    rw [commonSuffix_eq] at h
    split at h
    · simp_all
    · omega
  | succ k ih =>
    rw [commonSuffix_eq] at h
    split at h
    · split at h
      · rename_i h1 h2
        have := ih (i - 1) (j - 1) (by omega)
        have e1 : i - (k + 1) = i - 1 - k := by omega
        have e2 : j - (k + 1) = j - 1 - k := by omega
        rw [e1, e2]
        exact ⟨by omega, by omega, this.2.2⟩
      · omega
    · omega

/-- A run of `len + 1` agreeing symbols from `p` and `q` on makes the cell at
its end at least `len + 1`. -/
theorem commonSuffix_ge (a b : List Char) (len p q : Nat)
    (h : ∀ k, k ≤ len → sameSymbol a b (p + k) (q + k) = true) :
    len + 1 ≤ commonSuffix a b (p + len) (q + len) := by
  induction len with
  | zero =>
    rw [commonSuffix_eq, if_pos (h 0 (le_refl _))]
    omega
  | succ len ih =>
    rw [commonSuffix_eq, if_pos (h (len + 1) (le_refl _)), if_pos (by omega)]
    have := ih (fun k hk => h k (by omega))
    have e1 : p + (len + 1) - 1 = p + len := by omega
    have e2 : q + (len + 1) - 1 = q + len := by omega
    rw [e1, e2]
    omega

theorem bestStep_inv (a b : List Char) (i j : Nat) (r : Nat × Nat) (hj : j < b.length)
    (h : BestInv a b i j r) : BestInv a b i (j + 1) (bestStep (commonSuffix a b i j) i r) := by
  obtain ⟨hb, hf⟩ := h
  unfold bestStep
  by_cases hc : commonSuffix a b i j > r.1
  · rw [if_pos hc]
    refine ⟨?_, Or.inr ⟨j, hj, Or.inr ⟨rfl, by omega⟩, rfl, ?_⟩⟩
    · intro i1 j1 hj1 hp
      simp only
      by_cases he : i1 = i ∧ j1 = j
      · rw [he.1, he.2]
      · have := hb i1 j1 hj1 (by omega)
        omega
    · intro i1 j1 hj1 hi1
      simp only at hi1 ⊢
      have := hb i1 j1 hj1 (Or.inl hi1)
      omega
  · rw [if_neg hc]
    refine ⟨?_, ?_⟩
    · intro i1 j1 hj1 hp
      by_cases he : i1 = i ∧ j1 = j
      · rw [he.1, he.2]
        omega
      · exact hb i1 j1 hj1 (by omega)
    · rcases hf with hf | ⟨j0, h1, h2, h3, h4⟩
      · exact Or.inl hf
      · exact Or.inr ⟨j0, h1, by omega, h3, h4⟩

theorem bestInner_inv (a b : List Char) (i count j : Nat) (r : Nat × Nat)
    (hc : j + count = b.length) (h : BestInv a b i j r) :
    BestInv a b (i + 1) 0 (bestInner a b i count j r) := by
  induction count generalizing j r with
  | zero =>
    unfold bestInner
    obtain ⟨hb, hf⟩ := h
    refine ⟨fun i1 j1 hj1 hp => hb i1 j1 hj1 (by omega), ?_⟩
    rcases hf with hf | ⟨j0, h1, h2, h3, h4⟩
    · exact Or.inl hf
    · exact Or.inr ⟨j0, h1, by omega, h3, h4⟩
  | succ count ih =>
    unfold bestInner
    exact ih (j + 1) _ (by omega) (bestStep_inv a b i j r (by omega) h)

theorem bestOuter_inv (a b : List Char) (count i : Nat) (r : Nat × Nat)
    (h : BestInv a b i 0 r) : BestInv a b (i + count) 0 (bestOuter a b count i r) := by
  induction count generalizing i r with
  | zero => exact h
  | succ count ih =>
    unfold bestOuter
    have := ih (i + 1) _ (bestInner_inv a b i b.length 0 r (by omega) h)
    have e : i + (count + 1) = i + 1 + count := by omega
    rw [e]
    exact this

theorem bestOuter_spec (a b : List Char) :
    BestInv a b a.length 0 (bestOuter a b a.length 0 (0, 0)) := by
  have := bestOuter_inv a b a.length 0 (0, 0) ⟨fun i1 j1 _ hp => by omega, Or.inl rfl⟩
  simpa using this

/-- An occurrence of `w` in `s` has a position. -/
theorem infix_position (w s : List Char) (h : w <:+: s) :
    ∃ p, p + w.length ≤ s.length ∧ ∀ k, k < w.length → s[p + k]? = w[k]? := by
  obtain ⟨u, v, rfl⟩ := h
  refine ⟨u.length, by simp, ?_⟩
  intro k hk
  rw [List.append_assoc, List.getElem?_append_right (by omega)]
  simp only [Nat.add_sub_cancel_left]
  rw [List.getElem?_append_left hk]

theorem sameSymbol_of_eq (a b : List Char) (i j : Nat) (hi : i < a.length)
    (h : a[i]? = b[j]?) : sameSymbol a b i j = true := by
  unfold sameSymbol
  rw [← h, List.getElem?_eq_getElem hi]
  simp

theorem eq_of_sameSymbol (a b : List Char) (i j : Nat) (h : sameSymbol a b i j = true) :
    i < a.length ∧ j < b.length ∧ a[i]? = b[j]? := by
  unfold sameSymbol at h
  cases ha : a[i]? with
  | none => simp [ha] at h
  | some x =>
    cases hb : b[j]? with
    | none => simp [ha, hb] at h
    | some y =>
      simp [ha, hb] at h
      exact ⟨(List.getElem?_eq_some_iff.mp ha).1, (List.getElem?_eq_some_iff.mp hb).1, by rw [h]⟩

/-- A string that occurs in both `a` and `b` is no longer than a cell value. -/
theorem common_le_cell (a b w : List Char) (hw : w ≠ []) (ha : w <:+: a) (hb : w <:+: b) :
    ∃ p q, p + w.length ≤ a.length ∧ q + w.length ≤ b.length ∧
      (∀ k, k < w.length → a[p + k]? = w[k]?) ∧
      w.length ≤ commonSuffix a b (p + (w.length - 1)) (q + (w.length - 1)) := by
  obtain ⟨p, hp, hpa⟩ := infix_position w a ha
  obtain ⟨q, hq, hqb⟩ := infix_position w b hb
  have hlen : 0 < w.length := List.length_pos.mpr hw
  refine ⟨p, q, hp, hq, hpa, ?_⟩
  have := commonSuffix_ge a b (w.length - 1) p q (by
    intro k hk
    apply sameSymbol_of_eq _ _ _ _ (by omega)
    rw [hpa k (by omega), hqb k (by omega)])
  omega

/-- The end of both functions, on a pair `r` that `BestInv` relates to all
cells: the value returned is the largest length of a common substring, and the
string written is the first substring of `a` of that length that occurs in
`b`. -/
theorem lcsResult_spec (a b : List Char) (r : Nat × Nat) (h : BestInv a b a.length 0 r)
    (hsize : a.length * b.length < 2 ^ 64) :
    ∃ lcs, lcsResult a r.1 r.2 = .ok (r.1, lcs) ∧ lcs.length = r.1 ∧
      lcs <:+: a ∧ lcs <:+: b ∧
      (∀ w, w <:+: a → w <:+: b → w.length ≤ r.1) ∧
      (0 < r.1 → ∃ p, lcs = (a.drop p).take r.1 ∧ p + r.1 ≤ a.length ∧
        ∀ q, q + r.1 ≤ a.length → (a.drop q).take r.1 <:+: b → p ≤ q) := by
  obtain ⟨len, idx⟩ := r
  obtain ⟨hb, hf⟩ := h
  simp only at hb hf ⊢
  have hmax : ∀ w, w <:+: a → w <:+: b → w.length ≤ len := by
    intro w ha hwb
    by_cases hw : w = []
    · simp [hw]
    · obtain ⟨p, q, hp, hq, _, hc⟩ := common_le_cell a b w hw ha hwb
      have hlen : 0 < w.length := List.length_pos.mpr hw
      have := hb (p + (w.length - 1)) (q + (w.length - 1)) (by omega) (Or.inl (by omega))
      omega
  by_cases hz : len = 0
  · subst hz
    refine ⟨[], by simp [lcsResult], rfl, List.nil_infix, List.nil_infix, hmax, ?_⟩
    intro h0
    omega
  · rcases hf with hf | ⟨j0, hj0, _, hc, hrows⟩
    · exact absurd hf hz
    · have hle := commonSuffix_le a b idx j0
      have hs0 := commonSuffix_same a b idx j0 0 (by omega)
      have hidx := (eq_of_sameSymbol a b _ _ hs0.2.2).1
      have hsl := commonSuffix_same a b idx j0 (len - 1) (by omega)
      simp only [Nat.sub_zero] at hidx
      have hn : 1 ≤ b.length := by omega
      have hm : a.length ≤ a.length * b.length := Nat.le_mul_of_pos_right _ hn
      have hpos : ((idx + 2 ^ 64 - len) % 2 ^ 64 + 1) % 2 ^ 64 = idx + 1 - len := by omega
      have hlcsb : (a.drop (idx + 1 - len)).take len = (b.drop (j0 + 1 - len)).take len := by
        apply List.ext_getElem?
        intro k
        rw [List.getElem?_take, List.getElem?_take]
        split
        · rename_i hk
          rw [List.getElem?_drop, List.getElem?_drop]
          have h1 := commonSuffix_same a b idx j0 (len - 1 - k) (by omega)
          have h2 := (eq_of_sameSymbol a b _ _ h1.2.2).2.2
          have e1 : idx + 1 - len + k = idx - (len - 1 - k) := by omega
          have e2 : j0 + 1 - len + k = j0 - (len - 1 - k) := by omega
          rw [e1, e2]
          exact h2
        · rfl
      refine ⟨(a.drop (idx + 1 - len)).take len, ?_, ?_, ?_, ?_, hmax, ?_⟩
      · unfold lcsResult LcsFault.substr
        rw [if_neg hz, hpos, if_pos (by omega)]
      · rw [List.length_take, List.length_drop]
        omega
      · exact (List.take_prefix _ _).isInfix.trans (List.drop_suffix _ _).isInfix
      · rw [hlcsb]
        exact (List.take_prefix _ _).isInfix.trans (List.drop_suffix _ _).isInfix
      · intro _
        refine ⟨idx + 1 - len, rfl, by omega, ?_⟩
        intro q hq hin
        have hwl : ((a.drop q).take len).length = len := by
          rw [List.length_take, List.length_drop]
          omega
        have hw : (a.drop q).take len ≠ [] := by
          intro e
          rw [e] at hwl
          simp at hwl
          omega
        obtain ⟨q1, hq1, hqb⟩ := infix_position _ b hin
        rw [hwl] at hq1 hqb
        have hge := commonSuffix_ge a b (len - 1) q q1 (by
          intro k hk
          apply sameSymbol_of_eq _ _ _ _ (by omega)
          rw [hqb k (by omega), List.getElem?_take, if_pos (by omega), List.getElem?_drop])
        by_contra hlt
        have := hrows (q + (len - 1)) (q1 + (len - 1)) (by omega) (by omega)
        omega

theorem cell_index_lt (m n i j : Nat) (hi : i < m) (hj : j < n) : i * n + j < m * n := by
  have h1 : (i + 1) * n ≤ m * n := Nat.mul_le_mul_right n hi
  rw [Nat.add_mul] at h1
  omega

theorem cell_index_lt_of_lt (n i1 j1 i j : Nat) (h : i1 < i) (hj1 : j1 < n) :
    i1 * n + j1 < i * n + j := by
  have h1 : (i1 + 1) * n ≤ i * n := Nat.mul_le_mul_right n h
  rw [Nat.add_mul] at h1
  omega

theorem cell_index_inj (n i1 j1 i j : Nat) (hj1 : j1 < n) (hj : j < n)
    (h : i1 * n + j1 = i * n + j) : i1 = i ∧ j1 = j := by
  rcases Nat.lt_trichotomy i1 i with hlt | heq | hgt
  · have := cell_index_lt_of_lt n i1 j1 i j hlt hj1
    omega
  · subst heq
    exact ⟨rfl, by omega⟩
  · have := cell_index_lt_of_lt n i j i1 j1 hgt hj
    omega

theorem stringAt_of_lt (s : List Char) (k : Nat) (h : k < s.length) :
    LcsFault.stringAt s k = .ok (s.get ⟨k, h⟩) := by
  unfold LcsFault.stringAt
  rw [List.getElem?_eq_getElem h]
  rfl

theorem sameSymbol_eq_decide (a b : List Char) (i j : Nat) (hi : i < a.length)
    (hj : j < b.length) : sameSymbol a b i j = decide (a.get ⟨i, hi⟩ = b.get ⟨j, hj⟩) := by
  unfold sameSymbol
  rw [List.getElem?_eq_getElem hi, List.getElem?_eq_getElem hj]
  rfl

/-- One execution of the body of `LongestCommonSubstring` stores the value of
its cell and keeps the pair `lcs_len`, `lcs_str1_index` as `bestStep` does. -/
theorem lcsBody_sim (a b : List Char) (i j : Nat) (s : LcsState) (hi : i < a.length)
    (hj : j < b.length) (hsize : a.length * b.length < 2 ^ 64)
    (h : CellsInv a b i j s.matches_) :
    ∃ s1, lcsBody a b i j s = .ok s1 ∧ CellsInv a b i (j + 1) s1.matches_ ∧
      (s1.lcs_len, s1.lcs_str1_index) =
        bestStep (commonSuffix a b i j) i (s.lcs_len, s.lcs_str1_index) := by
  obtain ⟨hlen, hcell⟩ := h
  have hk := cell_index_lt a.length b.length i j hi hj
  have hprev : (if i > 0 ∧ j > 0 then
      LcsFault.vectorAt s.matches_ (((i - 1) * b.length + (j - 1)) % 2 ^ 64) else .ok 0) =
      .ok (if 0 < i ∧ 0 < j then commonSuffix a b (i - 1) (j - 1) else 0) := by
    by_cases hc : i > 0 ∧ j > 0
    · rw [if_pos hc, if_pos hc]
      have h1 := cell_index_lt a.length b.length (i - 1) (j - 1) (by omega) (by omega)
      rw [Nat.mod_eq_of_lt (by omega)]
      unfold LcsFault.vectorAt
      rw [hcell (i - 1) (j - 1) (by omega) (Or.inl (by omega))]
    · rw [if_neg hc, if_neg hc]
  have hcs := commonSuffix_eq a b i j
  have hle := commonSuffix_le a b i j
  have hm : a.length ≤ a.length * b.length := Nat.le_mul_of_pos_right _ (by omega)
  have hnew : ∀ (v : Nat), v = commonSuffix a b i j →
      CellsInv a b i (j + 1) (s.matches_.set (i * b.length + j) v) := by
    intro v hv
    refine ⟨by rw [List.length_set, hlen], ?_⟩
    intro i1 j1 hj1 hp
    rw [List.getElem?_set]
    by_cases he : i * b.length + j = i1 * b.length + j1
    · obtain ⟨e1, e2⟩ := cell_index_inj b.length i1 j1 i j hj1 hj he.symm
      subst e1 e2
      rw [if_pos rfl, if_pos (by omega), hv]
    · rw [if_neg he]
      apply hcell i1 j1 hj1
      rcases hp with hp | ⟨hp1, hp2⟩
      · exact Or.inl hp
      · subst hp1
        refine Or.inr ⟨rfl, ?_⟩
        by_contra hge
        have : j1 = j := by omega
        subst this
        exact he rfl
  unfold lcsBody
  rw [hprev]
  simp only
  rw [stringAt_of_lt a i hi, stringAt_of_lt b j hj]
  simp only
  rw [sameSymbol_eq_decide a b i j hi hj] at hcs
  rw [Nat.mod_eq_of_lt (show i * b.length + j < 2 ^ 64 by omega)]
  unfold LcsFault.vectorSet
  by_cases hab : a.get ⟨i, hi⟩ = b.get ⟨j, hj⟩
  · simp only [hab, decide_True, if_true] at hcs
    rw [if_pos hab, if_pos (by omega), Nat.mod_eq_of_lt (by omega)]
    simp only
    rw [← hcs]
    unfold bestStep
    by_cases hgt : commonSuffix a b i j > s.lcs_len
    · rw [if_pos hgt, if_pos hgt]
      exact ⟨_, rfl, hnew _ rfl, rfl⟩
    · rw [if_neg hgt, if_neg hgt]
      exact ⟨_, rfl, hnew _ rfl, rfl⟩
  · simp only [hab, decide_False, Bool.false_eq_true, if_false] at hcs
    rw [if_neg hab, if_pos (by omega)]
    simp only
    refine ⟨_, rfl, hnew _ hcs.symm, ?_⟩
    unfold bestStep
    rw [hcs, if_neg (by omega)]

theorem lcsInner_sim (a b : List Char) (i count j : Nat) (s : LcsState) (hi : i < a.length)
    (hc : j + count = b.length) (hsize : a.length * b.length < 2 ^ 64)
    (h : CellsInv a b i j s.matches_) :
    ∃ s1, lcsInner a b i count j s = .ok s1 ∧ CellsInv a b (i + 1) 0 s1.matches_ ∧
      (s1.lcs_len, s1.lcs_str1_index) =
        bestInner a b i count j (s.lcs_len, s.lcs_str1_index) := by
  induction count generalizing j s with
  | zero =>
    refine ⟨s, rfl, ⟨h.size, fun i1 j1 hj1 hp => h.cell i1 j1 hj1 (by omega)⟩, rfl⟩
  | succ count ih =>
    obtain ⟨s1, h1, h2, h3⟩ := lcsBody_sim a b i j s hi (by omega) hsize h
    obtain ⟨s2, h4, h5, h6⟩ := ih (j + 1) s1 (by omega) h2
    refine ⟨s2, ?_, h5, ?_⟩
    · unfold lcsInner
      rw [h1]
      exact h4
    · unfold bestInner
      rw [h6, h3]

theorem lcsOuter_sim (a b : List Char) (count i : Nat) (s : LcsState)
    (hc : i + count = a.length) (hsize : a.length * b.length < 2 ^ 64)
    (h : CellsInv a b i 0 s.matches_) :
    ∃ s1, lcsOuter a b count i s = .ok s1 ∧
      (s1.lcs_len, s1.lcs_str1_index) = bestOuter a b count i (s.lcs_len, s.lcs_str1_index) := by
  induction count generalizing i s with
  | zero => exact ⟨s, rfl, rfl⟩
  | succ count ih =>
    obtain ⟨s1, h1, h2, h3⟩ := lcsInner_sim a b i b.length 0 s (by omega) (by omega) hsize h
    obtain ⟨s2, h4, h5⟩ := ih (i + 1) s1 (by omega) h2
    refine ⟨s2, ?_, ?_⟩
    · unfold lcsOuter
      rw [h1]
      exact h4
    · unfold bestOuter
      rw [h5, h3]

/-- `LongestCommonSubstring` ends on the pair that `bestOuter` computes from
the cell values. -/
theorem LongestCommonSubstring_eq (a b : List Char) (hsize : a.length * b.length < 2 ^ 64) :
    LongestCommonSubstring a b =
      lcsResult a (bestOuter a b a.length 0 (0, 0)).1 (bestOuter a b a.length 0 (0, 0)).2 := by
  obtain ⟨s1, h1, h2⟩ := lcsOuter_sim a b a.length 0
    { matches_ := List.replicate ((a.length * b.length) % 2 ^ 64) 0, lcs_len := 0,
      lcs_str1_index := 0 } (by omega) hsize
    ⟨by rw [List.length_replicate, Nat.mod_eq_of_lt hsize], fun i1 j1 _ hp => by omega⟩
  unfold LongestCommonSubstring
  simp only
  rw [h1]
  simp only at h2
  rw [← h2]

/-- What `LongestCommonSubstring` returns and writes, in full. -/
theorem LongestCommonSubstring_char (a b : List Char) (hsize : a.length * b.length < 2 ^ 64) :
    ∃ L lcs, LongestCommonSubstring a b = .ok (L, lcs) ∧ lcs.length = L ∧
      lcs <:+: a ∧ lcs <:+: b ∧
      (∀ w, w <:+: a → w <:+: b → w.length ≤ L) ∧
      (0 < L → ∃ p, lcs = (a.drop p).take L ∧ p + L ≤ a.length ∧
        ∀ q, q + L ≤ a.length → (a.drop q).take L <:+: b → p ≤ q) := by
  obtain ⟨lcs, h⟩ := lcsResult_spec a b _ (bestOuter_spec a b) hsize
  rw [← LongestCommonSubstring_eq a b hsize] at h
  exact ⟨_, lcs, h⟩

/-- Where `LongestCommonSubstring` is right: for all strings `str1` and
`str2` whose `matches` vector has its `str1.length() * str2.length()` cells,
the product being below `2 ^ 64`, `LongestCommonSubstring(str1, str2, lcs)`
returns the maximum length `L` of a string that occurs as a contiguous
substring of both, zero when either string is empty, and the string written
to `*lcs` has length `L` and is a contiguous substring of both. -/
theorem LongestCommonSubstring_spec (str1 str2 : List Char)
    (hsize : str1.length * str2.length < 2 ^ 64) :
    ∃ L lcs, LongestCommonSubstring str1 str2 = .ok (L, lcs) ∧ lcs.length = L ∧
      lcs <:+: str1 ∧ lcs <:+: str2 ∧
      (∀ w, w <:+: str1 → w <:+: str2 → w.length ≤ L) ∧
      ((str1 = [] ∨ str2 = []) → L = 0) := by
  obtain ⟨L, lcs, h1, h2, h3, h4, h5, _⟩ := LongestCommonSubstring_char str1 str2 hsize
  refine ⟨L, lcs, h1, h2, h3, h4, h5, ?_⟩
  rintro (he | he)
  · subst he
    rw [← h2, List.eq_nil_of_infix_nil h3]
    rfl
  · subst he
    rw [← h2, List.eq_nil_of_infix_nil h4]
    rfl

/-- The strings `"xyzabc"` and `"eabc"` of the test, whose longest common
substring is `"abc"`. -/
theorem LongestCommonSubstring_spec_witness :
    LongestCommonSubstring "xyzabc".toList "eabc".toList = .ok (3, "abc".toList) ∧
    ∃ L lcs, LongestCommonSubstring "xyzabc".toList "eabc".toList = .ok (L, lcs) ∧
      lcs.length = L ∧ lcs <:+: "xyzabc".toList ∧ lcs <:+: "eabc".toList ∧
      (∀ w, w <:+: "xyzabc".toList → w <:+: "eabc".toList → w.length ≤ L) ∧
      (("xyzabc".toList = [] ∨ "eabc".toList = []) → L = 0) :=
  ⟨by decide!, LongestCommonSubstring_spec "xyzabc".toList "eabc".toList (by decide)⟩

/-- Tie-breaking where `LongestCommonSubstring` is right: for all strings
`str1` and `str2` whose `matches` vector has its cells, with `L` the maximal length of a common substring, which
is the value returned: when `L > 0`, the string written to `*lcs` is
`str1.substr(p, L)` for the smallest start position `p` in `str1` of a
substring of length `L` of `str1` that also occurs in `str2`. -/
theorem LongestCommonSubstring_first (str1 str2 : List Char)
    (hsize : str1.length * str2.length < 2 ^ 64) :
    ∃ L lcs, LongestCommonSubstring str1 str2 = .ok (L, lcs) ∧
      (∀ w, w <:+: str1 → w <:+: str2 → w.length ≤ L) ∧
      (0 < L → ∃ p, lcs = (str1.drop p).take L ∧ p + L ≤ str1.length ∧
        (str1.drop p).take L <:+: str2 ∧
        ∀ q, q + L ≤ str1.length → (str1.drop q).take L <:+: str2 → p ≤ q) := by
  obtain ⟨L, lcs, h1, _, _, h4, h5, h6⟩ := LongestCommonSubstring_char str1 str2 hsize
  refine ⟨L, lcs, h1, h5, fun hL => ?_⟩
  obtain ⟨p, hp1, hp2, hp3⟩ := h6 hL
  exact ⟨p, hp1, hp2, hp1 ▸ h4, hp3⟩

/-- The strings `"abcdefg"` and `"abxdegg"` of the test,
whose common substrings of the maximal length two are `"ab"` and `"de"`: the
one written is `"ab"`. -/
theorem LongestCommonSubstring_first_witness :
    LongestCommonSubstring "abcdefg".toList "abxdegg".toList = .ok (2, "ab".toList) ∧
    "de".toList <:+: "abcdefg".toList ∧ "de".toList <:+: "abxdegg".toList ∧
    ∃ L lcs, LongestCommonSubstring "abcdefg".toList "abxdegg".toList = .ok (L, lcs) ∧
      (∀ w, w <:+: "abcdefg".toList → w <:+: "abxdegg".toList → w.length ≤ L) ∧
      (0 < L → ∃ p, lcs = ("abcdefg".toList.drop p).take L ∧ p + L ≤ "abcdefg".toList.length ∧
        ("abcdefg".toList.drop p).take L <:+: "abxdegg".toList ∧
        ∀ q, q + L ≤ "abcdefg".toList.length →
          ("abcdefg".toList.drop q).take L <:+: "abxdegg".toList → p ≤ q) :=
  ⟨by decide!, ⟨"abc".toList, "fg".toList, by decide⟩, ⟨"abx".toList, "gg".toList, by decide⟩,
    LongestCommonSubstring_first "abcdefg".toList "abxdegg".toList (by decide)⟩

/-- When the product `str1.length() * str2.length()` wraps around to zero, the
vector `matches` has no cell and the first execution of the inner loop body
accesses `matches[0]` out of range. -/
theorem LongestCommonSubstring_overflow (a b : List Char) (ha : 0 < a.length)
    (hb : 0 < b.length) (hz : (a.length * b.length) % 2 ^ 64 = 0) :
    LongestCommonSubstring a b = .error .out_of_range := by
  obtain ⟨x, a1, rfl⟩ := List.exists_cons_of_length_pos ha
  obtain ⟨y, b1, rfl⟩ := List.exists_cons_of_length_pos hb
  unfold LongestCommonSubstring
  simp only
  rw [hz]
  simp only [List.length_cons, List.replicate_zero]
  rw [lcsOuter]
  simp only [List.length_cons]
  rw [lcsInner]
  have hbody : ∀ s : LcsState, s.matches_ = [] →
      lcsBody (x :: a1) (y :: b1) 0 0 s = .error .out_of_range := by
    intro s hs
    unfold lcsBody
    simp only [gt_iff_lt, Nat.lt_irrefl, false_and, if_false, LcsFault.stringAt,
      List.getElem?_cons_zero, LcsFault.vectorSet, hs, List.length_nil, Nat.not_lt_zero]
    split <;> rfl
  rw [hbody _ rfl]

theorem singleton_infix_replicate (c : Char) (n : Nat) (h : 0 < n) :
    [c] <:+: List.replicate n c := by
  obtain ⟨k, rfl⟩ := Nat.exists_eq_succ_of_ne_zero (by omega : n ≠ 0)
  exact ⟨[], List.replicate k c, by simp [List.replicate_succ]⟩

/-- C12. `LongestCommonSubstring` does not return the length of the longest
common substring for all strings: for `str1 = str2` the string of `2 ^ 32`
symbols `'a'`, the product `str1.length() * str2.length()` is `2 ^ 64`, which
is `0` in `size_t`, so the vector `matches` has no cell and the first
execution of the loop body accesses `matches[0]` out of range; the function
returns no length and writes no string, where the strings have a common
substring. -/
theorem LongestCommonSubstring_wraps :
    (List.replicate (2 ^ 32) 'a').length = 2 ^ 32 ∧
    (2 ^ 32 * 2 ^ 32) % 2 ^ 64 = 0 ∧
    LongestCommonSubstring (List.replicate (2 ^ 32) 'a') (List.replicate (2 ^ 32) 'a') =
      .error .out_of_range ∧
    ['a'] <:+: List.replicate (2 ^ 32) 'a' :=
  ⟨List.length_replicate _ _, by norm_num,
    LongestCommonSubstring_overflow _ _ (by rw [List.length_replicate]; norm_num)
      (by rw [List.length_replicate]; norm_num)
      (by rw [List.length_replicate]; norm_num),
    singleton_infix_replicate 'a' _ (by norm_num)⟩

/-- C13. `LongestCommonSubstring` does not write the first longest common
substring for all strings that have one: for `str1` the string of `2 ^ 33`
symbols `'a'` and `str2` the string of `2 ^ 31` symbols `'a'`, which have the
common substring `"a"`, the product `str1.length() * str2.length()` is `0` in
`size_t`, the first execution of the loop body accesses `matches[0]` out of
range, and nothing is written to `*lcs`. -/
theorem LongestCommonSubstring_first_wraps :
    (List.replicate (2 ^ 33) 'a').length = 2 ^ 33 ∧
    (List.replicate (2 ^ 31) 'a').length = 2 ^ 31 ∧
    (2 ^ 33 * 2 ^ 31) % 2 ^ 64 = 0 ∧
    ['a'] <:+: List.replicate (2 ^ 33) 'a' ∧ ['a'] <:+: List.replicate (2 ^ 31) 'a' ∧
    LongestCommonSubstring (List.replicate (2 ^ 33) 'a') (List.replicate (2 ^ 31) 'a') =
      .error .out_of_range :=
  ⟨List.length_replicate _ _, List.length_replicate _ _, by norm_num,
    singleton_infix_replicate 'a' _ (by norm_num), singleton_infix_replicate 'a' _ (by norm_num),
    LongestCommonSubstring_overflow _ _ (by rw [List.length_replicate]; norm_num)
      (by rw [List.length_replicate]; norm_num)
      (by rw [List.length_replicate, List.length_replicate]; norm_num)⟩

theorem FibonacciLoop_eq (i n : Nat) :
    FibonacciLoop (i + 1) (fibonacciNumber (n + 1) % 2 ^ 64) (fibonacciNumber n % 2 ^ 64) =
      fibonacciNumber (n + 1 + i) % 2 ^ 64 := by
  induction i generalizing n with
  | zero => simp [FibonacciLoop]
  | succ i ih =>
    rw [FibonacciLoop, ← Nat.add_mod]
    have h := ih (n + 1)
    have e : fibonacciNumber (n + 1) + fibonacciNumber n = fibonacciNumber (n + 1 + 1) := by
      rw [fibonacciNumber]
    rw [e, h]
    congr 2
    omega

theorem Fibonacci2Loop_eq (i a b : Nat) : Fibonacci2Loop i a b = FibonacciLoop i a b := by
  induction i using Nat.strong_induction_on generalizing a b with
  | _ i ih =>
    match i with
    | 0 => simp [Fibonacci2Loop, FibonacciLoop]
    | 1 => simp [Fibonacci2Loop, FibonacciLoop]
    | i + 2 =>
      rw [Fibonacci2Loop, FibonacciLoop, ih (i + 1) (by omega), Nat.add_comm b a]

theorem Fibonacci3Loop_eq (i a b : Nat) (ha : a < 2 ^ 64) (hb : b < 2 ^ 64) :
    Fibonacci3Loop i a b = FibonacciLoop i a b := by
  induction i using Nat.strong_induction_on generalizing a b with
  | _ i ih =>
    match i with
    | 0 => simp [Fibonacci3Loop, FibonacciLoop]
    | 1 => simp [Fibonacci3Loop, FibonacciLoop]
    | i + 2 =>
      rw [Fibonacci3Loop, FibonacciLoop]
      have e : ((a + b) % 2 ^ 64 + 2 ^ 64 - b) % 2 ^ 64 = a := by omega
      rw [e]
      exact ih (i + 1) (by omega) _ _ (Nat.mod_lt _ (by norm_num)) ha

/-- C15. For every `i`, in particular for every 32-bit unsigned one,
`Fibonacci(i)` is the `i`-th number of the sequence `F(0) = 1`, `F(1) = 1`,
`F(n) = F(n-1) + F(n-2)` reduced modulo `2 ^ 64`; and `F(2) = 2`, `F(5) = 8`,
`F(10) = 89`, which `Fibonacci` returns at `2`, `5` and `10`. -/
theorem Fibonacci_spec :
    (∀ i : Nat, Fibonacci i = fibonacciNumber i % 2 ^ 64) ∧
    fibonacciNumber 2 = 2 ∧ fibonacciNumber 5 = 8 ∧ fibonacciNumber 10 = 89 ∧
    Fibonacci 2 = 2 ∧ Fibonacci 5 = 8 ∧ Fibonacci 10 = 89 := by
  refine ⟨?_, by decide, by decide, by decide, by decide, by decide, by decide⟩
  intro i
  cases i with
  | zero => simp [Fibonacci, FibonacciLoop, fibonacciNumber]
  | succ i =>
    have h := FibonacciLoop_eq i 0
    simp only [fibonacciNumber, Nat.zero_add] at h
    unfold Fibonacci
    rw [show (1 : Nat) % 2 ^ 64 = 1 by norm_num] at h
    rw [h]
    congr 2
    omega

/-- C16. The three implementations agree at every `i`, in particular at
every 32-bit unsigned one: `Fibonacci2(i) = Fibonacci(i)` and
`Fibonacci3(i) = Fibonacci(i)`, all additions and the subtraction of
`Fibonacci3` being those of `size_t`, modulo `2 ^ 64`; at `i = 93` the
addition has wrapped around, the value returned being below the one at `92`,
and the three still agree. -/
theorem Fibonacci_agree :
    (∀ i : Nat, Fibonacci2 i = Fibonacci i ∧ Fibonacci3 i = Fibonacci i) ∧
    Fibonacci 93 < Fibonacci 92 ∧
    Fibonacci2 93 = Fibonacci 93 ∧ Fibonacci3 93 = Fibonacci 93 :=
  ⟨fun i => ⟨Fibonacci2Loop_eq i 1 1, Fibonacci3Loop_eq i 1 1 (by norm_num) (by norm_num)⟩,
    by decide!, by decide!, by decide!⟩

/-! ### `str_are_anagrams.cc` -/

theorem histogramFind_set (h : List (Char8 × Nat)) (c d : Char8) (v : Nat) :
    histogramFind (histogramSet h c v) d = if d = c then some v else histogramFind h d := by
  induction h with
  | nil =>
    simp only [histogramSet, histogramFind]
    by_cases hd : d = c
    · simp [hd]
    · have : c ≠ d := fun e => hd e.symm
      simp [hd, this]
  | cons kv h ih =>
    obtain ⟨k, w⟩ := kv
    simp only [histogramSet]
    by_cases hk : k = c
    · subst hk
      simp only [if_true, histogramFind]
      by_cases hd : d = k
      · subst hd
        simp
      · have : k ≠ d := fun e => hd e.symm
        simp [hd, this]
    · simp only [hk, if_false, histogramFind, ih]
      by_cases hd : d = c
      · subst hd
        simp [hk]
      · simp [hd]

theorem histogramFind_erase (h : List (Char8 × Nat)) (c d : Char8) :
    histogramFind (histogramErase h c) d = if d = c then none else histogramFind h d := by
  induction h with
  | nil => simp [histogramErase, histogramFind]
  | cons kv h ih =>
    obtain ⟨k, w⟩ := kv
    unfold histogramErase at ih ⊢
    by_cases hk : k = c
    · subst hk
      simp only [List.filter, ne_eq, not_true_eq_false, decide_False, ih, histogramFind]
      by_cases hd : d = k
      · simp [hd]
      · have : k ≠ d := fun e => hd e.symm
        simp [hd, this]
    · simp only [List.filter, ne_eq, hk, not_false_eq_true, decide_True, histogramFind, ih]
      by_cases hd : d = c
      · subst hd
        simp [hk]
      · simp [hd]

theorem histogram_isEmpty (h : List (Char8 × Nat)) :
    h.isEmpty = true ↔ ∀ c, histogramFind h c = none := by
  cases h with
  | nil => simp [histogramFind]
  | cons kv h =>
    obtain ⟨k, w⟩ := kv
    simp only [List.isEmpty_cons, Bool.false_eq_true, false_iff, not_forall]
    exact ⟨k, by simp [histogramFind]⟩

/-- The first loop leaves every stored count positive and adds to the count
of each `char` its number of occurrences, none of the increments wrapping
around. -/
theorem anagramsCount_spec (s : List Char8) (h : List (Char8 × Nat))
    (hpos : ∀ c v, histogramFind h c = some v → 0 < v ∧ v + s.length < 2 ^ 64)
    (hlen : s.length < 2 ^ 64) :
    (∀ c v, histogramFind (anagramsCount s h) c = some v → 0 < v ∧ v < 2 ^ 64) ∧
    ∀ c, histogramCount (anagramsCount s h) c = histogramCount h c + s.count c := by
  induction s generalizing h with
  | nil =>
    refine ⟨fun c v hc => ?_, by simp [anagramsCount]⟩
    have := hpos c v hc
    simpa using this
  | cons d s ih =>
    simp only [List.length_cons] at hpos hlen
    unfold anagramsCount
    cases hf : histogramFind h d with
    | none =>
      simp only
      have h1 := ih (histogramSet h d 1) (by
        intro c v hc
        rw [histogramFind_set] at hc
        by_cases hd : c = d
        · simp [hd] at hc
          omega
        · simp only [hd, if_false] at hc
          have := hpos c v hc
          omega) (by omega)
      refine ⟨h1.1, fun c => ?_⟩
      rw [h1.2 c]
      unfold histogramCount
      rw [histogramFind_set, List.count_cons]
      by_cases hd : c = d
      · subst hd
        simp [hf]
        omega
      · have : ¬ d = c := fun e => hd e.symm
        simp [hd, this]
    | some v =>
      simp only
      have hv := hpos d v hf
      have e : (v + 1) % 2 ^ 64 = v + 1 := Nat.mod_eq_of_lt (by omega)
      rw [e]
      have h1 := ih (histogramSet h d (v + 1)) (by
        intro c w hc
        rw [histogramFind_set] at hc
        by_cases hd : c = d
        · simp [hd] at hc
          omega
        · simp only [hd, if_false] at hc
          have := hpos c w hc
          omega) (by omega)
      refine ⟨h1.1, fun c => ?_⟩
      rw [h1.2 c]
      unfold histogramCount
      rw [histogramFind_set, List.count_cons]
      by_cases hd : c = d
      · subst hd
        simp [hf]
        omega
      · have : ¬ d = c := fun e => hd e.symm
        simp [hd, this]

/-- The second loop and the final test answer whether the counts stored are
the numbers of occurrences in the string walked. -/
theorem anagramsMatch_spec (s : List Char8) (h : List (Char8 × Nat))
    (hpos : ∀ c v, histogramFind h c = some v → 0 < v ∧ v < 2 ^ 64) :
    anagramsMatch s h = true ↔ ∀ c, histogramCount h c = s.count c := by
  induction s generalizing h with
  | nil =>
    simp only [anagramsMatch, histogram_isEmpty, List.count_nil, histogramCount]
    constructor
    · intro hn c
      rw [hn c]
      rfl
    · intro hz c
      cases hc : histogramFind h c with
      | none => rfl
      | some v =>
        have := hz c
        rw [hc] at this
        have := hpos c v hc
        simp_all
  | cons d s ih =>
    unfold anagramsMatch
    cases hf : histogramFind h d with
    | none =>
      simp only [Bool.false_eq_true, false_iff, not_forall]
      refine ⟨d, ?_⟩
      unfold histogramCount
      rw [hf]
      simp
    | some v =>
      simp only
      have hv := hpos d v hf
      have e : (v + 2 ^ 64 - 1) % 2 ^ 64 = v - 1 := by omega
      rw [e]
      by_cases hv1 : v - 1 = 0
      · rw [if_pos hv1, ih]
        · refine forall_congr' (fun c => ?_)
          unfold histogramCount
          rw [histogramFind_erase, List.count_cons]
          by_cases hd : c = d
          · subst hd
            simp [hf]
            omega
          · have : ¬ d = c := fun e => hd e.symm
            simp [hd, this]
        · intro c w hc
          rw [histogramFind_erase] at hc
          by_cases hd : c = d
          · simp [hd] at hc
          · simp only [hd, if_false] at hc
            exact hpos c w hc
      · rw [if_neg hv1, ih]
        · refine forall_congr' (fun c => ?_)
          unfold histogramCount
          rw [histogramFind_set, List.count_cons]
          by_cases hd : c = d
          · subst hd
            simp [hf]
            omega
          · have : ¬ d = c := fun e => hd e.symm
            simp [hd, this]
        · intro c w hc
          rw [histogramFind_set] at hc
          by_cases hd : c = d
          · simp [hd] at hc
            omega
          · simp only [hd, if_false] at hc
            exact hpos c w hc

/-- `StrAreAnagrams` compares the numbers of occurrences. -/
theorem StrAreAnagrams_eq_true (str1 str2 : List Char8) (h : str1.length < 2 ^ 64) :
    StrAreAnagrams str1 str2 = true ↔ ∀ c, str1.count c = str2.count c := by
  have h1 := anagramsCount_spec str1 [] (by simp [histogramFind]) h
  unfold StrAreAnagrams
  by_cases hlen : str1.length = str2.length
  · rw [if_neg (not_not.mpr hlen), anagramsMatch_spec _ _ h1.1]
    refine forall_congr' (fun c => ?_)
    rw [h1.2 c]
    simp [histogramCount, histogramFind]
  · rw [if_pos hlen]
    simp only [Bool.false_eq_true, false_iff]
    intro hc
    exact hlen (List.perm_iff_count.mpr hc).length_eq

/-- C17. For all strings `str1` and `str2` (a `std::string` has fewer than
`2 ^ 64` characters), `StrAreAnagrams(str1, str2)` returns true if and only if
`str2` is a permutation of `str1`, that is, if and only if every character
occurs the same number of times in both. -/
theorem StrAreAnagrams_iff (str1 str2 : List Char8) (h : str1.length < 2 ^ 64) :
    (StrAreAnagrams str1 str2 = true ↔ str2.Perm str1) ∧
    (StrAreAnagrams str1 str2 = true ↔ ∀ c, str1.count c = str2.count c) := by
  have h1 := StrAreAnagrams_eq_true str1 str2 h
  refine ⟨?_, h1⟩
  rw [h1, List.perm_iff_count]
  exact ⟨fun hc c => (hc c).symm, fun hc c => (hc c).symm⟩

/-- The law of C17 at the strings `"abcdefabc"` and `"abcabcdef"` of the
test, which are anagrams. -/
theorem StrAreAnagrams_iff_witness :
    StrAreAnagrams (Char8.ofString "abcdefabc") (Char8.ofString "abcabcdef") = true ∧
    (Char8.ofString "abcabcdef").Perm (Char8.ofString "abcdefabc") :=
  ⟨by decide!, (StrAreAnagrams_iff (Char8.ofString "abcdefabc") (Char8.ofString "abcabcdef")
    (by decide)).1.1 (by decide!)⟩

theorem getD_set_histogram (h : List Nat) (k j v : Nat) (hk : k < h.length) :
    (h.set k v).getD j 0 = if j = k then v else h.getD j 0 := by
  simp only [List.getD_eq_getElem?_getD, List.getElem?_set]
  by_cases hj : j = k
  · subst hj
    simp [hk]
  · have : ¬ k = j := fun e => hj e.symm
    simp [hj, this]

/-- The first loop of `StrAreAnagrams2` adds to the entry of each `char` its
number of occurrences, none of the increments wrapping around, and every
index it uses is one of the array. -/
theorem anagrams2Count_spec (s : List Char8) (h : List Nat) (hlen : 256 ≤ h.length)
    (hb : ∀ c : Char8, h.getD c.val 0 + s.length < 2 ^ 64) :
    256 ≤ (anagrams2Count s h).length ∧
    ∀ c : Char8, (anagrams2Count s h).getD c.val 0 = h.getD c.val 0 + s.count c := by
  induction s generalizing h with
  | nil => simp [anagrams2Count, hlen]
  | cons d s ih =>
    simp only [List.length_cons] at hb
    unfold anagrams2Count
    have hd := hb d
    have hdl : d.val < h.length := by omega
    have e : (h.getD d.val 0 + 1) % 2 ^ 64 = h.getD d.val 0 + 1 := Nat.mod_eq_of_lt (by omega)
    rw [e]
    have h1 := ih (h.set d.val (h.getD d.val 0 + 1)) (by simpa using hlen) (by
      intro c
      rw [getD_set_histogram _ _ _ _ hdl]
      have := hb c
      split
      · omega
      · omega)
    refine ⟨h1.1, fun c => ?_⟩
    rw [h1.2 c, getD_set_histogram _ _ _ _ hdl, List.count_cons]
    by_cases hc : c = d
    · subst hc
      simp
      omega
    · have h2 : ¬ c.val = d.val := fun e => hc (Fin.ext e)
      have h3 : ¬ d = c := fun e => hc e.symm
      simp [h2, h3]

/-- The second loop of `StrAreAnagrams2` answers whether the string walked
has at most as many occurrences of each `char` as the array has counted. -/
theorem anagrams2Match_spec (s : List Char8) (h : List Nat) (hlen : 256 ≤ h.length) :
    anagrams2Match s h = true ↔ ∀ c : Char8, s.count c ≤ h.getD c.val 0 := by
  induction s generalizing h with
  | nil => simp [anagrams2Match]
  | cons d s ih =>
    unfold anagrams2Match
    have hdl : d.val < h.length := by omega
    by_cases hz : h.getD d.val 0 = 0
    · rw [if_pos hz]
      simp only [Bool.false_eq_true, false_iff, not_forall]
      refine ⟨d, ?_⟩
      rw [hz]
      simp
    · rw [if_neg hz, ih _ (by simpa using hlen)]
      refine forall_congr' (fun c => ?_)
      rw [getD_set_histogram _ _ _ _ hdl, List.count_cons]
      by_cases hc : c = d
      · subst hc
        rw [if_pos rfl]
        simp only [beq_self_eq_true, if_true]
        omega
      · have h2 : ¬ c.val = d.val := fun e => hc (Fin.ext e)
        have h3 : ¬ d = c := fun e => hc e.symm
        simp [h2, h3]

theorem getD_replicate_kCharRange (c : Char8) :
    (List.replicate kCharRange 0).getD c.val 0 = 0 := by
  have e : kCharRange = 512 := by decide
  rw [e, List.getD_eq_getElem?_getD, List.getElem?_replicate]
  split <;> rfl

/-- C18. For all strings `str1` and `str2` (a `std::string` has fewer than
`2 ^ 64` characters), `StrAreAnagrams2(str1, str2) = StrAreAnagrams(str1, str2)`,
although `StrAreAnagrams2` returns true after its second pass without a look
at the histogram: the strings being of the same length, the second pass can
only complete when it has taken every count back to zero. -/
theorem StrAreAnagrams2_eq (str1 str2 : List Char8) (h : str1.length < 2 ^ 64) :
    StrAreAnagrams2 str1 str2 = StrAreAnagrams str1 str2 := by
  rw [Bool.eq_iff_iff, StrAreAnagrams_eq_true str1 str2 h]
  unfold StrAreAnagrams2
  by_cases hlen : str1.length = str2.length
  · have h0 := getD_replicate_kCharRange
    have h1 := anagrams2Count_spec str1 (List.replicate kCharRange 0)
      (by rw [List.length_replicate]; decide)
      (by
        intro c
        rw [h0 c]
        omega)
    rw [if_neg (not_not.mpr hlen), anagrams2Match_spec _ _ h1.1]
    constructor
    · intro hle
      have hsub : str2.Subperm str1 := by
        rw [List.subperm_ext_iff]
        intro c _
        have := hle c
        rw [h1.2 c, h0 c] at this
        omega
      have hp := hsub.perm_of_length_le (by omega)
      intro c
      exact (hp.count_eq c).symm
    · intro hc c
      rw [h1.2 c, h0 c, hc c]
      omega
  · rw [if_pos hlen]
    simp only [Bool.false_eq_true, false_iff]
    intro hc
    exact hlen (List.perm_iff_count.mpr hc).length_eq

/-- The law of C18 at the strings `"abcdefabc"` and `"abcabcdef"` of the
test, which both implementations accept. -/
theorem StrAreAnagrams2_eq_witness :
    StrAreAnagrams2 (Char8.ofString "abcdefabc") (Char8.ofString "abcabcdef") = true ∧
    StrAreAnagrams2 (Char8.ofString "abcdefabc") (Char8.ofString "abcabcdef") =
      StrAreAnagrams (Char8.ofString "abcdefabc") (Char8.ofString "abcabcdef") :=
  ⟨by decide!, StrAreAnagrams2_eq (Char8.ofString "abcdefabc") (Char8.ofString "abcabcdef")
    (by decide)⟩

/-! ### `str_is_roration.cc` -/

/-- `find` returns a position exactly when the string sought occurs. -/
theorem stringFind_ne_none (s t : List Char) : stringFind s t ≠ none ↔ t <:+: s := by
  unfold stringFind
  rw [ne_eq, List.find?_eq_none]
  push_neg
  constructor
  · rintro ⟨pos, _, h⟩
    rw [List.isPrefixOf_iff_prefix] at h
    exact List.IsInfix.trans h.isInfix (List.drop_suffix pos s).isInfix
  · rintro ⟨u, v, h⟩
    refine ⟨u.length, ?_, ?_⟩
    · rw [List.mem_range, ← h]
      simp
      omega
    · rw [List.isPrefixOf_iff_prefix, ← h]
      simp

/-- C19. `StrIsRotation(str1, str2)` returns true exactly when the strings
have the same length and `str2 = str1.substr(k) + str1.substr(0, k)` for some
`k` with `0 <= k <= |str1|`; two empty strings are rotations of each other, and
the strings of the file header are. -/
theorem StrIsRotation_iff :
    (∀ str1 str2 : List Char, StrIsRotation str1 str2 = true ↔
      (str1.length = str2.length ∧
        ∃ k, k ≤ str1.length ∧ str2 = str1.drop k ++ str1.take k)) ∧
    StrIsRotation [] [] = true ∧
    StrIsRotation "watermellon".toList "llonwaterme".toList = true := by
  refine ⟨?_, by decide, by decide!⟩
  intro str1 str2
  unfold StrIsRotation
  by_cases hlen : str1.length = str2.length
  · rw [if_neg (not_not.mpr hlen)]
    simp only [Bool.or_eq_true, Bool.and_eq_true, List.isEmpty_iff, decide_eq_true_eq]
    rw [stringFind_ne_none]
    refine Iff.trans ?_ (and_iff_right hlen).symm
    constructor
    · rintro (⟨h1, h2⟩ | ⟨u, v, h⟩)
      · subst h1 h2
        exact ⟨0, by simp, by simp⟩
      · have hl := congrArg List.length h
        simp only [List.length_append] at hl
        refine ⟨u.length, by omega, ?_⟩
        have h1 : str2 = ((str1 ++ str1).drop u.length).take str2.length := by
          rw [← h]
          simp
        rw [h1, List.drop_append_eq_append_drop, List.take_append_eq_append_take]
        have h2 : u.length - str1.length = 0 := by omega
        rw [h2, List.drop_zero, List.length_drop]
        have h3 : str2.length - (str1.length - u.length) = u.length := by omega
        rw [h3, List.take_of_length_le (by rw [List.length_drop]; omega)]
    · rintro ⟨k, hk, h⟩
      right
      refine ⟨str1.take k, str1.drop k, ?_⟩
      rw [h]
      simp only [List.append_assoc, List.take_append_drop]
      rw [← List.append_assoc, List.take_append_drop]
  · rw [if_pos hlen]
    simp [hlen]

/-! ### `suffix_tree.cc`: suffix links -/

namespace SuffixTree

/-- C20. Suffix-link consistency fails on the code: when `AddString("aabaaabb")`
has completed on a fresh tree, the node whose path from the root spells `"aa"`
has the root as its `suffix_node`, where the node whose path spells `"a"` is
another node; and the node whose path spells `"aab"` has as its `suffix_node`
the node that spells `"b"`, where no node spells `"ab"`. -/
theorem suffix_link_inconsistent :
    buildTree "aabaaabb".toList = .ok linkTree ∧
    nodeSpelling linkTree "aa".toList = some 2 ∧
    linkTree.nodes[2]?.map Node.suffix_node = some (some root_) ∧
    nodeSpelling linkTree "a".toList = some 1 ∧
    nodeSpelling linkTree [] = some root_ ∧
    nodeSpelling linkTree "aab".toList = some 3 ∧
    linkTree.nodes[3]?.map Node.suffix_node = some (some 4) ∧
    nodeSpelling linkTree "b".toList = some 4 ∧
    nodeSpelling linkTree "ab".toList = none := by
  decide!

end SuffixTree

/-! ### The edge-key invariant -/

namespace SuffixTree

theorem mapSet_keys_mem (m : List (Char × Nat)) (k c : Char) (w : Nat) :
    c ∈ (mapSet m k w).map Prod.fst ↔ c ∈ m.map Prod.fst ∨ c = k := by
  induction m with
  | nil => simp [mapSet]
  | cons kv rest ih =>
    obtain ⟨k1, w1⟩ := kv
    unfold mapSet
    split
    · rename_i hk
      subst hk
      simp only [List.map_cons, List.mem_cons]
      tauto
    · simp only [List.map_cons, List.mem_cons, ih]
      tauto

theorem mapSet_keys_nodup (m : List (Char × Nat)) (k : Char) (w : Nat)
    (h : (m.map Prod.fst).Nodup) : ((mapSet m k w).map Prod.fst).Nodup := by
  induction m with
  | nil => simp [mapSet]
  | cons kv rest ih =>
    obtain ⟨k1, w1⟩ := kv
    simp only [List.map_cons, List.nodup_cons] at h
    unfold mapSet
    split
    · rename_i hk
      subst hk
      simp only [List.map_cons, List.nodup_cons]
      exact h
    · rename_i hk
      simp only [List.map_cons, List.nodup_cons, mapSet_keys_mem]
      refine ⟨?_, ih h.2⟩
      rintro (h1 | h1)
      · exact h.1 h1
      · exact hk h1

/-- In a map without repeated keys an entry is determined by its key. -/
theorem eq_of_mem_of_nodup_keys {m : List (Char × Nat)} {c : Char} {p q : Nat}
    (h : (m.map Prod.fst).Nodup) (hp : (c, p) ∈ m) (hq : (c, q) ∈ m) : p = q := by
  induction m with
  | nil => simp at hp
  | cons kv rest ih =>
    obtain ⟨k1, w1⟩ := kv
    simp only [List.map_cons, List.nodup_cons] at h
    rcases List.mem_cons.mp hp with h1 | h1
    · rcases List.mem_cons.mp hq with h2 | h2
      · simp only [Prod.mk.injEq] at h1 h2
        omega
      · simp only [Prod.mk.injEq] at h1
        exfalso
        apply h.1
        rw [← h1.1]
        exact List.mem_map_of_mem Prod.fst h2
    · rcases List.mem_cons.mp hq with h2 | h2
      · simp only [Prod.mk.injEq] at h2
        exfalso
        apply h.1
        rw [← h2.1]
        exact List.mem_map_of_mem Prod.fst h1
      · exact ih h.2 h1 h2

theorem SplitEdge_key {t t1 : SuffixTree} {edge span m : Nat} (hK : KeyInv t)
    (h : SplitEdge t edge span = .ok (t1, m)) : KeyInv t1 ∧ t1.text_ = t.text_ := by
  obtain ⟨e, nc, he, _, _, hnc, ht1⟩ := SplitEdge_eq_ok h
  subst ht1
  have hedge := lt_of_getElem? he
  refine ⟨⟨?_, ?_⟩, rfl⟩
  · intro a nd c p ha hmem
    simp only at ha ⊢
    rcases getElem?_concat_cases ha with ⟨_, ha1⟩ | ⟨_, ha1⟩
    · obtain ⟨e0, he0, hc0⟩ := hK.key a nd c p ha1 hmem
      have hp := lt_of_getElem? he0
      by_cases hpe : p = edge
      · subst hpe
        rw [he] at he0
        simp only [Option.some.injEq] at he0
        subst he0
        refine ⟨⟨e.start_index, e.start_index + span, some t.nodes.length⟩, ?_, hc0⟩
        rw [List.getElem?_set]
        simp only [if_true, List.length_append, List.length_singleton]
        rw [if_pos (by omega)]
      · refine ⟨e0, ?_, hc0⟩
        rw [List.getElem?_set, if_neg (fun hh => hpe hh.symm), List.getElem?_append_left hp]
        exact he0
    · subst ha1
      simp only [List.mem_singleton, Prod.mk.injEq] at hmem
      obtain ⟨hc, hp⟩ := hmem
      subst hc hp
      refine ⟨⟨e.start_index + span + 1, e.end_index, none⟩, ?_, hnc⟩
      rw [List.getElem?_set, if_neg (by omega)]
      simp
  · intro a nd ha
    simp only at ha
    rcases getElem?_concat_cases ha with ⟨_, ha1⟩ | ⟨_, ha1⟩
    · exact hK.unique a nd ha1
    · subst ha1
      simp

theorem AddPrefixInsert_key {t t2 : SuffixTree} {parent : Nat} {cur : Char} {ci li : Nat}
    (hK : KeyInv t) (hc : charAt t.text_ ci = .ok cur)
    (h : AddPrefixInsert t parent cur ci li = .ok t2) : KeyInv t2 ∧ t2.text_ = t.text_ := by
  obtain ⟨nd0, hnd0, _, ht2⟩ := AddPrefixInsert_eq_ok h
  subst ht2
  refine ⟨⟨?_, ?_⟩, rfl⟩
  · intro a nd c p ha hmem
    simp only at ha ⊢
    have hold : ∀ (nd1 : Node), t.nodes[a]? = some nd1 → (c, p) ∈ nd1.edges →
        ∃ e, (t.edges ++ [({ start_index := ci, end_index := li, end_node := none } : Edge)])[p]? =
          some e ∧ charAt t.text_ e.start_index = .ok c := by
      intro nd1 h1 h2
      obtain ⟨e0, he0, hc0⟩ := hK.key a nd1 c p h1 h2
      exact ⟨e0, by rw [List.getElem?_append_left (lt_of_getElem? he0)]; exact he0, hc0⟩
    rcases getElem?_set_cases ha with ⟨h1, h2, _⟩ | ⟨_, h2⟩
    · subst h1 h2
      simp only at hmem
      rcases mem_mapSet hmem with h3 | ⟨h3, h4⟩
      · exact hold nd0 hnd0 h3
      · subst h3 h4
        exact ⟨⟨ci, li, none⟩, by simp, hc⟩
    · exact hold nd h2 hmem
  · intro a nd ha
    simp only at ha
    rcases getElem?_set_cases ha with ⟨h1, h2, _⟩ | ⟨_, h2⟩
    · subst h1 h2
      exact mapSet_keys_nodup _ _ _ (hK.unique _ nd0 hnd0)
    · exact hK.unique a nd h2

theorem setSuffixLink_key {t t3 : SuffixTree} {prev parent : Option Nat} (hK : KeyInv t)
    (h : setSuffixLink t prev parent = .ok t3) : KeyInv t3 ∧ t3.text_ = t.text_ := by
  unfold setSuffixLink at h
  split at h
  · simp only [Except.ok.injEq] at h
    subst h
    exact ⟨hK, rfl⟩
  · rename_i P
    split at h
    · simp only [Except.ok.injEq] at h
      subst h
      exact ⟨hK, rfl⟩
    · split at h
      · simp at h
      · rename_i n hn
        obtain ⟨a0, ha0, hn0⟩ := nodeAt_eq_ok hn
        simp only [Option.some.injEq] at ha0
        subst ha0
        simp only [Except.ok.injEq] at h
        subst h
        refine ⟨⟨?_, ?_⟩, rfl⟩
        · intro a nd c p ha hmem
          simp only at ha ⊢
          rcases getElem?_set_cases ha with ⟨h1, h2, _⟩ | ⟨_, h2⟩
          · subst h1 h2
            exact hK.key _ n c p hn0 hmem
          · exact hK.key a nd c p h2 hmem
        · intro a nd ha
          simp only at ha
          rcases getElem?_set_cases ha with ⟨h1, h2, _⟩ | ⟨_, h2⟩
          · subst h1 h2
            exact hK.unique _ n hn0
          · exact hK.unique a nd h2

end SuffixTree

namespace SuffixTree

theorem AddPrefixLocate_key {t t1 : SuffixTree} {sn : SuffixNode} {cur : Char} {parent : Nat}
    (hK : KeyInv t) (h : AddPrefixLocate t sn cur = .ok (some (t1, parent))) :
    KeyInv t1 ∧ t1.text_ = t.text_ := by
  unfold AddPrefixLocate at h
  split at h
  · split at h
    · simp at h
    · split at h
      · simp at h
      · split at h
        · simp at h
        · simp only [Except.ok.injEq, Option.some.injEq, Prod.mk.injEq] at h
          obtain ⟨h1, _⟩ := h
          subst h1
          exact ⟨hK, rfl⟩
  · split at h
    · simp at h
    · split at h
      · simp at h
      · split at h
        · simp at h
        · simp only at h
          split at h
          · simp at h
          · split at h
            · simp at h
            · split at h
              · split at h
                · simp at h
                · rename_i t2 nn hs
                  simp only [Except.ok.injEq, Option.some.injEq, Prod.mk.injEq] at h
                  obtain ⟨h1, _⟩ := h
                  subst h1
                  exact SplitEdge_key hK hs
              · simp at h

theorem AddPrefixBody_key {ci li : Nat} {cur : Char} {s s1 : LoopState} {b : Bool}
    (hK : KeyInv s.tree) (hc : charAt s.tree.text_ ci = .ok cur)
    (h : AddPrefixBody ci cur li s = .ok (b, s1)) :
    KeyInv s1.tree ∧ s1.tree.text_ = s.tree.text_ := by
  unfold AddPrefixBody at h
  simp only at h
  split at h
  · simp at h
  · simp only [Except.ok.injEq, Prod.mk.injEq] at h
    obtain ⟨_, h1⟩ := h
    subst h1
    exact ⟨hK, rfl⟩
  · rename_i t1 parent hloc
    obtain ⟨hK1, ht1⟩ := AddPrefixLocate_key hK hloc
    split at h
    · simp at h
    · rename_i t2 hins
      obtain ⟨hK2, ht2⟩ := AddPrefixInsert_key hK1 (by rw [ht1]; exact hc) hins
      split at h
      · simp at h
      · rename_i t3 hlink
        obtain ⟨hK3, ht3⟩ := setSuffixLink_key hK2 hlink
        split at h
        · simp at h
        · split at h
          · simp at h
          · simp only [Except.ok.injEq, Prod.mk.injEq] at h
            obtain ⟨_, h1⟩ := h
            subst h1
            exact ⟨hK3, by simp only; rw [ht3, ht2, ht1]⟩

theorem AddPrefixLoop_key (ci li : Nat) (cur : Char) :
    ∀ (fuel : Nat) (s s1 : LoopState), KeyInv s.tree → charAt s.tree.text_ ci = .ok cur →
      AddPrefixLoop ci cur li fuel s = .ok s1 →
      KeyInv s1.tree ∧ s1.tree.text_ = s.tree.text_ := by
  intro fuel
  induction fuel with
  | zero =>
    intro s s1 _ _ h
    simp [AddPrefixLoop] at h
  | succ fuel ih =>
    intro s s1 hK hc h
    unfold AddPrefixLoop at h
    split at h
    · simp at h
    · rename_i s2 hb
      simp only [Except.ok.injEq] at h
      subst h
      exact AddPrefixBody_key hK hc hb
    · rename_i s2 hb
      obtain ⟨hK2, ht2⟩ := AddPrefixBody_key hK hc hb
      obtain ⟨hK3, ht3⟩ := ih s2 s1 hK2 (by rw [ht2]; exact hc) h
      exact ⟨hK3, by rw [ht3, ht2]⟩

theorem AddPrefix_key {fuel i : Nat} {t t1 : SuffixTree} {sn sn1 : SuffixNode} (hK : KeyInv t)
    (h : AddPrefix fuel t sn i = .ok (t1, sn1)) : KeyInv t1 ∧ t1.text_ = t.text_ := by
  unfold AddPrefix at h
  split at h
  · simp at h
  · rename_i cur hc
    simp only at h
    split at h
    · simp at h
    · rename_i s hloop
      obtain ⟨hK1, ht1⟩ := AddPrefixLoop_key i _ cur fuel _ s hK hc hloop
      split at h
      · simp at h
      · rename_i t2 hlink
        obtain ⟨hK2, ht2⟩ := setSuffixLink_key hK1 hlink
        split at h
        · simp at h
        · simp only [Except.ok.injEq, Prod.mk.injEq] at h
          obtain ⟨h1, _⟩ := h
          subst h1
          exact ⟨hK2, by rw [ht2, ht1]⟩

theorem AddStringLoop_key (fuel : Nat) :
    ∀ (count i : Nat) (t t1 : SuffixTree) (sn sn1 : SuffixNode), KeyInv t →
      AddStringLoop fuel count i t sn = .ok (t1, sn1) → KeyInv t1 := by
  intro count
  induction count with
  | zero =>
    intro i t t1 sn sn1 hK h
    simp only [AddStringLoop, Except.ok.injEq, Prod.mk.injEq] at h
    obtain ⟨h1, _⟩ := h
    subst h1
    exact hK
  | succ count ih =>
    intro i t t1 sn sn1 hK h
    unfold AddStringLoop at h
    split at h
    · simp at h
    · rename_i t2 sn2 hp
      exact ih (i + 1) t2 t1 sn2 sn1 (AddPrefix_key hK hp).1 h

/-- The edge-key invariant holds after every phase that completes. -/
theorem buildPhases_key (T : List Char) (k : Nat) (t : SuffixTree) (sn : SuffixNode)
    (h : buildPhases T k = .ok (t, sn)) : KeyInv t := by
  unfold buildPhases at h
  refine AddStringLoop_key _ k 0 _ t _ sn ⟨?_, ?_⟩ h
  · intro a nd c p ha hmem
    simp only [SuffixTree.new] at ha
    have h1 := lt_of_getElem? ha
    simp only [List.length_singleton, Nat.lt_one_iff] at h1
    subst h1
    simp only [List.getElem?_cons_zero, Option.some.injEq] at ha
    subst ha
    simp at hmem
  · intro a nd ha
    simp only [SuffixTree.new] at ha
    have h1 := lt_of_getElem? ha
    simp only [List.length_singleton, Nat.lt_one_iff] at h1
    subst h1
    simp only [List.getElem?_cons_zero, Option.some.injEq] at ha
    subst ha
    simp

end SuffixTree

/-! ### `suffix_tree.cc`: `Canonize`, `SplitEdge` and the heap -/

namespace SuffixTree

/-- Where `Canonize` stops: at an explicit point, or at a point whose edge
is there and spans at least the symbols of the point but the first. -/
theorem Canonize_stop_edge (t : SuffixTree) :
    ∀ (fuel : Nat) (sn sn1 : SuffixNode), Canonize t fuel sn = .ok sn1 →
      sn1.first_char_index > sn1.last_char_index ∨
      ∃ a node c p e, sn1.active_node = some a ∧ t.nodes[a]? = some node ∧
        charAtInt t.text_ sn1.first_char_index = .ok c ∧ node.GetEdge c = some p ∧
        t.edges[p]? = some e ∧ (e.Span : Int) ≥ sn1.last_char_index - sn1.first_char_index := by
  intro fuel
  induction fuel with
  | zero =>
    intro sn sn1 h
    unfold Canonize at h
    split at h
    · rename_i hexp
      simp only [Except.ok.injEq] at h
      subst h
      left
      simpa [SuffixNode.IsExplicit] using hexp
    · simp at h
  | succ fuel ih =>
    intro sn sn1 h
    unfold Canonize at h
    split at h
    · rename_i hexp
      simp only [Except.ok.injEq] at h
      subst h
      left
      simpa [SuffixNode.IsExplicit] using hexp
    · split at h
      · simp at h
      · rename_i a ha
        split at h
        · simp at h
        · rename_i c hc
          split at h
          · simp at h
          · rename_i node hnode
            split at h
            · simp at h
            · rename_i p hp
              split at h
              · simp at h
              · rename_i e he
                split at h
                · exact ih _ sn1 h
                · rename_i hspan
                  simp only [Except.ok.injEq] at h
                  subst h
                  right
                  obtain ⟨a1, ha1, hn1⟩ := nodeAt_eq_ok hnode
                  simp only [Option.some.injEq] at ha1
                  subst ha1
                  exact ⟨a, node, c, p, e, ha, hn1, hc, hp, edgeAt_eq_ok he, by omega⟩

/-- C21. `Canonize` does not normalize to a remaining offset strictly inside
an edge: the construction over `"aaba"` ends with a call of `Canonize` that
returns the point of the one symbol `text_[3..3]` anchored at the root, where
the edge of the root for `'a'` has the one symbol `text_[0..0]` and a child
node: the remaining symbols number `1`, not fewer than the length
`Span() + 1 = 1` of the edge, and the point rests on the far end of an edge
that has a child while anchored at its parent.  The same happens over the
text `"abcabxabcd"` of the test: the phase of the symbol at `7` ends with the
point of the two symbols `text_[6..7]` anchored at the root, on the far end of
the edge `text_[0..1]`, which has a child. -/
theorem Canonize_rests_on_far_end :
    buildPhases "aaba".toList 4 = .ok (farEndTree, ⟨3, 3, some root_⟩) ∧
    Canonize farEndTree (canonizeFuel ⟨3, 3, some root_⟩) ⟨3, 3, some root_⟩ =
      .ok ⟨3, 3, some root_⟩ ∧
    SuffixNode.IsExplicit ⟨3, 3, some root_⟩ = false ∧
    charAtInt farEndTree.text_ 3 = .ok 'a' ∧
    farEndTree.nodes[root_]?.bind (fun nd => nd.GetEdge 'a') = some 0 ∧
    farEndTree.edges[0]? = some ⟨0, 0, some 1⟩ ∧
    ¬ ((3 : Int) - 3 + 1 < (((⟨0, 0, some 1⟩ : Edge).Span + 1 : Nat) : Int)) ∧
    buildPhases "abcabxabcd".toList 8 = .ok (scenarioTreeAt8, ⟨6, 7, some root_⟩) ∧
    Canonize scenarioTreeAt8 (canonizeFuel ⟨6, 7, some root_⟩) ⟨6, 7, some root_⟩ =
      .ok ⟨6, 7, some root_⟩ ∧
    charAtInt scenarioTreeAt8.text_ 6 = .ok 'a' ∧
    scenarioTreeAt8.nodes[root_]?.bind (fun nd => nd.GetEdge 'a') = some 0 ∧
    scenarioTreeAt8.edges[0]? = some ⟨0, 1, some 1⟩ ∧
    ¬ ((7 : Int) - 6 + 1 < (((⟨0, 1, some 1⟩ : Edge).Span + 1 : Nat) : Int)) := by
  decide!

/-- C22. `Canonize` stops only when the implicit length fits in the current
edge: a call of `Canonize`, in whatever state of the tree and of the active
point, stops by itself, and whenever it returns without a failed assertion,
either the active point is explicit (`first_char_index > last_char_index`) or
`active_node` has an edge keyed by `text[first_char_index]` and the `Span()`
of that edge is at least `last_char_index - first_char_index`. -/
theorem Canonize_stops (t : SuffixTree) (sn : SuffixNode) :
    Canonize t (canonizeFuel sn) sn ≠ .error .out_of_fuel ∧
    ∀ (fuel : Nat) (sn1 : SuffixNode), Canonize t fuel sn = .ok sn1 →
      sn1.first_char_index > sn1.last_char_index ∨
      ∃ a node c p e, sn1.active_node = some a ∧ t.nodes[a]? = some node ∧
        charAtInt t.text_ sn1.first_char_index = .ok c ∧ node.GetEdge c = some p ∧
        t.edges[p]? = some e ∧ (e.Span : Int) ≥ sn1.last_char_index - sn1.first_char_index :=
  ⟨Canonize_ne_fuel t _ sn (le_refl _), fun fuel sn1 h => Canonize_stop_edge t fuel sn sn1 h⟩

/-- The law of C22 on the tree of `"abcabxabcd"`, for the point of the three
symbols `text_[6..8]` anchored at the root: `Canonize` skips the edge of
`"ab"` and stops at the point of `text_[8..8]` anchored at its child, whose
edge for `'c'` has `Span() = 0`. -/
theorem Canonize_stops_witness :
    Canonize scenarioTree 3 ⟨6, 8, some root_⟩ = .ok ⟨8, 8, some 1⟩ ∧
    ((8 : Int) > 8 ∨
      ∃ a node c p e, (some 1 : Option Nat) = some a ∧ scenarioTree.nodes[a]? = some node ∧
        charAtInt scenarioTree.text_ 8 = .ok c ∧ node.GetEdge c = some p ∧
        scenarioTree.edges[p]? = some e ∧ (e.Span : Int) ≥ (8 : Int) - 8) :=
  ⟨by decide!, (Canonize_stops scenarioTree ⟨6, 8, some root_⟩).2 3 ⟨8, 8, some 1⟩ (by decide!)⟩

/-- C23. `SplitEdge` does not split an edge that has a child: in the last
phase of `AddString("aaab")` the second execution of the loop body of
`AddPrefix` calls `SplitEdge(edge, 0)` for the edge of the root with range
`[0, 1]` and child node `1`, where `0 <= span < e - s`, and the call fails on
`assert(edge->end_node == NULL)` instead of returning a new node whose edge
leads to that child. -/
theorem SplitEdge_fails_on_child :
    buildPhases "aaab".toList 3 =
      .ok (⟨"aaab".toList, [⟨[('a', 0)], none⟩], [⟨0, 3, none⟩]⟩, ⟨1, 2, some root_⟩) ∧
    AddPrefixBody 3 'b' 3
        ⟨⟨"aaab".toList, [⟨[('a', 0)], none⟩], [⟨0, 3, none⟩]⟩, ⟨1, 2, some root_⟩, none, none⟩ =
      .ok (false, ⟨splitTree, ⟨2, 2, some root_⟩, some 1, some 1⟩) ∧
    splitTree.edges[0]? = some ⟨0, 1, some 1⟩ ∧
    SplitEdge splitTree 0 0 = .error .assert_split_end_node ∧
    AddPrefixLocate splitTree ⟨2, 2, some root_⟩ 'b' = .error .assert_split_end_node := by
  decide!

/-- Where `SplitEdge` is right, the split of a leaf edge: for an edge with range `[s, e]`
of the text and no child, and an offset `span` with `0 <= span < e - s`,
`SplitEdge(edge, span)` returns a newly created node `M` such that afterwards
the original edge has range `[s, s + span]` and child `M`, `M` has exactly one
outgoing edge, keyed by `text_[s + span + 1]`, with range `[s + span + 1, e]`
and no child, `M` has no suffix link, no other node or edge has changed, and
the label of the original edge followed by the label of the new edge is the
original label `text_[s..e]`. -/
theorem SplitEdge_leaf (t : SuffixTree) (edge span : Nat) (e : Edge)
    (he : t.edges[edge]? = some e) (hleaf : e.end_node = none)
    (hspan : span < e.end_index - e.start_index) (hend : e.end_index < t.text_.length) :
    ∃ t1 M c, SplitEdge t edge span = .ok (t1, M) ∧ M = t.nodes.length ∧
      t1.text_ = t.text_ ∧
      t1.nodes = t.nodes ++ [⟨[(c, t.edges.length)], none⟩] ∧
      t.text_[e.start_index + span + 1]? = some c ∧
      t1.edges.length = t.edges.length + 1 ∧
      t1.edges[edge]? = some ⟨e.start_index, e.start_index + span, some M⟩ ∧
      t1.edges[t.edges.length]? = some ⟨e.start_index + span + 1, e.end_index, none⟩ ∧
      (∀ p, p ≠ edge → p < t.edges.length → t1.edges[p]? = t.edges[p]?) ∧
      t1.edgeLabel ⟨e.start_index, e.start_index + span, some M⟩ ++
        t1.edgeLabel ⟨e.start_index + span + 1, e.end_index, none⟩ = t.edgeLabel e := by
  have hedge := lt_of_getElem? he
  have hidx : e.start_index + span + 1 < t.text_.length := by omega
  have hc : charAt t.text_ (e.start_index + span + 1) =
      .ok (t.text_.get ⟨e.start_index + span + 1, hidx⟩) := by
    unfold charAt
    rw [List.getElem?_eq_getElem hidx]
    rfl
  have hrun : SplitEdge t edge span =
      .ok ({ text_ := t.text_,
             nodes := t.nodes ++ [⟨[(t.text_.get ⟨e.start_index + span + 1, hidx⟩,
               t.edges.length)], none⟩],
             edges := (t.edges ++ [(⟨e.start_index + span + 1, e.end_index, none⟩ : Edge)]).set edge
               ⟨e.start_index, e.start_index + span, some t.nodes.length⟩ }, t.nodes.length) := by
    unfold SplitEdge edgeAt
    rw [he]
    simp only
    rw [hc]
    simp only [hleaf, ne_eq, not_true_eq_false, if_false, mapSet]
  refine ⟨_, _, _, hrun, rfl, rfl, rfl, List.getElem?_eq_getElem hidx, ?_, ?_, ?_, ?_, ?_⟩
  · simp
  · simp only
    rw [List.getElem?_set, if_pos rfl, if_pos (by simp; omega)]
  · simp only
    rw [List.getElem?_set, if_neg (by omega)]
    simp
  · intro p hp hlt
    simp only
    rw [List.getElem?_set, if_neg (fun hh => hp hh.symm), List.getElem?_append_left hlt]
  · unfold edgeLabel
    simp only
    have s1 : (⟨e.start_index, e.start_index + span, some t.nodes.length⟩ : Edge).Span = span := by
      rw [Span_eq (by simp)]
      simp
    have s2 : (⟨e.start_index + span + 1, e.end_index, none⟩ : Edge).Span =
        e.end_index - (e.start_index + span + 1) := by
      rw [Span_eq (by simp only; omega)]
    have s3 : e.Span = e.end_index - e.start_index := Span_eq (by omega)
    rw [s1, s2, s3]
    have e1 : e.end_index - e.start_index + 1 =
        (span + 1) + (e.end_index - (e.start_index + span + 1) + 1) := by omega
    rw [e1, List.take_add (List.drop e.start_index t.text_) (span + 1)
      (e.end_index - (e.start_index + span + 1) + 1), List.drop_drop]
    rfl

/-- The first split of the last phase of `AddString("aaab")`: the leaf edge
`[0, 3]` of the root is split after `"aa"`. -/
theorem SplitEdge_leaf_witness :
    SplitEdge ⟨"aaab".toList, [⟨[('a', 0)], none⟩], [⟨0, 3, none⟩]⟩ 0 1 =
      .ok (⟨"aaab".toList, [⟨[('a', 0)], none⟩, ⟨[('a', 1)], none⟩],
        [⟨0, 1, some 1⟩, ⟨2, 3, none⟩]⟩, 1) ∧
    ∃ t1 M c, SplitEdge ⟨"aaab".toList, [⟨[('a', 0)], none⟩], [⟨0, 3, none⟩]⟩ 0 1 = .ok (t1, M) ∧
      M = 1 ∧ t1.text_ = "aaab".toList ∧
      t1.nodes = [⟨[('a', 0)], none⟩] ++ [⟨[(c, 1)], none⟩] ∧
      "aaab".toList[0 + 1 + 1]? = some c ∧
      t1.edges.length = 1 + 1 ∧
      t1.edges[0]? = some ⟨0, 0 + 1, some M⟩ ∧
      t1.edges[1]? = some ⟨0 + 1 + 1, 3, none⟩ ∧
      (∀ p, p ≠ 0 → p < 1 → t1.edges[p]? = [(⟨0, 3, none⟩ : Edge)][p]?) ∧
      t1.edgeLabel ⟨0, 0 + 1, some M⟩ ++ t1.edgeLabel ⟨0 + 1 + 1, 3, none⟩ =
        SuffixTree.edgeLabel ⟨"aaab".toList, [⟨[('a', 0)], none⟩], [⟨0, 3, none⟩]⟩ ⟨0, 3, none⟩ :=
  ⟨by decide!,
    SplitEdge_leaf ⟨"aaab".toList, [⟨[('a', 0)], none⟩], [⟨0, 3, none⟩]⟩ 0 1 ⟨0, 3, none⟩
      (by decide!) rfl (by decide) (by decide)⟩

/-- C24. Edge-key invariant: when the first `k` phases of `AddString(T)` on a
fresh tree have completed (with `k = |T|`, the construction has), every entry
`(c, p)` of the edge map of every node of the tree leads to an edge `e` with
`text_[e.start_index] = c`, and two entries of one map whose edges start with
the same symbol are the same entry. -/
theorem edge_key_invariant (T : List Char) (k : Nat) (t : SuffixTree) (sn : SuffixNode)
    (hk : k ≤ T.length) (h : buildPhases T k = .ok (t, sn)) :
    t.text_ = T ∧
    (∀ (a : Nat) (nd : Node) (c : Char) (p : Nat), t.nodes[a]? = some nd → (c, p) ∈ nd.edges →
      ∃ e, t.edges[p]? = some e ∧ T[e.start_index]? = some c) ∧
    (∀ (a : Nat) (nd : Node) (c1 c2 : Char) (p1 p2 : Nat) (e1 e2 : Edge),
      t.nodes[a]? = some nd → (c1, p1) ∈ nd.edges → (c2, p2) ∈ nd.edges →
      t.edges[p1]? = some e1 → t.edges[p2]? = some e2 →
      T[e1.start_index]? = T[e2.start_index]? → c1 = c2 ∧ p1 = p2) := by
  obtain ⟨htext, dep, edep, a0, hI⟩ := (buildPhases_inv T k hk).2 t sn h
  have hK := buildPhases_key T k t sn h
  have hkey : ∀ (a : Nat) (nd : Node) (c : Char) (p : Nat), t.nodes[a]? = some nd →
      (c, p) ∈ nd.edges → ∃ e, t.edges[p]? = some e ∧ T[e.start_index]? = some c := by
    intro a nd c p ha hmem
    obtain ⟨e, he, hc⟩ := hK.key a nd c p ha hmem
    refine ⟨e, he, ?_⟩
    have hlt := hI.heap.edge p e he
    rw [htext] at hc hlt
    unfold charAt at hc
    rw [List.getElem?_eq_getElem (by omega)] at hc ⊢
    simp only [Except.ok.injEq] at hc
    rw [hc]
  refine ⟨htext, hkey, ?_⟩
  intro a nd c1 c2 p1 p2 e1 e2 ha h1 h2 he1 he2 heq
  obtain ⟨e3, he3, hc3⟩ := hkey a nd c1 p1 ha h1
  obtain ⟨e4, he4, hc4⟩ := hkey a nd c2 p2 ha h2
  rw [he1] at he3
  rw [he2] at he4
  simp only [Option.some.injEq] at he3 he4
  subst he3 he4
  rw [heq, hc4] at hc3
  simp only [Option.some.injEq] at hc3
  subst hc3
  exact ⟨rfl, eq_of_mem_of_nodup_keys (hK.unique a nd ha) h1 h2⟩

/-- The law of C24 on the tree of `"abcabxabcd"`: the entry of the root for
`'x'` leads to an edge that starts with `'x'`. -/
theorem edge_key_invariant_witness :
    buildPhases "abcabxabcd".toList 10 = .ok (scenarioTree, ⟨10, 9, some root_⟩) ∧
    ∃ e, scenarioTree.edges[7]? = some e ∧ "abcabxabcd".toList[e.start_index]? = some 'x' :=
  ⟨by decide!,
    (edge_key_invariant "abcabxabcd".toList 10 scenarioTree ⟨10, 9, some root_⟩ (by decide)
      (by decide!)).2.1 0 ⟨[('a', 0), ('b', 1), ('c', 2), ('x', 7), ('d', 14)], none⟩ 'x' 7
      (by decide!) (by decide)⟩

/-- C25. Open leaf edges: when the first `k` phases of `AddString(T)` on a
fresh tree have completed, every edge without a child node
(`end_node == NULL`) has `end_index = |T| - 1`, the index of the last symbol
of the text; a tree with an edge has a text that is not empty. -/
theorem leaf_edges_open (T : List Char) (k : Nat) (t : SuffixTree) (sn : SuffixNode)
    (hk : k ≤ T.length) (h : buildPhases T k = .ok (t, sn)) :
    ∀ (p : Nat) (e : Edge), t.edges[p]? = some e → e.end_node = none →
      0 < T.length ∧ e.end_index = T.length - 1 := by
  obtain ⟨htext, dep, edep, a0, hI⟩ := (buildPhases_inv T k hk).2 t sn h
  intro p e he hnone
  have := hI.heap.leaf p e he hnone
  rw [htext] at this
  omega

/-- The law of C25 on the tree of `"abcabxabcd"`: the edge `[5, 9]` below the
node of `"ab"` is a leaf edge and ends at the last index `9` of the text. -/
theorem leaf_edges_open_witness :
    buildPhases "abcabxabcd".toList 10 = .ok (scenarioTree, ⟨10, 9, some root_⟩) ∧
    scenarioTree.edges[4]? = some ⟨5, 9, none⟩ ∧
    (0 < "abcabxabcd".toList.length ∧
      (⟨5, 9, none⟩ : Edge).end_index = "abcabxabcd".toList.length - 1) :=
  ⟨by decide!, by decide!,
    leaf_edges_open "abcabxabcd".toList 10 scenarioTree ⟨10, 9, some root_⟩ (by decide)
      (by decide!) 4 ⟨5, 9, none⟩ (by decide!) rfl⟩

end SuffixTree
